import Mathlib

/-!
Verification of the GVPA graph-engine core against its specification.

This file gives a shallow embedding, in Lean 4, of the parts of the GVPA
repository that the specification's testable properties talk about:

* `core/code_graph_builder.py` (`CodeGraphBuilder.build_graph`,
  `_classify_node`, `_compute_layered_layout`, `_build_aggregated_file_graph`);
* `core/project_analyzer.py` (the call-resolution part of
  `ProjectCodeAnalyzer.analyze_project`);
* `core/git_analyzer.py` (`GitAnalyzer._merge_analyses`);
* `ai/plugins/layout_optimizer.py` (`AIGraphOptimizer._layout_layered_strict`
  and `_layout_hybrid`).

Modelling conventions:

* Python dicts carrying attribute bags become Lean structures whose fields are
  `Option`-typed; a field being `none` models the key being absent, and
  `Option.getD` models `dict.get(key, default)`.
* `networkx.DiGraph` becomes `GVPA.Digraph`: an insertion-ordered association
  list of nodes and of edges, with `add_node`/`add_edge` updating attributes
  in place (Python's `dict.update` semantics are modelled by a field-wise
  merge that prefers the new value exactly when the new dict carries the key).
  Node iteration order is insertion order, as in networkx; edge iteration
  order is modelled as edge insertion order.
* Python floats become rationals (`ℚ`); the layout code only adds, halves,
  compares and takes maxima of its inputs, so exact rational arithmetic is
  the intended semantics.
* Python strings are Lean `String`s; string ordering (`sorted(key=str)`) and
  suffix tests are implemented over `String.toList` so that they are
  kernel-computable.
* Fallible library calls (`nx.topological_sort`, `nx.topological_generations`)
  become `Option`-returning functions; the Python `try/except` fallback
  branches become `match`es on those options.
-/

set_option maxHeartbeats 1000000
set_option maxRecDepth 8000

namespace GVPA

/-! ## String helpers (kernel-computable replacements for `String` methods) -/

/-- Char-list comparison implementing Python string `<=` (lexicographic by
code point), used for `sorted(...)`/`list.sort(key=str)`. -/
def strLeAux : List Char → List Char → Bool
  | [], _ => true
  | _ :: _, [] => false
  | a :: as, b :: bs => if a = b then strLeAux as bs else decide (a.toNat ≤ b.toNat)

/-- Python `a <= b` on strings. -/
def strLe (a b : String) : Bool := strLeAux a.toList b.toList

/-- Python `a.endswith(b)`. -/
def strEndsWith (a b : String) : Bool := b.toList.isSuffixOf a.toList

/-- Bool-valued list-infix test. -/
def isInfixB : List Char → List Char → Bool
  | needle, [] => needle.isEmpty
  | needle, c :: rest => needle.isPrefixOf (c :: rest) || isInfixB needle rest

/-- Python `b in a` (substring containment), used for `"cv2." in node_id`. -/
def strContainsSub (a b : String) : Bool := isInfixB b.toList a.toList

/-- Python truthiness of an optional string (absent key, `None` or `""` are
falsy). -/
def truthyS : Option String → Bool
  | none => false
  | some s => !(decide (s = ""))

/-- Python `os.path.basename` for forward-slash paths (the repository builds
titles with it; only injectivity-free display data depends on it). -/
def basename (s : String) : String :=
  match (s.toList.reverse.takeWhile (fun c => !(decide (c = '/')))).reverse with
  | l => String.mk l

/-! ## Insertion-ordered association-list helpers -/

variable {α : Type} {β : Type} [DecidableEq α]

/-- First-match lookup in an insertion-ordered association list (Python dict
read). -/
def alookup (a : α) : List (α × β) → Option β
  | [] => none
  | (k, v) :: l => if k = a then some v else alookup a l

/-- Python dict write `d[k] = v`: update in place if the key exists (keeping
its position), else append. -/
def ainsert (a : α) (v : β) : List (α × β) → List (α × β)
  | [] => [(a, v)]
  | (k, w) :: l => if k = a then (a, v) :: l else (k, w) :: ainsert a v l

/-- Python `d[k] = d.get(k, 0) + 1` — the counting idiom used for
`call_counts`, `hit_counts`, `file_func_count` and `file_edges`. -/
def abump (a : α) (l : List (α × Nat)) : List (α × Nat) :=
  ainsert a ((alookup a l).getD 0 + 1) l

/-- Keys of an association list, in insertion order. -/
def akeys (l : List (α × β)) : List α := l.map Prod.fst

/-- First-occurrence deduplication: the order in which a Python dict built by
repeated insertion lists its keys. -/
def firstDedup : List α → List α
  | [] => []
  | a :: l => a :: (firstDedup l).filter (fun b => !(decide (b = a)))

/-- Stable insertion: `a` goes before the first element it is `le` to.
For a total preorder this produces exactly the output of Python's stable
`sort`, and unlike `List.mergeSort` it is structurally recursive, so the
kernel can evaluate it. -/
def insertSorted (le : α → α → Bool) (a : α) : List α → List α
  | [] => [a]
  | b :: l => if le a b then a :: b :: l else b :: insertSorted le a l

/-- Stable sort by insertion (Python `sorted`/`list.sort`). -/
def stableSort (le : α → α → Bool) : List α → List α
  | [] => []
  | a :: l => insertSorted le a (stableSort le l)

theorem mem_insertSorted (le : α → α → Bool) (a b : α) :
    ∀ (l : List α), b ∈ insertSorted le a l ↔ b = a ∨ b ∈ l := by
  intro l
  induction l with
  | nil => simp [insertSorted]
  | cons c l ih =>
    simp only [insertSorted]
    by_cases h : le a c = true
    · rw [if_pos h]
      simp [List.mem_cons]
    · rw [if_neg h]
      simp only [List.mem_cons, ih]
      tauto

theorem mem_stableSort (le : α → α → Bool) (b : α) :
    ∀ (l : List α), b ∈ stableSort le l ↔ b ∈ l := by
  intro l
  induction l with
  | nil => simp [stableSort]
  | cons a l ih =>
    simp only [stableSort, mem_insertSorted, List.mem_cons, ih]

theorem alookup_ainsert_self (a : α) (v : β) (l : List (α × β)) :
    alookup a (ainsert a v l) = some v := by
  induction l with
  | nil => simp [ainsert, alookup]
  | cons p l ih =>
    by_cases h : p.1 = a
    · simp [ainsert, alookup, h]
    · simp [ainsert, alookup, h, ih]

theorem alookup_ainsert_ne (a b : α) (v : β) (l : List (α × β)) (h : b ≠ a) :
    alookup b (ainsert a v l) = alookup b l := by
  induction l with
  | nil => simp [ainsert, alookup, Ne.symm h]
  | cons p l ih =>
    obtain ⟨k, w⟩ := p
    by_cases hp : k = a
    · subst hp
      have hb : ¬ k = b := fun hc => h hc.symm
      simp [ainsert, alookup, hb]
    · by_cases hb : k = b
      · simp [ainsert, alookup, hp, hb, h]
      · simp [ainsert, alookup, hp, hb, ih]

theorem mem_firstDedup (a : α) (l : List α) : a ∈ firstDedup l ↔ a ∈ l := by
  induction l with
  | nil => simp [firstDedup]
  | cons b l ih =>
    by_cases h : a = b
    · subst h; simp [firstDedup]
    · simp only [firstDedup, List.mem_cons, List.mem_filter]
      constructor
      · rintro (rfl | ⟨hm, _⟩)
        · exact .inl rfl
        · exact .inr (ih.mp hm)
      · rintro (rfl | hm)
        · exact .inl rfl
        · exact .inr ⟨ih.mpr hm, by simpa using h⟩

theorem firstDedup_nodup (l : List α) : (firstDedup l).Nodup := by
  induction l with
  | nil => simp [firstDedup]
  | cons b l ih =>
    simp only [firstDedup, List.nodup_cons]
    refine ⟨fun hmem => ?_, ih.filter _⟩
    have := (List.mem_filter.mp hmem).2
    simp at this

end GVPA

namespace GVPA

/-! ## `networkx.DiGraph` embedding -/

/-- A directed graph with node attributes `ν` and edge attributes `ε`,
insertion-ordered as networkx's dict-of-dicts representation is. -/
structure Digraph (α ν ε : Type) where
  nodes : List (α × ν)
  edges : List (α × α × ε)
  deriving DecidableEq

variable {α ν ε : Type} [DecidableEq α]

namespace Digraph

/-- The empty graph (`nx.DiGraph()`). -/
def empty : Digraph α ν ε := ⟨[], []⟩

/-- `G.has_node(a)`. -/
def hasNode (g : Digraph α ν ε) (a : α) : Bool :=
  g.nodes.any (fun p => decide (p.1 = a))

/-- Node attribute lookup `G.nodes[a]`. -/
def attrs (g : Digraph α ν ε) (a : α) : Option ν := alookup a g.nodes

/-- `G.add_node(a, **v)`: inserts the node, or updates the attributes of an
existing node in place.  `merge old new` models `old_attrs.update(new_attrs)`
(field-wise: the new value wins exactly when the new dict carries the key). -/
def addNode (g : Digraph α ν ε) (a : α) (v : ν) (merge : ν → ν → ν) :
    Digraph α ν ε :=
  if g.hasNode a then
    { g with nodes := g.nodes.map (fun p => if p.1 = a then (a, merge p.2 v) else p) }
  else
    { g with nodes := g.nodes ++ [(a, v)] }

/-- `G.has_edge(u, v)`. -/
def hasEdge (g : Digraph α ν ε) (u v : α) : Bool :=
  g.edges.any (fun t => decide (t.1 = u) && decide (t.2.1 = v))

/-- Edge attribute lookup. -/
def eattrs (g : Digraph α ν ε) (u v : α) : Option ε :=
  (g.edges.find? (fun t => decide (t.1 = u) && decide (t.2.1 = v))).map (fun t => t.2.2)

/-- `G.add_edge(u, v, **e)` where both endpoints already exist as nodes (the
only way the repository ever calls it); updates attributes in place for a
duplicate edge, with the same `merge` semantics as `addNode`. -/
def addEdge (g : Digraph α ν ε) (u v : α) (e : ε) (merge : ε → ε → ε) :
    Digraph α ν ε :=
  if g.hasEdge u v then
    { g with
      edges := g.edges.map
        (fun t => if t.1 = u ∧ t.2.1 = v then (u, v, merge t.2.2 e) else t) }
  else
    { g with edges := g.edges ++ [(u, v, e)] }

/-- `G.remove_edge(u, v)`. -/
def removeEdge (g : Digraph α ν ε) (u v : α) : Digraph α ν ε :=
  { g with
    edges := g.edges.filter (fun t => !(decide (t.1 = u) && decide (t.2.1 = v))) }

/-- Remove a set of nodes and every incident edge (one peeling step of
`nx.topological_generations`). -/
def removeNodes (g : Digraph α ν ε) (s : List α) : Digraph α ν ε :=
  { nodes := g.nodes.filter (fun p => !(decide (p.1 ∈ s)))
    edges := g.edges.filter (fun t => !(decide (t.1 ∈ s)) && !(decide (t.2.1 ∈ s))) }

/-- `G.in_degree(a)`. -/
def inDegree (g : Digraph α ν ε) (a : α) : Nat :=
  (g.edges.filter (fun t => decide (t.2.1 = a))).length

/-- `list(G.successors(a))`. -/
def successors (g : Digraph α ν ε) (a : α) : List α :=
  (g.edges.filter (fun t => decide (t.1 = a))).map (fun t => t.2.1)

/-- `list(G.predecessors(a))`. -/
def predecessors (g : Digraph α ν ε) (a : α) : List α :=
  (g.edges.filter (fun t => decide (t.2.1 = a))).map (fun t => t.1)

/-- `list(G.nodes())`. -/
def keys (g : Digraph α ν ε) : List α := g.nodes.map Prod.fst

/-- Well-formedness invariant maintained by networkx: every edge endpoint is
a node, and node keys are unique. -/
def Wf (g : Digraph α ν ε) : Prop :=
  (∀ t ∈ g.edges, t.1 ∈ g.keys ∧ t.2.1 ∈ g.keys) ∧ g.keys.Nodup

end Digraph

end GVPA

namespace GVPA

namespace Digraph

variable {α ν ε : Type} [DecidableEq α]

/-! ## Reachability and cycles -/

/-- Bounded reachability: `reachN g k a b` holds when there is a directed
path from `a` to `b` of length at most `k`. -/
def reachN (g : Digraph α ν ε) : Nat → α → α → Bool
  | 0, a, b => decide (a = b)
  | k + 1, a, b => decide (a = b) || (g.successors a).any (fun c => reachN g k c b)

/-- Reachability (fuel `|nodes|` suffices: a shortest path repeats no node). -/
def reachable (g : Digraph α ν ε) (a b : α) : Bool :=
  reachN g g.nodes.length a b

/-- An edge `(u, v)` lies on some simple cycle of a directed graph exactly
when `v` reaches `u`.  This is the extensional embedding of the edge set
swept out by `nx.simple_cycles` in `build_graph` (`cycle_edges`). -/
def isClosingEdge (g : Digraph α ν ε) (t : α × α × ε) : Bool :=
  reachable g t.2.1 t.1

/-- The set of edges participating in some enumerated cycle
(`cycle_edges` in `build_graph`, as pairs). -/
def cycleEdgePairs (g : Digraph α ν ε) : List (α × α) :=
  (g.edges.filter (isClosingEdge g)).map (fun t => (t.1, t.2.1))

/-- The graph has a directed cycle (some edge closes one). -/
def hasCycleB (g : Digraph α ν ε) : Bool :=
  g.edges.any (isClosingEdge g)

/-- `nx.find_cycle` as consumed by the repository: `build_graph` only ever
uses `cycle[-1][:2]`, the back edge of the found cycle, so the embedding
returns that edge directly (the first edge in iteration order that closes a
cycle; the spec licenses "any algorithm producing a single
back-edge-bearing cycle"). -/
def findBackEdge (g : Digraph α ν ε) : Option (α × α) :=
  (g.edges.find? (isClosingEdge g)).map (fun t => (t.1, t.2.1))

/-- The iterative cycle-breaking loop of `build_graph`:
`while True: cycle = nx.find_cycle(dag); dag.remove_edge(*cycle[-1][:2])`
until `NetworkXNoCycle`.  Fuel decreases with the edge count. -/
def breakCyclesAux : Nat → Digraph α ν ε → Digraph α ν ε
  | 0, g => g
  | fuel + 1, g =>
    match g.findBackEdge with
    | none => g
    | some (u, v) =>
      if g.hasEdge u v then breakCyclesAux fuel (g.removeEdge u v) else g

/-- Cycle breaking with enough fuel for every edge to be removed once. -/
def breakCycles (g : Digraph α ν ε) : Digraph α ν ε :=
  breakCyclesAux (g.edges.length + 1) g

/-! ## Kahn topological sort (`list(nx.topological_sort(dag))`) -/

/-- One node of zero in-degree at a time, in node iteration order; `none`
models `NetworkXUnfeasible` (the graph still has a cycle). -/
def kahnAux : Nat → Digraph α ν ε → List α → Option (List α)
  | 0, g, acc => if g.nodes.isEmpty then some acc.reverse else none
  | fuel + 1, g, acc =>
    if g.nodes.isEmpty then some acc.reverse else
    match g.keys.find? (fun a => decide (g.inDegree a = 0)) with
    | none => none
    | some a => kahnAux fuel (g.removeNodes [a]) (a :: acc)

/-- `list(nx.topological_sort(g))`, or `none` on `NetworkXUnfeasible`. -/
def topoSort (g : Digraph α ν ε) : Option (List α) :=
  kahnAux (g.nodes.length + 1) g []

/-! ## Topological generations (`list(nx.topological_generations(dag))`) -/

/-- Peel all zero in-degree nodes as one generation, repeat; `none` models
`NetworkXUnfeasible`. -/
def peelAux : Nat → Digraph α ν ε → Option (List (List α))
  | 0, g => if g.nodes.isEmpty then some [] else none
  | fuel + 1, g =>
    if g.nodes.isEmpty then some [] else
    let zs := g.keys.filter (fun a => decide (g.inDegree a = 0))
    if zs.isEmpty then none else
    match peelAux fuel (g.removeNodes zs) with
    | some ls => some (zs :: ls)
    | none => none

/-- `list(nx.topological_generations(g))`, or `none` on failure. -/
def topoGenerations (g : Digraph α ν ε) : Option (List (List α)) :=
  peelAux (g.nodes.length + 1) g

/-- Index of the first generation containing a node. -/
def genOf : List (List α) → α → Option Nat
  | [], _ => none
  | l :: ls, a => if a ∈ l then some 0 else (genOf ls a).map (· + 1)

end Digraph

end GVPA

namespace GVPA

namespace Digraph

variable {α ν ε : Type} [DecidableEq α]

/-! ## Lemmas about the graph algorithms -/

theorem mem_successors {g : Digraph α ν ε} {a c : α} :
    c ∈ g.successors a ↔ ∃ e, (a, c, e) ∈ g.edges := by
  simp only [successors, List.mem_map, List.mem_filter]
  constructor
  · rintro ⟨t, ⟨ht, hp⟩, rfl⟩
    obtain ⟨t1, t2, te⟩ := t
    simp only [decide_eq_true_eq] at hp
    subst hp
    exact ⟨te, ht⟩
  · rintro ⟨e, he⟩
    exact ⟨(a, c, e), ⟨he, by simp⟩, rfl⟩

theorem inDegree_pos_of_edge {g : Digraph α ν ε} {t : α × α × ε}
    (h : t ∈ g.edges) : 0 < g.inDegree t.2.1 := by
  have : t ∈ g.edges.filter (fun s => decide (s.2.1 = t.2.1)) :=
    List.mem_filter.mpr ⟨h, by simp⟩
  have := List.length_pos.mpr (List.ne_nil_of_mem this)
  simpa [inDegree] using this

theorem inDegree_eq_zero_iff {g : Digraph α ν ε} {a : α} :
    g.inDegree a = 0 ↔ ∀ t ∈ g.edges, t.2.1 ≠ a := by
  simp only [inDegree, List.length_eq_zero, List.filter_eq_nil_iff,
    decide_eq_true_eq]

theorem reachN_mono_fuel {g : Digraph α ν ε} {k k' : Nat} (hk : k ≤ k') :
    ∀ {a b : α}, reachN g k a b = true → reachN g k' a b = true := by
  induction k' generalizing k with
  | zero =>
    intro a b h
    have : k = 0 := Nat.le_zero.mp hk
    subst this; exact h
  | succ n ih =>
    intro a b h
    match k, hk with
    | 0, _ =>
      simp only [reachN, decide_eq_true_eq] at h
      simp [reachN, h]
    | k + 1, hk =>
      simp only [reachN, Bool.or_eq_true, List.any_eq_true] at h ⊢
      rcases h with h | ⟨c, hc, hr⟩
      · exact .inl h
      · exact .inr ⟨c, hc, ih (Nat.le_of_succ_le_succ hk) hr⟩

theorem reachN_mono_edges {g g' : Digraph α ν ε}
    (hsub : ∀ t ∈ g.edges, t ∈ g'.edges) {k : Nat} :
    ∀ {a b : α}, reachN g k a b = true → reachN g' k a b = true := by
  induction k with
  | zero => intro a b h; exact h
  | succ n ih =>
    intro a b h
    simp only [reachN, Bool.or_eq_true, List.any_eq_true] at h ⊢
    rcases h with h | ⟨c, hc, hr⟩
    · exact .inl h
    · obtain ⟨e, he⟩ := mem_successors.mp hc
      exact .inr ⟨c, mem_successors.mpr ⟨e, hsub _ he⟩, ih hr⟩

theorem keys_removeNodes (g : Digraph α ν ε) (s : List α) :
    (g.removeNodes s).keys = g.keys.filter (fun a => !(decide (a ∈ s))) := by
  simp only [removeNodes, keys, List.filter_map]
  rfl

theorem mem_edges_removeNodes {g : Digraph α ν ε} {s : List α} {t : α × α × ε} :
    t ∈ (g.removeNodes s).edges ↔ t ∈ g.edges ∧ t.1 ∉ s ∧ t.2.1 ∉ s := by
  simp [removeNodes, List.mem_filter]

theorem nodes_removeEdge (g : Digraph α ν ε) (u v : α) :
    (g.removeEdge u v).nodes = g.nodes := rfl

theorem nodes_breakCyclesAux (fuel : Nat) (g : Digraph α ν ε) :
    (breakCyclesAux fuel g).nodes = g.nodes := by
  induction fuel generalizing g with
  | zero => rfl
  | succ n ih =>
    simp only [breakCyclesAux]
    match g.findBackEdge with
    | none => rfl
    | some (u, v) =>
      by_cases h : g.hasEdge u v
      · simp only [h, if_true]
        rw [ih, nodes_removeEdge]
      · simp [h]

theorem nodes_breakCycles (g : Digraph α ν ε) :
    (breakCycles g).nodes = g.nodes := nodes_breakCyclesAux _ g

theorem kahnAux_covers {fuel : Nat} :
    ∀ {g : Digraph α ν ε} {acc l : List α}, kahnAux fuel g acc = some l →
      ∀ a, a ∈ g.keys ∨ a ∈ acc → a ∈ l := by
  induction fuel with
  | zero =>
    intro g acc l h a ha
    simp only [kahnAux] at h
    by_cases hge : g.nodes.isEmpty
    · rw [if_pos hge] at h
      cases h
      rcases ha with ha | ha
      · rw [List.isEmpty_iff] at hge
        simp [keys, hge] at ha
      · simpa using ha
    · rw [if_neg hge] at h; cases h
  | succ n ih =>
    intro g acc l h a ha
    simp only [kahnAux] at h
    by_cases hge : g.nodes.isEmpty
    · rw [if_pos hge] at h
      cases h
      rcases ha with ha | ha
      · rw [List.isEmpty_iff] at hge
        simp [keys, hge] at ha
      · simpa using ha
    · rw [if_neg hge] at h
      match hfind : g.keys.find? (fun a => decide (g.inDegree a = 0)) with
      | none => rw [hfind] at h; cases h
      | some a0 =>
        rw [hfind] at h
        refine ih h a ?_
        rcases ha with ha | ha
        · by_cases haa : a = a0
          · exact .inr (by simp [haa])
          · left
            rw [keys_removeNodes]
            exact List.mem_filter.mpr ⟨ha, by simp [haa]⟩
        · exact .inr (by simp [ha])

theorem peelAux_covers {fuel : Nat} :
    ∀ {g : Digraph α ν ε} {ls : List (List α)}, peelAux fuel g = some ls →
      ∀ a ∈ g.keys, ∃ l ∈ ls, a ∈ l := by
  induction fuel with
  | zero =>
    intro g ls h a ha
    simp only [peelAux] at h
    by_cases hge : g.nodes.isEmpty
    · rw [List.isEmpty_iff] at hge
      simp [keys, hge] at ha
    · rw [if_neg (by simpa using hge)] at h; cases h
  | succ n ih =>
    intro g ls h a ha
    simp only [peelAux] at h
    by_cases hge : g.nodes.isEmpty
    · rw [List.isEmpty_iff] at hge
      simp [keys, hge] at ha
    · rw [if_neg (by simpa using hge)] at h
      set zs := g.keys.filter (fun a => decide (g.inDegree a = 0)) with hzs
      by_cases hz : zs.isEmpty
      · rw [if_pos hz] at h; cases h
      · rw [if_neg hz] at h
        match hrec : peelAux n (g.removeNodes zs) with
        | none => rw [hrec] at h; cases h
        | some ls' =>
          rw [hrec] at h
          cases h
          by_cases hmem : a ∈ zs
          · exact ⟨zs, by simp, hmem⟩
          · have : a ∈ (g.removeNodes zs).keys := by
              rw [keys_removeNodes]
              exact List.mem_filter.mpr ⟨ha, by simp [hmem]⟩
            obtain ⟨l, hl, hal⟩ := ih hrec a this
            exact ⟨l, by simp [hl], hal⟩

theorem genOf_isSome_of_mem {ls : List (List α)} {a : α}
    (h : ∃ l ∈ ls, a ∈ l) : ∃ i, genOf ls a = some i := by
  induction ls with
  | nil => simp at h
  | cons l ls ih =>
    by_cases hmem : a ∈ l
    · exact ⟨0, by simp [genOf, hmem]⟩
    · obtain ⟨l', hl', hal'⟩ := h
      rcases List.mem_cons.mp hl' with rfl | hl'
      · exact absurd hal' hmem
      · obtain ⟨i, hi⟩ := ih ⟨l', hl', hal'⟩
        exact ⟨i + 1, by simp [genOf, hmem, hi]⟩

end Digraph

end GVPA

namespace GVPA

namespace Digraph

variable {α ν ε : Type} [DecidableEq α]

/-- Source of the first incoming edge of a node (used only inside the proof
that an acyclic graph has a zero in-degree node). -/
def predPick (g : Digraph α ν ε) (a : α) : α :=
  match g.edges.find? (fun t => decide (t.2.1 = a)) with
  | some t => t.1
  | none => a

theorem predPick_spec {g : Digraph α ν ε} {a : α} (h : g.inDegree a ≠ 0) :
    ∃ e, (g.predPick a, a, e) ∈ g.edges := by
  have hne : g.edges.filter (fun t => decide (t.2.1 = a)) ≠ [] := by
    intro hnil
    exact h (by simp [inDegree, hnil])
  have hex : ∃ t, t ∈ g.edges ∧ (fun t : α × α × ε => decide (t.2.1 = a)) t = true := by
    obtain ⟨t, ht⟩ := List.exists_mem_of_ne_nil _ hne
    exact ⟨t, (List.mem_filter.mp ht).1, (List.mem_filter.mp ht).2⟩
  have hsome : (g.edges.find? (fun t => decide (t.2.1 = a))).isSome := by
    rw [List.find?_isSome]
    obtain ⟨t, ht, hp⟩ := hex
    exact ⟨t, ht, hp⟩
  obtain ⟨t, hfind⟩ := Option.isSome_iff_exists.mp hsome
  have hp : t.2.1 = a := by simpa using List.find?_some hfind
  have hm : t ∈ g.edges := List.mem_of_find?_eq_some hfind
  refine ⟨t.2.2, ?_⟩
  have hpk : g.predPick a = t.1 := by simp [predPick, hfind]
  rw [hpk, ← hp]
  exact hm

theorem exists_zero_inDegree (g : Digraph α ν ε) (hwf : g.Wf)
    (hacyc : g.hasCycleB = false) (hne : g.nodes ≠ []) :
    ∃ a ∈ g.keys, g.inDegree a = 0 := by
  by_contra hno
  push_neg at hno
  have hkeysne : g.keys ≠ [] := by
    intro h
    rw [keys] at h
    exact hne (List.map_eq_nil_iff.mp h)
  set a0 := g.keys.head hkeysne with ha0
  set f := g.predPick with hf
  -- every iterate stays a node
  have hmem : ∀ k, f^[k] a0 ∈ g.keys := by
    intro k
    induction k with
    | zero => exact List.head_mem hkeysne
    | succ m ih =>
      rw [Function.iterate_succ_apply']
      obtain ⟨e, he⟩ := predPick_spec (g := g) (a := f^[m] a0) (hno _ ih)
      exact (hwf.1 _ he).1
  -- each iterate step is an edge
  have hedge : ∀ k, ∃ e, (f^[k + 1] a0, f^[k] a0, e) ∈ g.edges := by
    intro k
    rw [Function.iterate_succ_apply']
    exact predPick_spec (hno _ (hmem k))
  -- chains of iterates are paths
  have hchain : ∀ m k, reachN g m (f^[k + m] a0) (f^[k] a0) = true := by
    intro m
    induction m with
    | zero => intro k; simp [reachN]
    | succ m ih =>
      intro k
      have hstep : ∃ e, (f^[k + m + 1] a0, f^[k + m] a0, e) ∈ g.edges := hedge (k + m)
      obtain ⟨e, he⟩ := hstep
      have hsucc : f^[k + m] a0 ∈ g.successors (f^[k + m + 1] a0) :=
        mem_successors.mpr ⟨e, he⟩
      have : reachN g (m + 1) (f^[k + m + 1] a0) (f^[k] a0) = true := by
        simp only [reachN, Bool.or_eq_true, List.any_eq_true]
        exact .inr ⟨_, hsucc, ih k⟩
      exact this
  -- pigeonhole over n + 1 iterates
  set n := g.nodes.length with hn
  have hcard : g.keys.toFinset.card = n := by
    rw [List.toFinset_card_of_nodup hwf.2]
    simp [keys, hn]
  have hmapsto : ∀ i ∈ Finset.range (n + 1), f^[i] a0 ∈ g.keys.toFinset := by
    intro i _
    exact List.mem_toFinset.mpr (hmem i)
  have hlt : g.keys.toFinset.card < (Finset.range (n + 1)).card := by
    simp [hcard]
  obtain ⟨i, hi, j, hj, hij, heq⟩ :=
    Finset.exists_ne_map_eq_of_card_lt_of_maps_to hlt hmapsto
  -- arrange i < j
  rcases Nat.lt_or_ge i j with hlt' | hge
  · obtain ⟨e, he⟩ := hedge i
    have hclose : isClosingEdge g (f^[i + 1] a0, f^[i] a0, e) = true := by
      simp only [isClosingEdge, reachable]
      have hj' : (i + 1) + (j - i - 1) = j := by omega
      have := hchain (j - i - 1) (i + 1)
      rw [hj'] at this
      have hle : j - i - 1 ≤ n := by have := Finset.mem_range.mp hj; omega
      have hr := reachN_mono_fuel hle this
      rw [← heq] at hr
      simpa using hr
    have : g.hasCycleB = true := by
      rw [hasCycleB, List.any_eq_true]
      exact ⟨_, he, hclose⟩
    rw [this] at hacyc; cases hacyc
  · have hlt'' : j < i := by omega
    obtain ⟨e, he⟩ := hedge j
    have hclose : isClosingEdge g (f^[j + 1] a0, f^[j] a0, e) = true := by
      simp only [isClosingEdge, reachable]
      have hi' : (j + 1) + (i - j - 1) = i := by omega
      have := hchain (i - j - 1) (j + 1)
      rw [hi'] at this
      have hle : i - j - 1 ≤ n := by have := Finset.mem_range.mp hi; omega
      have hr := reachN_mono_fuel hle this
      rw [heq] at hr
      simpa using hr
    have : g.hasCycleB = true := by
      rw [hasCycleB, List.any_eq_true]
      exact ⟨_, he, hclose⟩
    rw [this] at hacyc; cases hacyc

end Digraph

end GVPA

namespace GVPA

namespace Digraph

variable {α ν ε : Type} [DecidableEq α]

theorem hasCycleB_removeNodes_false {g : Digraph α ν ε} {s : List α}
    (hacyc : g.hasCycleB = false)
    (hlen : (g.removeNodes s).nodes.length ≤ g.nodes.length) :
    (g.removeNodes s).hasCycleB = false := by
  by_contra hcontra
  rw [Bool.not_eq_false] at hcontra
  rw [hasCycleB, List.any_eq_true] at hcontra
  obtain ⟨t, ht, hclose⟩ := hcontra
  have hsub : ∀ u ∈ (g.removeNodes s).edges, u ∈ g.edges :=
    fun u hu => (mem_edges_removeNodes.mp hu).1
  have hclose2 : reachN (g.removeNodes s) (g.removeNodes s).nodes.length t.2.1 t.1 = true := by
    simpa [isClosingEdge, reachable] using hclose
  have hr : reachN g g.nodes.length t.2.1 t.1 = true :=
    reachN_mono_fuel hlen (reachN_mono_edges hsub hclose2)
  have : g.hasCycleB = true := by
    rw [hasCycleB, List.any_eq_true]
    exact ⟨t, hsub t ht, by simpa [isClosingEdge, reachable] using hr⟩
  rw [this] at hacyc; cases hacyc

theorem wf_removeNodes {g : Digraph α ν ε} {s : List α} (hwf : g.Wf) :
    (g.removeNodes s).Wf := by
  constructor
  · intro t ht
    obtain ⟨htg, h1, h2⟩ := mem_edges_removeNodes.mp ht
    have := hwf.1 t htg
    rw [keys_removeNodes]
    exact ⟨List.mem_filter.mpr ⟨this.1, by simp [h1]⟩,
      List.mem_filter.mpr ⟨this.2, by simp [h2]⟩⟩
  · rw [keys_removeNodes]
    exact hwf.2.filter _

theorem peelAux_isSome_of_acyclic :
    ∀ fuel (g : Digraph α ν ε), g.nodes.length < fuel → g.Wf →
      g.hasCycleB = false → (peelAux fuel g).isSome := by
  intro fuel
  induction fuel with
  | zero => intro g hlen; omega
  | succ n ih =>
    intro g hlen hwf hacyc
    simp only [peelAux]
    by_cases hge : g.nodes.isEmpty
    · simp [hge]
    · rw [if_neg (by simpa using hge)]
      have hne : g.nodes ≠ [] := by simpa [List.isEmpty_iff] using hge
      obtain ⟨a, ha, hdeg⟩ := exists_zero_inDegree g hwf hacyc hne
      have hmemz : a ∈ g.keys.filter (fun a => decide (g.inDegree a = 0)) :=
        List.mem_filter.mpr ⟨ha, by simp [hdeg]⟩
      have hz : ¬ (g.keys.filter (fun a => decide (g.inDegree a = 0))).isEmpty := by
        rw [List.isEmpty_iff]
        exact fun hnil => by simp [hnil] at hmemz
      rw [if_neg hz]
      set zs := g.keys.filter (fun a => decide (g.inDegree a = 0)) with hzs
      have hlenres : (g.removeNodes zs).nodes.length < g.nodes.length := by
        obtain ⟨v, hv⟩ := List.mem_map.mp ha
        have : ∃ p ∈ g.nodes, ¬ ((fun p : α × ν => !(decide (p.1 ∈ zs))) p = true) := by
          refine ⟨v, hv.1, ?_⟩
          simp [hv.2, hmemz]
        calc (g.removeNodes zs).nodes.length
            = (g.nodes.filter (fun p => !(decide (p.1 ∈ zs)))).length := rfl
          _ < g.nodes.length := List.length_filter_lt_length_iff_exists.mpr this
      have hih := ih (g.removeNodes zs) (by omega) (wf_removeNodes hwf)
        (hasCycleB_removeNodes_false hacyc (by omega))
      match hrec : peelAux n (g.removeNodes zs) with
      | some ls' => simp
      | none => rw [hrec] at hih; simp at hih

theorem topoGenerations_isSome_of_acyclic (g : Digraph α ν ε) (hwf : g.Wf)
    (hacyc : g.hasCycleB = false) : g.topoGenerations.isSome :=
  peelAux_isSome_of_acyclic (g.nodes.length + 1) g (by omega) hwf hacyc

theorem peelAux_genOf_lt :
    ∀ fuel (g : Digraph α ν ε) (ls : List (List α)), peelAux fuel g = some ls →
      (∀ t ∈ g.edges, t.1 ∈ g.keys ∧ t.2.1 ∈ g.keys) →
      ∀ t ∈ g.edges, ∃ i j, genOf ls t.1 = some i ∧ genOf ls t.2.1 = some j ∧ i < j := by
  intro fuel
  induction fuel with
  | zero =>
    intro g ls h hend t ht
    simp only [peelAux] at h
    by_cases hge : g.nodes.isEmpty
    · rw [List.isEmpty_iff] at hge
      have := (hend t ht).1
      simp [keys, hge] at this
    · rw [if_neg hge] at h; cases h
  | succ n ih =>
    intro g ls h hend t ht
    simp only [peelAux] at h
    by_cases hge : g.nodes.isEmpty
    · rw [List.isEmpty_iff] at hge
      have := (hend t ht).1
      simp [keys, hge] at this
    · rw [if_neg (by simpa using hge)] at h
      set zs := g.keys.filter (fun a => decide (g.inDegree a = 0)) with hzs
      by_cases hz : zs.isEmpty
      · rw [if_pos hz] at h; cases h
      · rw [if_neg hz] at h
        match hrec : peelAux n (g.removeNodes zs) with
        | none => rw [hrec] at h; cases h
        | some ls' =>
          rw [hrec] at h
          cases h
          -- the target of an edge is never in the first generation
          have hvz : t.2.1 ∉ zs := by
            intro hmem
            have := (List.mem_filter.mp hmem).2
            simp only [decide_eq_true_eq] at this
            have := inDegree_pos_of_edge ht
            omega
          by_cases huz : t.1 ∈ zs
          · -- source peeled in generation 0, target strictly later
            have hvres : t.2.1 ∈ (g.removeNodes zs).keys := by
              rw [keys_removeNodes]
              exact List.mem_filter.mpr ⟨(hend t ht).2, by simp [hvz]⟩
            obtain ⟨j, hja⟩ := genOf_isSome_of_mem (peelAux_covers hrec _ hvres)
            exact ⟨0, j + 1, by simp [genOf, huz], by simp [genOf, hvz, hja], by omega⟩
          · -- both survive; use the induction hypothesis on the residual
            have htres : t ∈ (g.removeNodes zs).edges :=
              mem_edges_removeNodes.mpr ⟨ht, huz, hvz⟩
            have hendres : ∀ u ∈ (g.removeNodes zs).edges,
                u.1 ∈ (g.removeNodes zs).keys ∧ u.2.1 ∈ (g.removeNodes zs).keys := by
              intro u hu
              obtain ⟨hug, h1, h2⟩ := mem_edges_removeNodes.mp hu
              have := hend u hug
              rw [keys_removeNodes]
              exact ⟨List.mem_filter.mpr ⟨this.1, by simp [h1]⟩,
                List.mem_filter.mpr ⟨this.2, by simp [h2]⟩⟩
            obtain ⟨i, j, hia, hja, hij⟩ := ih (g.removeNodes zs) ls' hrec hendres t htres
            exact ⟨i + 1, j + 1, by simp [genOf, huz, hia], by simp [genOf, hvz, hja], by omega⟩

end Digraph

end GVPA

namespace GVPA

/-! ## Data model of `code_graph_builder.py` inputs and outputs -/

/-- One entry of `analysis_result["functions"]` (dict keys modelled as
`Option` fields; `args`/`meta` are never read by the graph builder and are
omitted). -/
structure FuncEntry where
  name : String
  file : Option String
  type_ : Option String
  lineno : Option Nat
  doc : Option String
  status : Option String
  deriving DecidableEq

/-- One entry of `analysis_result["calls"]`. -/
structure CallEntry where
  source : String
  target : String
  type_ : Option String
  weight : Option Nat
  risk : Option String
  status : Option String
  url : Option String
  deriving DecidableEq

/-- The analysis result consumed by `build_graph` (a truthy dict; the falsy
inputs `None`/`{}` are modelled by `Option AnalysisResult` at the entry
point). -/
structure AnalysisResult where
  functions : List FuncEntry
  calls : List CallEntry
  deriving DecidableEq

/-- One override entry of `relations.json` (input (c) of the spec's Symbol
Resolver; `build_graph` reads the file from the working directory, modelled
here as an explicit argument). -/
structure RelEntry where
  source : Option String
  target : Option String
  type_ : Option String
  weight : Option Nat
  risk : Option String
  layer : Option String
  direction : Option String
  nodeType : Option String
  module : Option String
  deriving DecidableEq

/-- Node attribute bag inside the working `nx.DiGraph` (union of the keys
the builder ever reads). -/
structure NodeAttrs where
  type_ : Option String
  file : Option String
  layer : Option String
  module : Option String
  lineno : Option Nat
  doc : Option String
  status : Option String
  deriving DecidableEq

instance : Inhabited NodeAttrs := ⟨⟨none, none, none, none, none, none, none⟩⟩

/-- Edge attribute bag inside the working `nx.DiGraph`. -/
structure EdgeAttrs where
  type_ : Option String
  weight : Option Nat
  risk : Option String
  direction : Option String
  status : Option String
  url : Option String
  deriving DecidableEq

/-- `old_attrs.update(new_attrs)` on node bags (new key wins when present). -/
def NodeAttrs.update (old new : NodeAttrs) : NodeAttrs :=
  { type_ := new.type_ <|> old.type_
    file := new.file <|> old.file
    layer := new.layer <|> old.layer
    module := new.module <|> old.module
    lineno := new.lineno <|> old.lineno
    doc := new.doc <|> old.doc
    status := new.status <|> old.status }

/-- `old_attrs.update(new_attrs)` on edge bags. -/
def EdgeAttrs.update (old new : EdgeAttrs) : EdgeAttrs :=
  { type_ := new.type_ <|> old.type_
    weight := new.weight <|> old.weight
    risk := new.risk <|> old.risk
    direction := new.direction <|> old.direction
    status := new.status <|> old.status
    url := new.url <|> old.url }

/-- The working graph of `build_graph`. -/
abbrev CGraph := Digraph String NodeAttrs EdgeAttrs

/-- Attributes contributed by `G.add_node(func["name"], **func)` after the
builder has defaulted a missing `file` key to `"unknown"`. -/
def FuncEntry.toAttrs (f : FuncEntry) : NodeAttrs :=
  { type_ := f.type_
    file := some (f.file.getD "unknown")
    layer := none
    module := none
    lineno := f.lineno
    doc := f.doc
    status := f.status }

/-- Attributes contributed by `G.add_edge(call["source"], call["target"],
**call)` (the redundant `source`/`target`/`file` keys of the call dict are
never read back and are omitted). -/
def CallEntry.toEdgeAttrs (c : CallEntry) : EdgeAttrs :=
  { type_ := c.type_
    weight := c.weight
    risk := c.risk
    direction := none
    status := c.status
    url := c.url }

/-! ## `CodeGraphBuilder.__init__`: configuration -/

/-- The builder's tunable limits: user `graph_node_limit` capped at 2000
(default `MAX_NODES = 600`), user `graph_edge_limit` (default
`MAX_EDGES = 1000`).  `EDGE_CYCLE_CHECK_LIMIT` is the fixed constant 200. -/
structure BuilderConfig where
  graph_node_limit : Nat
  graph_edge_limit : Nat
  deriving DecidableEq

/-- `__init__` reading `options_manager.settings` (arguments are the user
settings, `none` when unset). -/
def mkBuilderConfig (userNode userEdge : Option Nat) : BuilderConfig :=
  { graph_node_limit := min (userNode.getD 600) 2000
    graph_edge_limit := userEdge.getD 1000 }

/-- `EDGE_CYCLE_CHECK_LIMIT`. -/
def EDGE_CYCLE_CHECK_LIMIT : Nat := 200

/-! ## `_classify_node` -/

/-- `self.PHYSICAL_LAYERS`. -/
def PHYSICAL_LAYERS : List (String × Nat) :=
  [("INPUT_SOURCE", 0), ("PROCESSING", 1), ("COMPUTATION", 2), ("OUTPUT", 3),
    ("OTHER", 4)]

/-- `self.LOGIC_LAYERS`. -/
def LOGIC_LAYERS : List (String × Nat) :=
  [("ROOT", 0), ("MODULE", 1), ("FILE", 2), ("LOGIC", 3)]

/-- `self.STYLES` (fill colour, border colour). -/
def STYLES : List (String × (String × String)) :=
  [("INPUT_SOURCE", ("#E3F2FD", "#2196F3")), ("PROCESSING", ("#E0F7FA", "#00BCD4")),
    ("COMPUTATION", ("#E8F5E9", "#4CAF50")), ("OUTPUT", ("#F3E5F5", "#9C27B0")),
    ("OTHER", ("#F5F5F5", "#9E9E9E"))]

/-- Python `str.upper()` over code points. -/
def upperS (s : String) : String := String.mk (s.toList.map Char.toUpper)

/-- The keyword-heuristic part of `_classify_node` (runs when no valid
manual `layer` attribute is present).  Returns (physical index, logical
index, physical style key). -/
def classifyHeuristic (node_id : String) (a : NodeAttrs) : Nat × Nat × String :=
  let node_type := a.type_.getD "Function"
  let physical :=
    if node_type = "Read Image" ∨ node_type = "Video Capture" ∨ node_type = "Input" then
      "INPUT_SOURCE"
    else if node_type = "Canny Edge" ∨ node_type = "Convert Color" ∨
        node_type = "Gaussian Blur" ∨ strContainsSub node_id "cv2." then
      "PROCESSING"
    else if node_type = "GenericFunction" ∨ node_type = "Function" then
      "COMPUTATION"
    else if node_type = "Show Image" ∨ node_type = "Save Image" ∨ node_type = "Output" then
      "OUTPUT"
    else "OTHER"
  let logical :=
    if node_type = "Project" ∨ node_id = "root" then "ROOT"
    else if node_type = "Module" then "MODULE"
    else if node_type = "File" then "FILE"
    else "LOGIC"
  ((alookup physical PHYSICAL_LAYERS).getD 4, (alookup logical LOGIC_LAYERS).getD 3,
    physical)

/-- `_classify_node`: manual `layer` override first (mapped to the physical
layer with logical layer forced to MODULE = 1), else keyword heuristics. -/
def classifyNode (node_id : String) (a : NodeAttrs) : Nat × Nat × String :=
  match a.layer with
  | some lay =>
    let manual := upperS lay
    match alookup manual PHYSICAL_LAYERS with
    | some idx => (idx, 1, manual)
    | none => classifyHeuristic node_id a
  | none => classifyHeuristic node_id a

/-! ## `build_graph` steps 1–3: graph construction -/

/-- Step 1: add one node per function entry (defaulting a missing `file`
key to `"unknown"` first). -/
def addFuncNodes (g : CGraph) (funcs : List FuncEntry) : CGraph :=
  funcs.foldl (fun g f => g.addNode f.name f.toAttrs NodeAttrs.update) g

/-- Step 2: add one edge per call whose endpoints are both existing nodes;
calls with a missing endpoint are silently dropped. -/
def addCallEdges (g : CGraph) (calls : List CallEntry) : CGraph :=
  calls.foldl
    (fun g c =>
      if g.hasNode c.source && g.hasNode c.target then
        g.addEdge c.source c.target c.toEdgeAttrs EdgeAttrs.update
      else g)
    g

/-- Node attributes synthesized for a dangling override endpoint. -/
def relNodeAttrs (r : RelEntry) : NodeAttrs :=
  { type_ := some (r.nodeType.getD "Module")
    file := some ""
    layer := if truthyS r.layer then r.layer else none
    module := some (r.module.getD "")
    lineno := none
    doc := none
    status := none }

/-- Edge attributes of one `relations.json` edge (`type`, `weight`, `risk`,
`direction`; no `_status`/`url` keys). -/
def relEdgeAttrs (r : RelEntry) : EdgeAttrs :=
  { type_ := some (r.type_.getD "default")
    weight := some (r.weight.getD 1)
    risk := some (r.risk.getD "low")
    direction := some (r.direction.getD "forward")
    status := none
    url := none }

/-- `if src and not G.has_node(src): G.add_node(src, **node_attrs)` for one
override endpoint. -/
def ensureRelNode (g : CGraph) (r : RelEntry) : Option String → CGraph
  | some s =>
    if s ≠ "" ∧ ¬ (g.hasNode s = true) then
      g.addNode s (relNodeAttrs r) NodeAttrs.update
    else g
  | none => g

/-- `if src and tgt: G.add_edge(...)` (twice when bidirectional). -/
def addRelEdges (g : CGraph) (r : RelEntry) :
    Option String → Option String → CGraph
  | some s, some t =>
    if s ≠ "" ∧ t ≠ "" then
      if r.direction.getD "forward" = "bidirectional" then
        (g.addEdge s t (relEdgeAttrs r) EdgeAttrs.update).addEdge t s
          (relEdgeAttrs r) EdgeAttrs.update
      else g.addEdge s t (relEdgeAttrs r) EdgeAttrs.update
    else g
  | _, _ => g

/-- Step 2.1: merge one `relations.json` entry — synthesize missing truthy
endpoints, then add the edge (twice when bidirectional). -/
def addRelEntry (g : CGraph) (r : RelEntry) : CGraph :=
  addRelEdges (ensureRelNode (ensureRelNode g r r.source) r r.target) r
    r.source r.target

/-- Step 3a: the set of truthy `file` attributes over all nodes
(a Python `set`; iteration is fixed here to first-appearance order). -/
def collectFiles (g : CGraph) : List String :=
  firstDedup ((g.nodes.filter (fun p => truthyS p.2.file)).map
    (fun p => p.2.file.getD ""))

/-- Step 3b: ensure a `File` node exists for every collected file path
(the unused `name=os.path.basename(f)` display attribute is omitted). -/
def addFileNodes (g : CGraph) : CGraph :=
  (collectFiles g).foldl
    (fun g f =>
      if g.hasNode f then g
      else g.addNode f
        { type_ := some "File", file := some f, layer := none,
          module := some "file_root", lineno := none, doc := none, status := none }
        NodeAttrs.update)
    g

/-- One step of the `contains`-edge loop: link a non-`File`/non-`Module`
node with a truthy file to its file node, inheriting the node's diff
status. -/
def containsStep (g2 : CGraph) (p : String × NodeAttrs) : CGraph :=
  if (¬ (p.2.type_ = some "File") ∧ ¬ (p.2.type_ = some "Module")) ∧
      truthyS p.2.file then
    if g2.hasNode (p.2.file.getD "") then
      let st :=
        if p.2.status = some "added" then "added"
        else if p.2.status = some "removed" then "removed"
        else "unchanged"
      g2.addEdge (p.2.file.getD "") p.1
        { type_ := some "contains", weight := none, risk := none,
          direction := none, status := some st, url := none }
        EdgeAttrs.update
    else g2
  else g2

/-- Step 3c: link every non-`File`/non-`Module` node with a truthy file to
its file node by a `contains` edge (iterating the node snapshot). -/
def addContainsEdges (g : CGraph) : CGraph :=
  g.nodes.foldl containsStep g

/-- Steps 1–3 of `build_graph`: the working graph. -/
def buildG (rels : List RelEntry) (a : AnalysisResult) : CGraph :=
  addContainsEdges (addFileNodes (rels.foldl addRelEntry
    (addCallEdges (addFuncNodes Digraph.empty a.functions) a.calls)))

end GVPA

namespace GVPA

/-! ## Execution-sequence map -/

section SeqMap

variable {α : Type} [DecidableEq α]

/-- `for i, node_id in enumerate(order): execution_map[node_id] = i + 1`. -/
def seqMapAux : Nat → List α → List (α × Nat) → List (α × Nat)
  | _, [], m => m
  | i, a :: rest, m => seqMapAux (i + 1) rest (ainsert a (i + 1) m)

/-- The 1-based sequence map of an ordered node list. -/
def seqMapOf (l : List α) : List (α × Nat) := seqMapAux 0 l []

theorem seqMapAux_lookup_pos :
    ∀ (l : List α) (i : Nat) (m : List (α × Nat)),
      (∀ b k, alookup b m = some k → 1 ≤ k) →
      ∀ a, (a ∈ l ∨ ∃ k, alookup a m = some k) →
      ∃ k, alookup a (seqMapAux i l m) = some k ∧ 1 ≤ k := by
  intro l
  induction l with
  | nil =>
    intro i m hinv a ha
    rcases ha with ha | ⟨k, hk⟩
    · simp at ha
    · exact ⟨k, hk, hinv a k hk⟩
  | cons hd tl ih =>
    intro i m hinv a ha
    have hinv2 : ∀ b k, alookup b (ainsert hd (i + 1) m) = some k → 1 ≤ k := by
      intro b k hk
      by_cases hb : b = hd
      · subst hb
        rw [alookup_ainsert_self] at hk
        cases hk; omega
      · rw [alookup_ainsert_ne _ _ _ _ hb] at hk
        exact hinv b k hk
    refine ih (i + 1) _ hinv2 a ?_
    rcases ha with ha | ⟨k, hk⟩
    · rcases List.mem_cons.mp ha with rfl | ha
      · exact .inr ⟨i + 1, alookup_ainsert_self _ _ _⟩
      · exact .inl ha
    · by_cases hb : a = hd
      · subst hb
        exact .inr ⟨i + 1, alookup_ainsert_self _ _ _⟩
      · exact .inr ⟨k, by rw [alookup_ainsert_ne _ _ _ _ hb]; exact hk⟩

theorem seqMapOf_lookup_pos (l : List α) (a : α) (ha : a ∈ l) :
    ∃ k, alookup a (seqMapOf l) = some k ∧ 1 ≤ k :=
  seqMapAux_lookup_pos l 0 [] (by intro b k hk; simp [alookup] at hk) a (.inl ha)

variable {ν ε : Type}

/-- The execution-order computation of `build_graph` (and of
`_build_aggregated_file_graph`): copy the graph, iteratively break cycles by
removing the back edge of a found cycle, topologically sort; on failure fall
back to the nodes sorted by ascending in-degree (Python's stable `sorted`). -/
def execMapOf (g : Digraph α ν ε) : List (α × Nat) :=
  match g.breakCycles.topoSort with
  | some order => seqMapOf order
  | none =>
    seqMapOf (stableSort (fun x y => decide (g.inDegree x ≤ g.inDegree y)) g.keys)

/-- Every node of the graph carries a positive sequence number. -/
theorem execMapOf_lookup_pos (g : Digraph α ν ε) (a : α) (ha : a ∈ g.keys) :
    ∃ k, alookup a (execMapOf g) = some k ∧ 1 ≤ k := by
  unfold execMapOf
  match hsort : g.breakCycles.topoSort with
  | some order =>
    have hmem : a ∈ order := by
      refine Digraph.kahnAux_covers hsort a (.inl ?_)
      rw [Digraph.keys, Digraph.nodes_breakCycles]
      exact ha
    exact seqMapOf_lookup_pos order a hmem
  | none =>
    have hmem : a ∈ stableSort (fun x y => decide (g.inDegree x ≤ g.inDegree y)) g.keys :=
      (mem_stableSort _ _ _).mpr ha
    exact seqMapOf_lookup_pos _ a hmem

end SeqMap

/-! ## `_compute_layered_layout` -/

/-- Minimum of a rational list, 0 on the empty list (matching the
`if pos: min(...) else 0` idiom). -/
def qmin : List ℚ → ℚ
  | [] => 0
  | x :: xs => xs.foldl min x

section Layout

variable {ν ε : Type}

/-- The fallback bucket layout: nodes grouped by `exec_seq // 10`, buckets
in ascending key order. -/
def bucketGenerations (g : Digraph String ν ε) (em : List (String × Nat)) :
    List (List String) :=
  let buckets : List (Nat × List String) :=
    g.keys.foldl
      (fun b n =>
        let col := (alookup n em).getD 0 / 10
        ainsert col ((alookup col b).getD [] ++ [n]) b)
      []
  (stableSort (fun x y => decide (x ≤ y)) (akeys buckets)).map
    (fun k => (alookup k buckets).getD [])

/-- Coordinates of one generation column: nodes sorted by string key,
vertically centred against the tallest column, staggered 40 px on odd rows. -/
def layoutColumn (colIdx : Nat) (maxColH : ℚ) (colNodes : List String) :
    List (String × (ℚ × ℚ)) :=
  let sorted := stableSort strLe colNodes
  let colH : ℚ := sorted.length * 150
  let startY : ℚ := (maxColH - colH) / 2
  sorted.enum.map
    (fun p =>
      let x : ℚ := colIdx * 450 + (if p.1 % 2 = 1 then 40 else 0)
      (p.2, (x, startY + p.1 * 150)))

/-- The working copy of `_compute_layered_layout`: edges violating the
execution order removed first (when an execution map is given), then the
iterative cycle-breaking loop. -/
def layeredDag (g : Digraph String ν ε) (em : List (String × Nat)) :
    Digraph String ν ε :=
  (if em = [] then g
    else { g with
      edges := g.edges.filter
        (fun t => decide ((alookup t.1 em).getD 0 < (alookup t.2.1 em).getD 0)) }).breakCycles

/-- Coordinate assignment over the chosen generations: `COLUMN_WIDTH = 450`,
`ROW_HEIGHT = 150`, columns vertically centred against the tallest column. -/
def layoutFromGenerations (generations : List (List String)) :
    List (String × (ℚ × ℚ)) :=
  let maxColH : ℚ :=
    if generations = [] then 0
    else ((generations.map (fun gen => (gen.length : ℚ) * 150)).foldl max 0)
  (generations.enum.map (fun p => layoutColumn p.1 maxColH p.2)).flatten

/-- `_compute_layered_layout`: break cycles (first greedily by the execution
map, then iteratively), compute topological generations (bucket fallback on
failure), then assign column/row coordinates. -/
def computeLayeredLayout (g : Digraph String ν ε) (em : List (String × Nat)) :
    List (String × (ℚ × ℚ)) :=
  match (layeredDag g em).topoGenerations with
  | some ls => layoutFromGenerations ls
  | none => layoutFromGenerations (bucketGenerations g em)

end Layout

end GVPA

namespace GVPA

/-! ## Serialization of `build_graph` -/

/-- One serialized node of the full-mode output (the constant
`inputs=["in"]`, `outputs=["out"]` and the duplicate `params.func_name`
field are omitted; `params` is flattened). -/
structure NodeData where
  id : Nat
  title : String
  x : ℚ
  y : ℚ
  type_ : String
  style : String × String
  layerPhysical : String
  layerLogical : Nat
  file : String
  lineno : Nat
  doc : String
  status : String
  hits : Nat
  isDead : Bool
  execSeq : Nat
  deriving DecidableEq

/-- One serialized edge (the constant `source_socket`/`target_socket`
fields are omitted). -/
structure EdgeData where
  source : Nat
  target : Nat
  type_ : String
  weight : Nat
  risk : String
  status : String
  deriving DecidableEq

/-- One serialized node of the aggregated-mode output (constant `type`,
`style` and `layer_info` fields omitted). -/
structure AggNodeData where
  id : Nat
  title : String
  x : ℚ
  y : ℚ
  file : String
  funcCount : Nat
  execSeq : Nat
  deriving DecidableEq

/-- The `meta` marker of aggregated mode. -/
structure MetaData where
  mode : String
  fileCount : Nat
  edgeCount : Nat
  deriving DecidableEq

/-- The serialized output of `build_graph`: a full-mode graph, or the
aggregated file-level graph carrying its `meta` marker. -/
inductive GraphData where
  | full (nodes : List NodeData) (edges : List EdgeData)
  | aggregated (nodes : List AggNodeData) (edges : List EdgeData) (m : MetaData)
  deriving DecidableEq

/-- Whether the output is the aggregated file-level shape (i.e. carries the
`meta: {mode: "aggregated_file"}` marker). -/
def GraphData.isAggregated : GraphData → Bool
  | .full _ _ => false
  | .aggregated _ _ _ => true

/-- The serialized node list, in either mode reduced to (id, title, execSeq)
triples for mode-independent statements. -/
def GraphData.nodeIdTitleSeq : GraphData → List (Nat × String × Nat)
  | .full ns _ => ns.map (fun n => (n.id, n.title, n.execSeq))
  | .aggregated ns _ _ => ns.map (fun n => (n.id, n.title, n.execSeq))

/-- The serialized edge list of either mode. -/
def GraphData.edgeList : GraphData → List EdgeData
  | .full _ es => es
  | .aggregated _ es _ => es

/-- The hit-count map of the optional trace data. -/
def hitCountsOf (trace : Option (List (Option String))) : List (String × Nat) :=
  (trace.getD []).foldl
    (fun m t =>
      match t with
      | none => m
      | some s => if s = "" then m else abump s m)
    []

/-- Node serialization loop of `build_graph`: iterate nodes in insertion
order, skip nodes without a position, assign dense ids in output order and
record them in `node_id_map`. -/
def serializeNodesAux (pos : List (String × (ℚ × ℚ))) (em : List (String × Nat))
    (hits : List (String × Nat)) (traceGiven : Bool) (minx miny : ℚ) :
    List (String × NodeAttrs) → Nat → List NodeData × List (String × Nat)
  | [], _ => ([], [])
  | (name, a) :: rest, idx =>
    match alookup name pos with
    | none => serializeNodesAux pos em hits traceGiven minx miny rest idx
    | some p =>
      let c := classifyNode name a
      let h := (alookup name hits).getD 0
      let node : NodeData :=
        { id := idx
          title := name
          x := p.1 - minx + 100
          y := p.2 - miny + 100
          type_ := a.type_.getD "Function"
          style := (alookup c.2.2 STYLES).getD ("", "")
          layerPhysical := c.2.2
          layerLogical := c.2.1
          file := a.file.getD ""
          lineno := a.lineno.getD 0
          doc := a.doc.getD ""
          status := a.status.getD "unchanged"
          hits := h
          isDead := traceGiven ∧ h = 0 ∧
            (a.type_ = some "Function" ∨ a.type_ = some "Method")
          execSeq := (alookup name em).getD 0 }
      let r := serializeNodesAux pos em hits traceGiven minx miny rest (idx + 1)
      (node :: r.1, (name, idx) :: r.2)

/-- `cycles`/`cycle_edges` of `build_graph`: simple-cycle edges are
enumerated only when the edge count is at most `EDGE_CYCLE_CHECK_LIMIT`,
otherwise no cycle is enumerated at all. -/
def cyclePairsOf (g : CGraph) : List (String × String) :=
  if g.edges.length ≤ EDGE_CYCLE_CHECK_LIMIT then g.cycleEdgePairs else []

/-- The edge type / risk pair chosen for one edge (`cycle`/`high` forced
for cycle edges, `data_flow` for the physical-layer flows, then
`module_flow`/`contains`/`default`, with the edge's own risk defaulted to
`low`). -/
def edgeTypeRisk (g : CGraph) (cyc : List (String × String))
    (t : String × String × EdgeAttrs) : String × String :=
  let uPhy := (classifyNode t.1 ((g.attrs t.1).getD default)).2.2
  let vPhy := (classifyNode t.2.1 ((g.attrs t.2.1).getD default)).2.2
  let risk0 := t.2.2.risk.getD "low"
  if (t.1, t.2.1) ∈ cyc then ("cycle", "high")
  else if uPhy = "INPUT_SOURCE" ∧ vPhy = "PROCESSING" then ("data_flow", risk0)
  else if uPhy = "PROCESSING" ∧ vPhy = "COMPUTATION" then ("data_flow", risk0)
  else if uPhy = "COMPUTATION" ∧ vPhy = "OUTPUT" then ("data_flow", risk0)
  else if t.2.2.type_ = some "module_flow" then ("module_flow", risk0)
  else if t.2.2.type_ = some "contains" then ("contains", risk0)
  else ("default", risk0)

/-- Serialization of one edge: emitted only when both endpoints are in
`node_id_map`. -/
def serializeOneEdge (g : CGraph) (idMap : List (String × Nat))
    (cyc : List (String × String)) (t : String × String × EdgeAttrs) :
    Option EdgeData :=
  match alookup t.1 idMap, alookup t.2.1 idMap with
  | some su, some tv =>
    some
      { source := su, target := tv, type_ := (edgeTypeRisk g cyc t).1,
        weight := t.2.2.weight.getD 1, risk := (edgeTypeRisk g cyc t).2,
        status := t.2.2.status.getD "unchanged" }
  | _, _ => none

/-- Edge serialization loop of `build_graph`. -/
def serializeEdges (g : CGraph) (idMap : List (String × Nat))
    (cyc : List (String × String)) : List EdgeData :=
  g.edges.filterMap (serializeOneEdge g idMap cyc)

/-- The node positions computed for full mode. -/
def fullPos (rels : List RelEntry) (a : AnalysisResult) :
    List (String × (ℚ × ℚ)) :=
  computeLayeredLayout (buildG rels a) (execMapOf (buildG rels a))

/-- The serialized nodes and `node_id_map` of full mode. -/
def fullSer (rels : List RelEntry) (a : AnalysisResult)
    (trace : Option (List (Option String))) :
    List NodeData × List (String × Nat) :=
  serializeNodesAux (fullPos rels a) (execMapOf (buildG rels a))
    (hitCountsOf trace) trace.isSome
    (qmin ((fullPos rels a).map (fun p => p.2.1)))
    (qmin ((fullPos rels a).map (fun p => p.2.2)))
    (buildG rels a).nodes 0

/-- The full-mode body of `build_graph` (after the falsy guard and the
scale guard chose full mode). -/
def buildFull (rels : List RelEntry) (a : AnalysisResult)
    (trace : Option (List (Option String))) : GraphData :=
  GraphData.full (fullSer rels a trace).1
    (serializeEdges (buildG rels a) (fullSer rels a trace).2
      (cyclePairsOf (buildG rels a)))

section AssocLemmas

variable {α : Type} {β : Type} [DecidableEq α]

theorem alookup_mem {a : α} {v : β} {l : List (α × β)}
    (h : alookup a l = some v) : (a, v) ∈ l := by
  induction l with
  | nil => simp [alookup] at h
  | cons p l ih =>
    obtain ⟨k, w⟩ := p
    by_cases hk : k = a
    · subst hk
      simp only [alookup, if_pos rfl] at h
      cases h
      exact List.mem_cons_self _ _
    · simp only [alookup, if_neg hk] at h
      exact List.mem_cons_of_mem _ (ih h)

theorem alookup_isSome_iff {a : α} {l : List (α × β)} :
    (alookup a l).isSome = true ↔ a ∈ akeys l := by
  induction l with
  | nil => simp [alookup, akeys]
  | cons p l ih =>
    obtain ⟨k, w⟩ := p
    by_cases hk : k = a
    · subst hk; simp [alookup, akeys]
    · have hka : ¬ a = k := fun h => hk h.symm
      simp only [alookup, if_neg hk, akeys, List.map_cons, List.mem_cons]
      simp only [akeys] at ih
      rw [ih]
      exact ⟨.inr, fun h => h.elim (fun h => absurd h hka) id⟩

theorem alookup_eq_none_iff {a : α} {l : List (α × β)} :
    alookup a l = none ↔ a ∉ akeys l := by
  rw [← alookup_isSome_iff]
  cases alookup a l <;> simp

theorem alookup_append_left {a : α} {v : β} {l1 l2 : List (α × β)}
    (h : alookup a l1 = some v) : alookup a (l1 ++ l2) = some v := by
  induction l1 with
  | nil => simp [alookup] at h
  | cons p l ih =>
    obtain ⟨k, w⟩ := p
    by_cases hk : k = a
    · subst hk
      simp only [alookup, if_pos rfl] at h ⊢
      exact h
    · simp only [alookup, if_neg hk] at h ⊢
      exact ih h

theorem alookup_append_right {a : α} {l1 l2 : List (α × β)}
    (h : alookup a l1 = none) : alookup a (l1 ++ l2) = alookup a l2 := by
  induction l1 with
  | nil => simp
  | cons p l ih =>
    obtain ⟨k, w⟩ := p
    by_cases hk : k = a
    · simp [alookup, hk] at h
    · simp only [alookup, if_neg hk] at h
      simp only [List.cons_append, alookup, if_neg hk]
      exact ih h

theorem akeys_ainsert (a : α) (v : β) (l : List (α × β)) :
    akeys (ainsert a v l) = if a ∈ akeys l then akeys l else akeys l ++ [a] := by
  induction l with
  | nil => simp [ainsert, akeys]
  | cons p l ih =>
    obtain ⟨k, w⟩ := p
    by_cases hk : k = a
    · subst hk; simp [ainsert, akeys]
    · have hka : ¬ a = k := fun h => hk h.symm
      have hstep : akeys (ainsert a v ((k, w) :: l)) = k :: akeys (ainsert a v l) := by
        simp [ainsert, hk, akeys]
      have hmm : (a ∈ akeys ((k, w) :: l)) ↔ a ∈ akeys l := by
        simp [akeys, hka]
      rw [hstep, ih]
      by_cases hmem : a ∈ akeys l
      · rw [if_pos hmem, if_pos (hmm.mpr hmem)]
        simp [akeys]
      · rw [if_neg hmem, if_neg (fun h => hmem (hmm.mp h))]
        simp [akeys]

theorem akeys_nodup_ainsert (a : α) (v : β) {l : List (α × β)}
    (h : (akeys l).Nodup) : (akeys (ainsert a v l)).Nodup := by
  rw [akeys_ainsert]
  by_cases hmem : a ∈ akeys l
  · simpa [hmem] using h
  · rw [if_neg hmem, List.nodup_append]
    refine ⟨h, List.nodup_singleton a, ?_⟩
    intro b hb hba
    rw [List.mem_singleton] at hba
    exact hmem (hba ▸ hb)

theorem mem_ainsert {a b : α} {v w : β} {l : List (α × β)}
    (h : (b, w) ∈ ainsert a v l) : (b = a ∧ w = v) ∨ (b, w) ∈ l := by
  induction l with
  | nil =>
    simp only [ainsert, List.mem_singleton, Prod.mk.injEq] at h
    exact .inl h
  | cons p l ih =>
    obtain ⟨k, x⟩ := p
    by_cases hk : k = a
    · subst hk
      have hmem2 : (b, w) ∈ (k, v) :: l := by
        simpa [ainsert] using h
      rcases List.mem_cons.mp hmem2 with h3 | h3
      · rw [Prod.mk.injEq] at h3
        exact .inl h3
      · exact .inr (List.mem_cons_of_mem _ h3)
    · simp only [ainsert, if_neg hk, List.mem_cons] at h
      rcases h with h | h
      · exact .inr (List.mem_cons.mpr (.inl h))
      · rcases ih h with h | h
        · exact .inl h
        · exact .inr (List.mem_cons_of_mem _ h)

/-- A left fold of `ainsert`s does not touch keys it never writes. -/
theorem foldl_ainsert_lookup_not_mem {X : Type} (key : X → α) (val : X → β) :
    ∀ (l : List X) (m : List (α × β)) (p : α), p ∉ l.map key →
      alookup p (l.foldl (fun m x => ainsert (key x) (val x) m) m) =
        alookup p m := by
  intro l
  induction l with
  | nil => intro m p _; rfl
  | cons x l ih =>
    intro m p hp
    simp only [List.map_cons, List.mem_cons, not_or] at hp
    simp only [List.foldl_cons]
    rw [ih _ _ hp.2, alookup_ainsert_ne _ _ _ _ hp.1]

/-- With pairwise distinct keys the fold behaves as a plain map. -/
theorem foldl_ainsert_lookup_nodup {X : Type} (key : X → α) (val : X → β) :
    ∀ (l : List X) (m : List (α × β)) (x : X),
      (l.map key).Nodup → x ∈ l →
      alookup (key x) (l.foldl (fun m x => ainsert (key x) (val x) m) m) =
        some (val x) := by
  intro l
  induction l with
  | nil => intro m x _ hx; cases hx
  | cons y l ih =>
    intro m x hnd hx
    simp only [List.map_cons, List.nodup_cons] at hnd
    simp only [List.foldl_cons]
    rcases List.mem_cons.mp hx with rfl | hx
    · rw [foldl_ainsert_lookup_not_mem _ _ _ _ _ hnd.1,
        alookup_ainsert_self]
    · exact ih _ _ hnd.2 hx

/-- Every value the fold stores comes from some processed item. -/
theorem foldl_ainsert_lookup_orig {X : Type} (key : X → α) (val : X → β) :
    ∀ (l : List X) (m : List (α × β)) (p : α) (v : β),
      alookup p (l.foldl (fun m x => ainsert (key x) (val x) m) m) = some v →
      (∃ x ∈ l, key x = p ∧ val x = v) ∨ alookup p m = some v := by
  intro l
  induction l with
  | nil => intro m p v h; exact .inr h
  | cons y l ih =>
    intro m p v h
    simp only [List.foldl_cons] at h
    rcases ih _ _ _ h with ⟨x, hx, hk, hv⟩ | h2
    · exact .inl ⟨x, List.mem_cons_of_mem _ hx, hk, hv⟩
    · by_cases hp : p = key y
      · subst hp
        rw [alookup_ainsert_self] at h2
        exact .inl ⟨y, List.mem_cons_self _ _, rfl, (Option.some_inj.mp h2)⟩
      · rw [alookup_ainsert_ne _ _ _ _ hp] at h2
        exact .inr h2

end AssocLemmas

/-! ## Counting folds (the `d[k] = d.get(k, 0) + 1` loops) -/

section CountFold

variable {X K : Type} [DecidableEq K]

/-- A conditional counting loop: each item contributes one count to its key
when the key function yields one. -/
def countFold (f : X → Option K) (l : List X) (m : List (K × Nat)) :
    List (K × Nat) :=
  l.foldl
    (fun m x =>
      match f x with
      | some k => abump k m
      | none => m)
    m

theorem abump_def {α : Type} [DecidableEq α] (a : α) (l : List (α × Nat)) :
    abump a l = ainsert a ((alookup a l).getD 0 + 1) l := rfl

theorem alookup_abump_self (k : K) (m : List (K × Nat)) :
    alookup k (abump k m) = some ((alookup k m).getD 0 + 1) :=
  alookup_ainsert_self _ _ _

theorem alookup_abump_ne (k p : K) (m : List (K × Nat)) (h : p ≠ k) :
    alookup p (abump k m) = alookup p m :=
  alookup_ainsert_ne _ _ _ _ h

theorem countFold_lookup (f : X → Option K) :
    ∀ (l : List X) (m : List (K × Nat)) (p : K),
      (alookup p (countFold f l m)).getD 0 =
        (alookup p m).getD 0 + (l.filter (fun x => decide (f x = some p))).length := by
  intro l
  induction l with
  | nil => intro m p; simp [countFold]
  | cons x l ih =>
    intro m p
    simp only [countFold, List.foldl_cons]
    match hf : f x with
    | none =>
      have : (decide (f x = some p)) = false := by simp [hf]
      simp only [List.filter_cons, this, if_neg]
      rw [← countFold]
      simpa using ih m p
    | some k =>
      by_cases hkp : k = p
      · subst hkp
        have : (decide (f x = some k)) = true := by simp [hf]
        simp only [List.filter_cons, this, if_pos]
        rw [← countFold, ih (abump k m) k, alookup_abump_self]
        simp [Nat.add_assoc, Nat.add_comm 1]
      · have : (decide (f x = some p)) = false := by simp [hf, hkp]
        simp only [List.filter_cons, this]
        rw [← countFold, ih (abump k m) p, alookup_abump_ne k p m (fun h => hkp h.symm)]
        simp

theorem countFold_keys_nodup (f : X → Option K) :
    ∀ (l : List X) (m : List (K × Nat)), (akeys m).Nodup →
      (akeys (countFold f l m)).Nodup := by
  intro l
  induction l with
  | nil => intro m h; simpa [countFold] using h
  | cons x l ih =>
    intro m h
    simp only [countFold, List.foldl_cons]
    match hf : f x with
    | none => rw [← countFold]; exact ih m h
    | some k => rw [← countFold]; exact ih _ (akeys_nodup_ainsert _ _ h)

theorem countFold_mem_keys (f : X → Option K) :
    ∀ (l : List X) (m : List (K × Nat)) (p : K),
      p ∈ akeys (countFold f l m) ↔ p ∈ akeys m ∨ ∃ x ∈ l, f x = some p := by
  intro l
  induction l with
  | nil => intro m p; simp [countFold]
  | cons x l ih =>
    intro x0 p
    simp only [countFold, List.foldl_cons]
    match hf : f x with
    | none =>
      simp only [hf]
      rw [← countFold, ih]
      simp only [List.mem_cons]
      constructor
      · rintro (h | ⟨y, hy, hfy⟩)
        · exact .inl h
        · exact .inr ⟨y, .inr hy, hfy⟩
      · rintro (h | ⟨y, rfl | hy, hfy⟩)
        · exact .inl h
        · rw [hf] at hfy; cases hfy
        · exact .inr ⟨y, hy, hfy⟩
    | some k =>
      simp only [hf]
      rw [← countFold, ih]
      have hkeys := akeys_ainsert k ((alookup k x0).getD 0 + 1) x0
      constructor
      · rintro (h | ⟨y, hy, hfy⟩)
        · rw [abump_def, hkeys] at h
          by_cases hmem : k ∈ akeys x0
          · rw [if_pos hmem] at h; exact .inl h
          · rw [if_neg hmem] at h
            rcases List.mem_append.mp h with h | h
            · exact .inl h
            · simp only [List.mem_singleton] at h
              subst h
              exact .inr ⟨x, List.mem_cons_self _ _, hf⟩
        · exact .inr ⟨y, List.mem_cons_of_mem _ hy, hfy⟩
      · rintro (h | ⟨y, hy, hfy⟩)
        · left
          rw [abump_def, hkeys]
          by_cases hmem : k ∈ akeys x0
          · rwa [if_pos hmem]
          · rw [if_neg hmem]; exact List.mem_append_left _ h
        · rcases List.mem_cons.mp hy with rfl | hy
          · rw [hf] at hfy
            cases hfy
            left
            rw [abump_def, hkeys]
            by_cases hmem : p ∈ akeys x0
            · rwa [if_pos hmem]
            · rw [if_neg hmem]; simp
          · exact .inr ⟨y, hy, hfy⟩

/-- Keys of a counting fold, in order: the keys of the accumulator, then the
fresh keys in first-appearance order. -/
theorem countFold_keys (f : X → Option K) :
    ∀ (l : List X) (m : List (K × Nat)),
      akeys (countFold f l m) =
        akeys m ++
          (firstDedup (l.filterMap f)).filter
            (fun k => !(decide (k ∈ akeys m))) := by
  intro l
  induction l with
  | nil => intro m; simp [countFold, firstDedup]
  | cons x l ih =>
    intro m
    simp only [countFold, List.foldl_cons]
    match hf : f x with
    | none =>
      rw [← countFold, ih, List.filterMap_cons_none hf]
    | some k =>
      rw [← countFold, ih, List.filterMap_cons_some hf]
      have hkeys : akeys (abump k m) =
          if k ∈ akeys m then akeys m else akeys m ++ [k] := by
        rw [abump_def]; exact akeys_ainsert _ _ _
      by_cases hmem : k ∈ akeys m
      · rw [hkeys, if_pos hmem]
        congr 1
        show _ = List.filter _ (k :: List.filter _ (firstDedup _))
        rw [List.filter_cons]
        have hk : (!(decide (k ∈ akeys m))) = false := by simp [hmem]
        rw [hk]
        simp only [Bool.false_eq_true, if_neg (by simp : ¬ false = true)]
        rw [List.filter_filter]
        apply List.filter_congr
        intro a _
        by_cases ha : a = k
        · subst ha; simp [hmem]
        · simp [ha]
      · rw [hkeys, if_neg hmem]
        show _ ++ _ = _ ++ List.filter _ (k :: List.filter _ (firstDedup _))
        rw [List.filter_cons]
        have hk : (!(decide (k ∈ akeys m))) = true := by simp [hmem]
        rw [hk, if_pos rfl, List.append_assoc, List.singleton_append,
          List.filter_filter]
        congr 1
        congr 1
        apply List.filter_congr
        intro a _
        by_cases ha : a = k
        · subst ha; simp
        · by_cases hm : a ∈ akeys m <;> simp [ha, hm, List.mem_append]

end CountFold

/-! ## `_build_aggregated_file_graph` -/

/-- `f.get("file", "unknown")`. -/
def fileOf (f : FuncEntry) : String := f.file.getD "unknown"

/-- `func_to_file`: last-write-wins map from function name to its file. -/
def funcToFileOf (a : AnalysisResult) : List (String × String) :=
  a.functions.foldl (fun m f => ainsert f.name (fileOf f) m) []

/-- `file_func_count`: functions per file, keys in first-appearance order. -/
def fileFuncCountOf (a : AnalysisResult) : List (String × Nat) :=
  countFold (fun f => some (fileOf f)) a.functions []

/-- The file pair counted for one call, when both endpoint files are known,
truthy and distinct (`if not s or not t: continue; if s == t: continue`). -/
def aggEdgeKey (a : AnalysisResult) (c : CallEntry) : Option (String × String) :=
  match alookup c.source (funcToFileOf a), alookup c.target (funcToFileOf a) with
  | some s, some t =>
    if s = "" ∨ t = "" then none
    else if s = t then none
    else some (s, t)
  | _, _ => none

/-- `file_edges`: weighted cross-file call counts. -/
def fileEdgesOf (a : AnalysisResult) : List ((String × String) × Nat) :=
  countFold (aggEdgeKey a) a.calls []

/-- The aggregated file graph `Gf` (node attribute: `func_count`; edge
attribute: `weight`; the constant `type` attributes are omitted). -/
def aggGraphOf (a : AnalysisResult) : Digraph String Nat Nat :=
  { nodes := fileFuncCountOf a
    edges := (fileEdgesOf a).map (fun p => (p.1.1, p.1.2, p.2)) }

/-- Node serialization loop of `_build_aggregated_file_graph` (no
coordinate normalization in this mode, only the `+100` offset). -/
def serializeAggNodesAux (pos : List (String × (ℚ × ℚ))) (em : List (String × Nat)) :
    List (String × Nat) → Nat → List AggNodeData × List (String × Nat)
  | [], _ => ([], [])
  | (name, cnt) :: rest, idx =>
    let p := (alookup name pos).getD (0, 0)
    let node : AggNodeData :=
      { id := idx
        title := if name = "" then "unknown" else basename name
        x := p.1 + 100
        y := p.2 + 100
        file := name
        funcCount := cnt
        execSeq := (alookup name em).getD 0 }
    let r := serializeAggNodesAux pos em rest (idx + 1)
    (node :: r.1, (name, idx) :: r.2)

/-- Edge serialization loop of `_build_aggregated_file_graph`. -/
def serializeAggEdges (gf : Digraph String Nat Nat) (idMap : List (String × Nat)) :
    List EdgeData :=
  gf.edges.filterMap
    (fun t =>
      match alookup t.1 idMap, alookup t.2.1 idMap with
      | some su, some tv =>
        some
          { source := su, target := tv, type_ := "file_flow",
            weight := t.2.2, risk := "low", status := "unchanged" }
      | _, _ => none)

/-- The serialized nodes and id map of aggregated mode. -/
def aggSer (a : AnalysisResult) : List AggNodeData × List (String × Nat) :=
  serializeAggNodesAux
    (computeLayeredLayout (aggGraphOf a) (execMapOf (aggGraphOf a)))
    (execMapOf (aggGraphOf a)) (aggGraphOf a).nodes 0

/-- `_build_aggregated_file_graph`. -/
def buildAggregated (a : AnalysisResult) : GraphData :=
  GraphData.aggregated (aggSer a).1
    (serializeAggEdges (aggGraphOf a) (aggSer a).2)
    { mode := "aggregated_file", fileCount := (aggGraphOf a).nodes.length,
      edgeCount := (aggGraphOf a).edges.length }

/-! ## `build_graph` -/

/-- The scale-guard routing and mode bodies of `build_graph` on a truthy
analysis result. -/
def buildGraphCore (cfg : BuilderConfig) (rels : List RelEntry)
    (a : AnalysisResult) (trace : Option (List (Option String))) : GraphData :=
  if a.functions.length > cfg.graph_node_limit ∨
      a.calls.length > cfg.graph_edge_limit then
    buildAggregated a
  else
    buildFull rels a trace

/-- `CodeGraphBuilder.build_graph`. The first argument models the builder's
configuration, the second the `relations.json` contents read from the
working directory, the last the optional `trace_data`.  A falsy
`analysis_result` (`None` or `{}`) is the `none` case. -/
def build_graph (cfg : BuilderConfig) (rels : List RelEntry)
    (analysis : Option AnalysisResult)
    (trace : Option (List (Option String))) : Option GraphData :=
  match analysis with
  | none => none
  | some a => some (buildGraphCore cfg rels a trace)

end GVPA

namespace GVPA

/-! ## `ProjectCodeAnalyzer.analyze_project` — call resolution
(`core/project_analyzer.py`, step 2) -/

/-- One raw call tuple collected by `_analyze_file` (the `file` key is not
read during resolution and is omitted). -/
structure RawCall where
  source : String
  target : String
  type_ : Option String
  url : Option String
  deriving DecidableEq

/-- The AI-inferred external edge kinds kept when unresolved. -/
def EXTERNAL_KINDS : List String := ["mq_pub", "mq_sub", "api_call", "db_access"]

/-- Target resolution: exact match on the symbol table first, else the first
key (in insertion order) that ends with `"." + target` or equals it. -/
def resolveTarget (symKeys : List String) (target : String) : Option String :=
  if target ∈ symKeys then some target
  else
    match symKeys.filter
        (fun k => strEndsWith k ("." ++ target) || decide (k = target)) with
    | [] => none
    | m :: _ => some m

/-- The resolution loop: count resolved calls per (source, resolved target)
pair, keep unresolved calls of an external kind verbatim, drop the rest. -/
def resolveCallsAux (symKeys : List String) :
    List RawCall → List ((String × String) × Nat) → List CallEntry →
    List ((String × String) × Nat) × List CallEntry
  | [], counts, kept => (counts, kept)
  | c :: rest, counts, kept =>
    match resolveTarget symKeys c.target with
    | some r => resolveCallsAux symKeys rest (abump (c.source, r) counts) kept
    | none =>
      if c.type_.any (fun ty => decide (ty ∈ EXTERNAL_KINDS)) then
        resolveCallsAux symKeys rest counts
          (kept ++ [⟨c.source, c.target, c.type_, none, none, none, c.url⟩])
      else
        resolveCallsAux symKeys rest counts kept

/-- `resolved_calls` exactly as `analyze_project` builds it: the kept
external calls (in call order), then one weighted call per counted
(source, target) pair (in first-appearance order). -/
def resolvedCallsOf (symKeys : List String) (calls : List RawCall) :
    List CallEntry :=
  let r := resolveCallsAux symKeys calls [] []
  r.2 ++ r.1.map
    (fun p =>
      { source := p.1.1, target := p.1.2, type_ := none, weight := some p.2,
        risk := none, status := none, url := none })

/-! ## `GitAnalyzer._merge_analyses` -/

/-- `{n["name"]: n for n in ...}` (last write wins, first-appearance key
order). -/
def nodesMapOf (l : List FuncEntry) : List (String × FuncEntry) :=
  l.foldl (fun m f => ainsert f.name f m) []

/-- `{(e["source"], e["target"]): e for e in ...}`. -/
def edgesMapOf (l : List CallEntry) : List ((String × String) × CallEntry) :=
  l.foldl (fun m e => ainsert (e.source, e.target) e m) []

/-- Status assignment for one union name in `_merge_analyses` (`added` when
only current, `removed` when only previous, otherwise `unchanged` with
current attributes preferred; the both-absent branch is unreachable because
names are drawn from the union). -/
def mkMergedFunc (cn pn : List (String × FuncEntry)) (name : String) : FuncEntry :=
  match alookup name cn, alookup name pn with
  | some n, none => { n with status := some "added" }
  | none, some n => { n with status := some "removed" }
  | some n, some _ => { n with status := some "unchanged" }
  | none, none =>
    { name := name, file := none, type_ := none, lineno := none,
      doc := none, status := some "unchanged" }

/-- Status assignment for one union edge key in `_merge_analyses`. -/
def mkMergedCall (ce pe : List ((String × String) × CallEntry))
    (k : String × String) : CallEntry :=
  match alookup k ce, alookup k pe with
  | some e, none => { e with status := some "added" }
  | none, some e => { e with status := some "removed" }
  | some e, some _ => { e with status := some "unchanged" }
  | none, none =>
    { source := k.1, target := k.2, type_ := none, weight := none,
      risk := none, status := some "unchanged", url := none }

/-- `_merge_analyses`: union of node names / edge keys, marking `added`,
`removed` or `unchanged` (preferring current attributes when present in
both).  The Python iteration over the union `set` is fixed here to
first-appearance order; no claim depends on the order. -/
def mergeAnalyses (current previous : AnalysisResult) : AnalysisResult :=
  { functions :=
      (firstDedup (akeys (nodesMapOf current.functions) ++
          akeys (nodesMapOf previous.functions))).map
        (mkMergedFunc (nodesMapOf current.functions) (nodesMapOf previous.functions))
    calls :=
      (firstDedup (akeys (edgesMapOf current.calls) ++
          akeys (edgesMapOf previous.calls))).map
        (mkMergedCall (edgesMapOf current.calls) (edgesMapOf previous.calls)) }

end GVPA

namespace GVPA

/-! ## `AIGraphOptimizer` (`ai/plugins/layout_optimizer.py`) -/

/-- Working node attributes of the optimizer graph
(`width`, `height`, `x`, `y`, `locked` as read in `execute`). -/
structure OptAttrs where
  width : ℚ
  height : ℚ
  x : ℚ
  y : ℚ
  locked : Bool
  deriving DecidableEq

instance : Inhabited OptAttrs := ⟨⟨0, 0, 0, 0, false⟩⟩

/-- One node dict of the `execute` context. -/
structure OptNodeIn (α : Type) where
  id : α
  x : Option ℚ
  y : Option ℚ
  width : Option ℚ
  height : Option ℚ
  locked : Option Bool
  deriving DecidableEq

section Optimizer

variable {α : Type} [DecidableEq α]

/-- Graph construction of `execute`: nodes with defaulted attributes, edges
only between known node ids. -/
def buildOptG (ns : List (OptNodeIn α)) (es : List (α × α)) :
    Digraph α OptAttrs Unit :=
  let g := ns.foldl
    (fun g n =>
      g.addNode n.id
        ⟨n.width.getD 200, n.height.getD 100, n.x.getD 0, n.y.getD 0,
          n.locked.getD false⟩
        (fun _ new => new))
    Digraph.empty
  es.foldl
    (fun g e =>
      if g.hasNode e.1 && g.hasNode e.2 then g.addEdge e.1 e.2 () (fun _ _ => ()) else g)
    g

/-- `locked_nodes` of `execute`. -/
def lockedOf (ns : List (OptNodeIn α)) : List α :=
  (ns.filter (fun n => n.locked.getD false)).map (fun n => n.id)

/-- One column of `_layout_layered_strict`: walk a layer accumulating
`current_y += h + MIN_DIST_Y(80)` and `max_w = max(max_w, w)`; returns the
positioned nodes and the final `max_w`. -/
def strictColumn (g : Digraph α OptAttrs Unit) (x : ℚ) :
    List α → ℚ → ℚ → List (α × (ℚ × ℚ)) × ℚ
  | [], maxw, _ => ([], maxw)
  | nid :: rest, maxw, cury =>
    let a := (g.attrs nid).getD default
    let r := strictColumn g x rest (max maxw a.width) (cury + a.height + 80)
    ((nid, (x, cury)) :: r.1, r.2)

/-- The column walk of `_layout_layered_strict`:
`current_x += max_w + MIN_DIST_X(100)` after each layer. -/
def strictLayers (g : Digraph α OptAttrs Unit) :
    List (List α) → ℚ → List (α × (ℚ × ℚ))
  | [], _ => []
  | layer :: rest, curx =>
    let col := strictColumn g curx layer 0 0
    col.1 ++ strictLayers g rest (curx + col.2 + 100)

/-- `_layout_layered_strict`.  On a cyclic graph the Python code removes,
for each enumerated simple cycle, the edge from its last to its first node;
that branch is modelled as removing every cycle-closing edge (the claims
only exercise acyclic inputs, where `dag = G` exactly as in the source). -/
def layoutLayeredStrict (g : Digraph α OptAttrs Unit) : List (α × (ℚ × ℚ)) :=
  let dag :=
    if g.hasCycleB then
      { g with edges := g.edges.filter (fun t => !(Digraph.isClosingEdge g t)) }
    else g
  let layers :=
    match dag.topoGenerations with
    | some ls => ls
    | none => [g.keys]
  strictLayers g layers 0

/-- The fixed x-coordinate assignment of `_layout_hybrid`: per layer,
`current_x += max_width + MIN_DIST_X(150)`. -/
def hybridXAux (g : Digraph α OptAttrs Unit) :
    List (List α) → ℚ → List (α × ℚ)
  | [], _ => []
  | layer :: rest, curx =>
    let maxw := layer.foldl (fun m n => max m ((g.attrs n).getD default).width) 0
    layer.map (fun n => (n, curx)) ++ hybridXAux g rest (curx + maxw + 150)

/-- One barycenter pass of `_layout_hybrid`: a non-locked node with
neighbours moves half-way towards the mean y of its predecessors and
successors (`alpha = 0.5`), reading only the previous pass's values. -/
def barycenterPass (g : Digraph α OptAttrs Unit) (locked : List α)
    (y : α → ℚ) : α → ℚ := fun n =>
  if n ∈ locked then y n
  else
    let nbrs := g.predecessors n ++ g.successors n
    if nbrs = [] then y n
    else y n * (1 - (1 : ℚ)/2) + ((nbrs.map y).sum / nbrs.length) * ((1 : ℚ)/2)

/-- Resolution of one colliding pair in the collision sweep: push the later
node down, the earlier node up, or both half-way; never move a locked node;
leave a doubly-locked pair unresolved. -/
def resolvePairStep (heights : α → ℚ) (locked : List α) (u v : α)
    (y : α → ℚ) : α → ℚ :=
  if y v - y u < (heights u + heights v) / 2 + 80 then
    if u ∈ locked ∧ v ∈ locked then y
    else if u ∈ locked then
      fun x => if x = v then
        y v + ((heights u + heights v) / 2 + 80 - (y v - y u)) else y x
    else if v ∈ locked then
      fun x => if x = u then
        y u - ((heights u + heights v) / 2 + 80 - (y v - y u)) else y x
    else fun x =>
      if x = v then y v + ((heights u + heights v) / 2 + 80 - (y v - y u)) / 2
      else if x = u then
        y u - ((heights u + heights v) / 2 + 80 - (y v - y u)) / 2
      else y x
  else y

/-- The pairwise sweep over one sorted column. -/
def sweepPairs (heights : α → ℚ) (locked : List α) :
    List α → (α → ℚ) → (α → ℚ)
  | [], y => y
  | [_], y => y
  | u :: v :: rest, y =>
    sweepPairs heights locked (v :: rest) (resolvePairStep heights locked u v y)

/-- One relaxation iteration: barycenter pass, then per column re-sort by
current y (stable) and sweep, threading both the mutated column order and
the y map exactly as the Python loop does. -/
def hybridIter (g : Digraph α OptAttrs Unit) (locked : List α)
    (heights : α → ℚ) (st : List (List α) × (α → ℚ)) :
    List (List α) × (α → ℚ) :=
  st.1.foldl
    (fun (acc : List (List α) × (α → ℚ)) layer =>
      (acc.1 ++ [stableSort (fun a b => decide (acc.2 a ≤ acc.2 b)) layer],
        sweepPairs heights locked
          (stableSort (fun a b => decide (acc.2 a ≤ acc.2 b)) layer) acc.2))
    ([], barycenterPass g locked st.2)

/-- The fixed-count iteration loop. -/
def hybridLoop (g : Digraph α OptAttrs Unit) (locked : List α)
    (heights : α → ℚ) : Nat → List (List α) × (α → ℚ) →
    List (List α) × (α → ℚ)
  | 0, st => st
  | k + 1, st => hybridLoop g locked heights k (hybridIter g locked heights st)

/-- The layer computation of `_layout_hybrid`: break cycles with the
`find_cycle` loop, then topological generations, with the whole-node-set
fallback. -/
def hybridLayers (g : Digraph α OptAttrs Unit) : List (List α) :=
  match (g.breakCycles).topoGenerations with
  | some ls => ls
  | none => [g.keys]

/-- `_layout_hybrid`: topological layering fixes x; iterated barycenter
relaxation with collision resolution computes y; the final updates pair
every node with `(node_x[n], node_y[n])`. -/
def layoutHybrid (g : Digraph α OptAttrs Unit) (locked : List α)
    (iterations : Nat) : List (α × (ℚ × ℚ)) :=
  g.keys.map (fun n =>
    (n, ((alookup n (hybridXAux g (hybridLayers g) 0)).getD 0,
      (hybridLoop g locked (fun m => ((g.attrs m).getD default).height)
        iterations (hybridLayers g, fun m => ((g.attrs m).getD default).y)).2
        n)))

end Optimizer

end GVPA

namespace GVPA


end GVPA

namespace GVPA

/-! ## Claim C10 -/

/-- **C10**: for every falsy `analysis_result` (`None` or `{}`, both modelled
by the `none` input), `CodeGraphBuilder.build_graph` returns `None` rather
than a graph dictionary; every truthy analysis result (even one with empty
function and call lists) produces a graph. -/
theorem c10_falsy_analysis_returns_none :
    ∀ (cfg : BuilderConfig) (rels : List RelEntry)
      (trace : Option (List (Option String))),
      build_graph cfg rels none trace = none ∧
      ∀ a : AnalysisResult, (build_graph cfg rels (some a) trace).isSome = true :=
  fun _ _ _ => ⟨rfl, fun _ => rfl⟩

/-! ## Claim C8: diff merge -/

section FindKeyed

variable {K β : Type} [DecidableEq K]

theorem find?_map_keyed (names : List K) (mk : K → β) (key : β → K)
    (hkey : ∀ n, key (mk n) = n) (name : K) :
    (names.map mk).find? (fun b => decide (key b = name)) =
      if name ∈ names then some (mk name) else none := by
  induction names with
  | nil => simp
  | cons n rest ih =>
    simp only [List.map_cons]
    by_cases hn : n = name
    · subst hn
      rw [List.find?_cons_of_pos _ (by simp [hkey])]
      simp
    · rw [List.find?_cons_of_neg _ (by simp [hkey, hn])]
      rw [ih]
      have : (name ∈ n :: rest) ↔ name ∈ rest := by
        simp only [List.mem_cons]
        exact ⟨fun h => h.elim (fun h => absurd h.symm hn) id, .inr⟩
      by_cases hmem : name ∈ rest
      · rw [if_pos hmem, if_pos (this.mpr hmem)]
      · rw [if_neg hmem, if_neg (fun h => hmem (this.mp h))]

end FindKeyed

theorem nodesMapOf_name_inv :
    ∀ (l : List FuncEntry) (m : List (String × FuncEntry)),
      (∀ p ∈ m, (p : String × FuncEntry).2.name = p.1) →
      ∀ p ∈ l.foldl (fun m f => ainsert f.name f m) m, p.2.name = p.1 := by
  intro l
  induction l with
  | nil => intro m h p hp; exact h p hp
  | cons f rest ih =>
    intro m h p hp
    refine ih _ ?_ p hp
    intro q hq
    rcases q with ⟨k, v⟩
    rcases mem_ainsert hq with ⟨rfl, rfl⟩ | hq
    · rfl
    · exact h _ hq

theorem alookup_nodesMapOf_name {l : List FuncEntry} {name : String}
    {f : FuncEntry} (h : alookup name (nodesMapOf l) = some f) : f.name = name :=
  nodesMapOf_name_inv l [] (by simp) (name, f) (alookup_mem h)

theorem edgesMapOf_key_inv :
    ∀ (l : List CallEntry) (m : List ((String × String) × CallEntry)),
      (∀ p ∈ m, ((p : (String × String) × CallEntry).2.source, p.2.target) = p.1) →
      ∀ p ∈ l.foldl (fun m e => ainsert (e.source, e.target) e m) m,
        (p.2.source, p.2.target) = p.1 := by
  intro l
  induction l with
  | nil => intro m h p hp; exact h p hp
  | cons e rest ih =>
    intro m h p hp
    refine ih _ ?_ p hp
    intro q hq
    rcases q with ⟨k, v⟩
    rcases mem_ainsert hq with ⟨rfl, rfl⟩ | hq
    · rfl
    · exact h _ hq

theorem alookup_edgesMapOf_key {l : List CallEntry} {k : String × String}
    {e : CallEntry} (h : alookup k (edgesMapOf l) = some e) :
    (e.source, e.target) = k :=
  edgesMapOf_key_inv l [] (by simp) (k, e) (alookup_mem h)

/-- The merged entry for a function name. -/
def findFuncByName (m : AnalysisResult) (name : String) : Option FuncEntry :=
  m.functions.find? (fun f => decide (f.name = name))

/-- The merged entry for an edge key. -/
def findCallByKey (m : AnalysisResult) (k : String × String) : Option CallEntry :=
  m.calls.find? (fun e => decide ((e.source, e.target) = k))

end GVPA

namespace GVPA

theorem mkMergedFunc_name (current previous : AnalysisResult) (name : String) :
    (mkMergedFunc (nodesMapOf current.functions) (nodesMapOf previous.functions)
      name).name = name := by
  unfold mkMergedFunc
  match hc : alookup name (nodesMapOf current.functions),
      hp : alookup name (nodesMapOf previous.functions) with
  | some n, none => exact show n.name = name from alookup_nodesMapOf_name hc
  | none, some n => exact show n.name = name from alookup_nodesMapOf_name hp
  | some n, some m => exact show n.name = name from alookup_nodesMapOf_name hc
  | none, none => rfl

theorem mkMergedCall_key (current previous : AnalysisResult) (k : String × String) :
    ((mkMergedCall (edgesMapOf current.calls) (edgesMapOf previous.calls) k).source,
      (mkMergedCall (edgesMapOf current.calls) (edgesMapOf previous.calls) k).target) =
      k := by
  unfold mkMergedCall
  match hc : alookup k (edgesMapOf current.calls),
      hp : alookup k (edgesMapOf previous.calls) with
  | some e, none => exact show (e.source, e.target) = k from alookup_edgesMapOf_key hc
  | none, some e => exact show (e.source, e.target) = k from alookup_edgesMapOf_key hp
  | some e, some f => exact show (e.source, e.target) = k from alookup_edgesMapOf_key hc
  | none, none => rfl

/-- The merged function entry for any name is exactly determined by the two
lookups. -/
theorem findFuncByName_merge (current previous : AnalysisResult) (name : String) :
    findFuncByName (mergeAnalyses current previous) name =
      (if name ∈ akeys (nodesMapOf current.functions) ∨
          name ∈ akeys (nodesMapOf previous.functions) then
        some (mkMergedFunc (nodesMapOf current.functions)
          (nodesMapOf previous.functions) name)
      else none) := by
  have hfind := find?_map_keyed
    (firstDedup (akeys (nodesMapOf current.functions) ++
      akeys (nodesMapOf previous.functions)))
    (mkMergedFunc (nodesMapOf current.functions) (nodesMapOf previous.functions))
    (fun f => f.name) (mkMergedFunc_name current previous) name
  have : findFuncByName (mergeAnalyses current previous) name =
      List.find? (fun f => decide (f.name = name))
        ((firstDedup (akeys (nodesMapOf current.functions) ++
          akeys (nodesMapOf previous.functions))).map
          (mkMergedFunc (nodesMapOf current.functions)
            (nodesMapOf previous.functions))) := rfl
  rw [this, hfind]
  have hiff : (name ∈ firstDedup (akeys (nodesMapOf current.functions) ++
      akeys (nodesMapOf previous.functions))) ↔
      (name ∈ akeys (nodesMapOf current.functions) ∨
        name ∈ akeys (nodesMapOf previous.functions)) := by
    rw [mem_firstDedup]; exact List.mem_append
  simp only [hiff]

/-- The merged call entry for any key is exactly determined by the two
lookups. -/
theorem findCallByKey_merge (current previous : AnalysisResult)
    (k : String × String) :
    findCallByKey (mergeAnalyses current previous) k =
      (if k ∈ akeys (edgesMapOf current.calls) ∨
          k ∈ akeys (edgesMapOf previous.calls) then
        some (mkMergedCall (edgesMapOf current.calls)
          (edgesMapOf previous.calls) k)
      else none) := by
  have hfind := find?_map_keyed
    (firstDedup (akeys (edgesMapOf current.calls) ++ akeys (edgesMapOf previous.calls)))
    (mkMergedCall (edgesMapOf current.calls) (edgesMapOf previous.calls))
    (fun e => (e.source, e.target)) (mkMergedCall_key current previous) k
  have : findCallByKey (mergeAnalyses current previous) k =
      List.find? (fun e => decide ((e.source, e.target) = k))
        ((firstDedup (akeys (edgesMapOf current.calls) ++
          akeys (edgesMapOf previous.calls))).map
          (mkMergedCall (edgesMapOf current.calls) (edgesMapOf previous.calls))) := rfl
  rw [this, hfind]
  have hiff : (k ∈ firstDedup (akeys (edgesMapOf current.calls) ++
      akeys (edgesMapOf previous.calls))) ↔
      (k ∈ akeys (edgesMapOf current.calls) ∨
        k ∈ akeys (edgesMapOf previous.calls)) := by
    rw [mem_firstDedup]; exact List.mem_append
  simp only [hiff]

/-- **C8**: the diff merge takes the union of function names, marks a name
present only in current as `added`, only in previous as `removed`, and
present in both as `unchanged` with current attributes preferred; the
identical rule applies to calls keyed by (source, target); names in neither
snapshot yield no entry.  In particular a node present (identically or not)
in both snapshots is classified `unchanged`, never `added` or `removed`. -/
theorem c8_diff_merge_union_status (current previous : AnalysisResult) :
    (∀ name f, alookup name (nodesMapOf current.functions) = some f →
        alookup name (nodesMapOf previous.functions) = none →
        findFuncByName (mergeAnalyses current previous) name =
          some { f with status := some "added" }) ∧
    (∀ name f, alookup name (nodesMapOf current.functions) = none →
        alookup name (nodesMapOf previous.functions) = some f →
        findFuncByName (mergeAnalyses current previous) name =
          some { f with status := some "removed" }) ∧
    (∀ name f g0, alookup name (nodesMapOf current.functions) = some f →
        alookup name (nodesMapOf previous.functions) = some g0 →
        findFuncByName (mergeAnalyses current previous) name =
          some { f with status := some "unchanged" }) ∧
    (∀ name, alookup name (nodesMapOf current.functions) = none →
        alookup name (nodesMapOf previous.functions) = none →
        findFuncByName (mergeAnalyses current previous) name = none) ∧
    (∀ k e, alookup k (edgesMapOf current.calls) = some e →
        alookup k (edgesMapOf previous.calls) = none →
        findCallByKey (mergeAnalyses current previous) k =
          some { e with status := some "added" }) ∧
    (∀ k e, alookup k (edgesMapOf current.calls) = none →
        alookup k (edgesMapOf previous.calls) = some e →
        findCallByKey (mergeAnalyses current previous) k =
          some { e with status := some "removed" }) ∧
    (∀ k e f0, alookup k (edgesMapOf current.calls) = some e →
        alookup k (edgesMapOf previous.calls) = some f0 →
        findCallByKey (mergeAnalyses current previous) k =
          some { e with status := some "unchanged" }) := by
  refine ⟨?_, ?_, ?_, ?_, ?_, ?_, ?_⟩
  · intro name f hc hp
    rw [findFuncByName_merge, if_pos (.inl (alookup_isSome_iff.mp (by simp [hc])))]
    unfold mkMergedFunc
    rw [hc, hp]
  · intro name f hc hp
    rw [findFuncByName_merge, if_pos (.inr (alookup_isSome_iff.mp (by simp [hp])))]
    unfold mkMergedFunc
    rw [hc, hp]
  · intro name f g0 hc hp
    rw [findFuncByName_merge, if_pos (.inl (alookup_isSome_iff.mp (by simp [hc])))]
    unfold mkMergedFunc
    rw [hc, hp]
  · intro name hc hp
    rw [findFuncByName_merge, if_neg]
    rintro (h | h)
    · exact (alookup_eq_none_iff.mp hc) h
    · exact (alookup_eq_none_iff.mp hp) h
  · intro k e hc hp
    rw [findCallByKey_merge, if_pos (.inl (alookup_isSome_iff.mp (by simp [hc])))]
    unfold mkMergedCall
    rw [hc, hp]
  · intro k e hc hp
    rw [findCallByKey_merge, if_pos (.inr (alookup_isSome_iff.mp (by simp [hp])))]
    unfold mkMergedCall
    rw [hc, hp]
  · intro k e f0 hc hp
    rw [findCallByKey_merge, if_pos (.inl (alookup_isSome_iff.mp (by simp [hc])))]
    unfold mkMergedCall
    rw [hc, hp]

end GVPA

namespace GVPA

def c8Curr : AnalysisResult :=
  { functions :=
      [⟨"a", some "f1.py", some "Function", none, none, none⟩,
        ⟨"b", some "f1.py", some "Function", none, none, none⟩]
    calls := [⟨"a", "b", none, none, none, none, none⟩] }

def c8Prev : AnalysisResult :=
  { functions :=
      [⟨"b", some "f1.py", some "Function", none, none, none⟩,
        ⟨"c", some "f2.py", some "Function", none, none, none⟩]
    calls := [⟨"b", "c", none, none, none, none, none⟩] }

/-- Witness for C8 at a concrete pair of snapshots: `a` only in current is
`added`, `c` only in previous is `removed`, `b` in both (identically) is
`unchanged`, an absent name yields no entry, and the edge rule matches. -/
theorem c8_witness :
    findFuncByName (mergeAnalyses c8Curr c8Prev) "a" =
      some ⟨"a", some "f1.py", some "Function", none, none, some "added"⟩ ∧
    findFuncByName (mergeAnalyses c8Curr c8Prev) "c" =
      some ⟨"c", some "f2.py", some "Function", none, none, some "removed"⟩ ∧
    findFuncByName (mergeAnalyses c8Curr c8Prev) "b" =
      some ⟨"b", some "f1.py", some "Function", none, none, some "unchanged"⟩ ∧
    findFuncByName (mergeAnalyses c8Curr c8Prev) "zzz" = none ∧
    findCallByKey (mergeAnalyses c8Curr c8Prev) ("a", "b") =
      some ⟨"a", "b", none, none, none, some "added", none⟩ ∧
    findCallByKey (mergeAnalyses c8Curr c8Prev) ("b", "c") =
      some ⟨"b", "c", none, none, none, some "removed", none⟩ :=
  ⟨(c8_diff_merge_union_status c8Curr c8Prev).1 "a"
      ⟨"a", some "f1.py", some "Function", none, none, none⟩ (by decide) (by decide),
    (c8_diff_merge_union_status c8Curr c8Prev).2.1 "c"
      ⟨"c", some "f2.py", some "Function", none, none, none⟩ (by decide) (by decide),
    (c8_diff_merge_union_status c8Curr c8Prev).2.2.1 "b"
      ⟨"b", some "f1.py", some "Function", none, none, none⟩
      ⟨"b", some "f1.py", some "Function", none, none, none⟩ (by decide) (by decide),
    (c8_diff_merge_union_status c8Curr c8Prev).2.2.2.1 "zzz" (by decide) (by decide),
    (c8_diff_merge_union_status c8Curr c8Prev).2.2.2.2.1 ("a", "b")
      ⟨"a", "b", none, none, none, none, none⟩ (by decide) (by decide),
    (c8_diff_merge_union_status c8Curr c8Prev).2.2.2.2.2.1 ("b", "c")
      ⟨"b", "c", none, none, none, none, none⟩ (by decide) (by decide)⟩

end GVPA

namespace GVPA

/-! ## Claim C4: target resolution and call collapsing -/

/-- The resolved (source, target) key of one raw call, when its target
resolves. -/
def resKey (symKeys : List String) (c : RawCall) : Option (String × String) :=
  (resolveTarget symKeys c.target).map (fun r => (c.source, r))

/-- `call.get("type") in ["mq_pub", "mq_sub", "api_call", "db_access"]`. -/
def isExtCall (c : RawCall) : Bool :=
  c.type_.any (fun ty => decide (ty ∈ EXTERNAL_KINDS))

/-- The verbatim kept form of an unresolved external call. -/
def keptOf (c : RawCall) : CallEntry :=
  ⟨c.source, c.target, c.type_, none, none, none, c.url⟩

/-- The weighted collapsed form of one counted pair. -/
def weightedOf (p : (String × String) × Nat) : CallEntry :=
  ⟨p.1.1, p.1.2, none, some p.2, none, none, none⟩

theorem resolveCallsAux_fst (symKeys : List String) :
    ∀ (l : List RawCall) (counts : List ((String × String) × Nat))
      (kept : List CallEntry),
      (resolveCallsAux symKeys l counts kept).1 = countFold (resKey symKeys) l counts := by
  intro l
  induction l with
  | nil => intro counts kept; rfl
  | cons c rest ih =>
    intro counts kept
    simp only [resolveCallsAux, countFold, List.foldl_cons]
    match hres : resolveTarget symKeys c.target with
    | some r =>
      have : resKey symKeys c = some (c.source, r) := by simp [resKey, hres]
      rw [this, ← countFold]
      exact ih _ _
    | none =>
      have : resKey symKeys c = none := by simp [resKey, hres]
      rw [this, ← countFold]
      by_cases hext : c.type_.any (fun ty => decide (ty ∈ EXTERNAL_KINDS)) = true
      · rw [if_pos hext]; exact ih _ _
      · rw [if_neg hext]; exact ih _ _

theorem resolveCallsAux_snd (symKeys : List String) :
    ∀ (l : List RawCall) (counts : List ((String × String) × Nat))
      (kept : List CallEntry),
      (resolveCallsAux symKeys l counts kept).2 =
        kept ++ (l.filter
          (fun c => (resKey symKeys c).isNone && isExtCall c)).map keptOf := by
  intro l
  induction l with
  | nil => intro counts kept; simp [resolveCallsAux]
  | cons c rest ih =>
    intro counts kept
    simp only [resolveCallsAux]
    match hres : resolveTarget symKeys c.target with
    | some r =>
      have hk : ((resKey symKeys c).isNone && isExtCall c) = false := by
        simp [resKey, hres]
      simp only [List.filter_cons, hk]
      exact ih _ _
    | none =>
      have hn : (resKey symKeys c).isNone = true := by simp [resKey, hres]
      by_cases hext : c.type_.any (fun ty => decide (ty ∈ EXTERNAL_KINDS)) = true
      · have hk : ((resKey symKeys c).isNone && isExtCall c) = true := by
          simp [hn, isExtCall, hext]
        rw [if_pos hext]
        simp only [List.filter_cons, hk, if_pos]
        rw [ih]
        simp [keptOf]
      · have hk : ((resKey symKeys c).isNone && isExtCall c) = false := by
          simp [isExtCall] at hext
          simp [isExtCall, hext]
        rw [if_neg hext]
        simp only [List.filter_cons, hk]
        exact ih _ _

theorem resolvedCallsOf_eq (symKeys : List String) (calls : List RawCall) :
    resolvedCallsOf symKeys calls =
      (calls.filter (fun c => (resKey symKeys c).isNone && isExtCall c)).map keptOf ++
        (countFold (resKey symKeys) calls []).map weightedOf := by
  show (resolveCallsAux symKeys calls [] []).2 ++
      (resolveCallsAux symKeys calls [] []).1.map
        (fun p => (⟨p.1.1, p.1.2, none, some p.2, none, none, none⟩ : CallEntry)) = _
  rw [resolveCallsAux_fst, resolveCallsAux_snd]
  simp [weightedOf]

theorem filter_key_length {K β : Type} [DecidableEq K] :
    ∀ (m : List (K × β)) (p : K), (akeys m).Nodup →
      (m.filter (fun q => decide (q.1 = p))).length =
        if p ∈ akeys m then 1 else 0 := by
  intro m
  induction m with
  | nil => intro p h; simp [akeys]
  | cons q rest ih =>
    intro p h
    simp only [akeys, List.map_cons, List.nodup_cons] at h
    by_cases hq : q.1 = p
    · subst hq
      rw [List.filter_cons, if_pos (by simp)]
      have hnot : q.1 ∉ akeys rest := by simpa [akeys] using h.1
      have hrest := ih q.1 (by simpa [akeys] using h.2)
      rw [if_neg hnot] at hrest
      simp [hrest, akeys]
    · rw [List.filter_cons, if_neg (by simp [hq])]
      rw [ih p (by simpa [akeys] using h.2)]
      have hiff : (p ∈ akeys (q :: rest)) ↔ p ∈ akeys rest := by
        simp only [akeys, List.map_cons, List.mem_cons]
        exact ⟨fun hh => hh.elim (fun hh => absurd hh.symm hq) id, .inr⟩
      simp only [hiff]

end GVPA

namespace GVPA

/-- The number of raw calls resolving to a given (source, target) pair. -/
def resolvedCount (symKeys : List String) (calls : List RawCall)
    (s r : String) : Nat :=
  (calls.filter (fun c => decide (resKey symKeys c = some (s, r)))).length

/-- **C4**: target resolution is exact match first, else the first suffix
match on `"." + name` in symbol insertion order; and all raw calls sharing
one resolved (source, target) pair collapse into exactly one weighted
output call whose weight is the occurrence count. -/
theorem c4_resolution_and_collapse (symKeys : List String) (calls : List RawCall) :
    (∀ target, target ∈ symKeys → resolveTarget symKeys target = some target) ∧
    (∀ target, target ∉ symKeys →
      resolveTarget symKeys target =
        (symKeys.filter (fun k => strEndsWith k ("." ++ target))).head?) ∧
    (∀ s r,
      ((resolvedCallsOf symKeys calls).filter
          (fun e => decide (e.source = s) && decide (e.target = r) &&
            e.weight.isSome)).length =
        if resolvedCount symKeys calls s r = 0 then 0 else 1) ∧
    (∀ s r, 0 < resolvedCount symKeys calls s r →
      (⟨s, r, none, some (resolvedCount symKeys calls s r), none, none, none⟩ :
        CallEntry) ∈ resolvedCallsOf symKeys calls) := by
  refine ⟨?_, ?_, ?_, ?_⟩
  · intro target ht
    simp [resolveTarget, ht]
  · intro target ht
    rw [resolveTarget, if_neg ht]
    have hcong : symKeys.filter
        (fun k => strEndsWith k ("." ++ target) || decide (k = target)) =
        symKeys.filter (fun k => strEndsWith k ("." ++ target)) := by
      apply List.filter_congr
      intro k hk
      have : (decide (k = target)) = false := by
        simp only [decide_eq_false_iff_not]
        exact fun h => ht (h ▸ hk)
      simp [this]
    rw [hcong]
    match (symKeys.filter (fun k => strEndsWith k ("." ++ target))) with
    | [] => rfl
    | m :: rest => rfl
  · intro s r
    rw [resolvedCallsOf_eq, List.filter_append]
    have hkept : ((calls.filter
        (fun c => (resKey symKeys c).isNone && isExtCall c)).map keptOf).filter
        (fun e => decide (e.source = s) && decide (e.target = r) && e.weight.isSome) =
        [] := by
      rw [List.filter_eq_nil_iff]
      intro e he
      obtain ⟨c, _, rfl⟩ := List.mem_map.mp he
      simp [keptOf]
    rw [hkept]
    have hmapped : ((countFold (resKey symKeys) calls []).map weightedOf).filter
        (fun e => decide (e.source = s) && decide (e.target = r) && e.weight.isSome) =
        ((countFold (resKey symKeys) calls []).filter
          (fun q => decide (q.1 = (s, r)))).map weightedOf := by
      rw [List.filter_map]
      congr 1
      apply List.filter_congr
      intro q _
      obtain ⟨⟨qs, qr⟩, qw⟩ := q
      simp only [Function.comp_apply, weightedOf, Option.isSome_some,
        Bool.and_true, Prod.mk.injEq]
      by_cases h1 : qs = s
      · by_cases h2 : qr = r
        · simp [h1, h2]
        · simp [h1, h2]
      · simp [h1]
    rw [List.nil_append, hmapped, List.length_map, filter_key_length _ _
      (countFold_keys_nodup _ _ _ (by simp [akeys]))]
    have hmem : ((s, r) ∈ akeys (countFold (resKey symKeys) calls [])) ↔
        ¬ resolvedCount symKeys calls s r = 0 := by
      rw [countFold_mem_keys]
      simp only [akeys, List.map_nil, List.not_mem_nil, false_or]
      unfold resolvedCount
      constructor
      · rintro ⟨c, hc, hr⟩
        intro hlen
        rw [List.length_eq_zero, List.filter_eq_nil_iff] at hlen
        exact hlen c hc (by simp [hr])
      · intro hlen
        rcases List.exists_mem_of_ne_nil
            (calls.filter (fun c => decide (resKey symKeys c = some (s, r))))
            (fun hnil => hlen (by simp [hnil])) with ⟨c, hc⟩
        obtain ⟨hc1, hc2⟩ := List.mem_filter.mp hc
        exact ⟨c, hc1, by simpa using hc2⟩
    by_cases hz : resolvedCount symKeys calls s r = 0
    · rw [if_pos hz, if_neg (fun h => (hmem.mp h) hz)]
    · rw [if_neg hz, if_pos (hmem.mpr hz)]
  · intro s r hpos
    rw [resolvedCallsOf_eq]
    refine List.mem_append_right _ ?_
    have hval : (alookup (s, r) (countFold (resKey symKeys) calls [])).getD 0 =
        resolvedCount symKeys calls s r := by
      rw [countFold_lookup]
      simp [alookup, resolvedCount]
    have hmem : (s, r) ∈ akeys (countFold (resKey symKeys) calls []) := by
      rw [countFold_mem_keys]
      right
      unfold resolvedCount at hpos
      rcases List.exists_mem_of_ne_nil
          (calls.filter (fun c => decide (resKey symKeys c = some (s, r))))
          (fun hnil => by simp [hnil] at hpos) with ⟨c, hc⟩
      obtain ⟨hc1, hc2⟩ := List.mem_filter.mp hc
      exact ⟨c, hc1, by simpa using hc2⟩
    have hsome : ∃ w, alookup (s, r) (countFold (resKey symKeys) calls []) = some w := by
      have := alookup_isSome_iff.mpr hmem
      exact Option.isSome_iff_exists.mp this
    obtain ⟨w, hw⟩ := hsome
    have hweq : w = resolvedCount symKeys calls s r := by
      rw [hw] at hval
      simpa using hval
    refine List.mem_map.mpr ⟨((s, r), w), alookup_mem hw, ?_⟩
    simp [weightedOf, hweq]

end GVPA

namespace GVPA

def c4Keys : List String := ["mod.alpha", "pkg.beta"]

def c4Calls : List RawCall :=
  [⟨"f", "alpha", none, none⟩, ⟨"f", "alpha", none, none⟩,
    ⟨"f", "mod.alpha", none, none⟩, ⟨"g", "gamma", some "api_call", none⟩]

/-- Witness for C4: exact match, suffix match, and the three raw calls that
all resolve to `("f", "mod.alpha")` collapse into one weighted call of
weight 3. -/
theorem c4_witness :
    resolveTarget c4Keys "mod.alpha" = some "mod.alpha" ∧
    resolveTarget c4Keys "alpha" =
      (c4Keys.filter (fun k => strEndsWith k ("." ++ "alpha"))).head? ∧
    ((resolvedCallsOf c4Keys c4Calls).filter
        (fun e => decide (e.source = "f") && decide (e.target = "mod.alpha") &&
          e.weight.isSome)).length = 1 ∧
    (⟨"f", "mod.alpha", none, some 3, none, none, none⟩ : CallEntry) ∈
      resolvedCallsOf c4Keys c4Calls := by
  refine ⟨(c4_resolution_and_collapse c4Keys c4Calls).1 "mod.alpha" (by decide),
    (c4_resolution_and_collapse c4Keys c4Calls).2.1 "alpha" (by decide), ?_, ?_⟩
  · have h := (c4_resolution_and_collapse c4Keys c4Calls).2.2.1 "f" "mod.alpha"
    have hcount : resolvedCount c4Keys c4Calls "f" "mod.alpha" = 3 := by decide
    rw [h, if_neg (by rw [hcount]; exact (by decide : ¬ (3 : Nat) = 0))]
  · have h := (c4_resolution_and_collapse c4Keys c4Calls).2.2.2 "f" "mod.alpha"
      (by decide)
    have hcount : resolvedCount c4Keys c4Calls "f" "mod.alpha" = 3 := by decide
    rw [hcount] at h
    exact h

end GVPA

namespace GVPA

namespace Digraph

variable {α ν ε : Type} [DecidableEq α]

theorem hasNode_iff {g : Digraph α ν ε} {a : α} :
    g.hasNode a = true ↔ a ∈ g.keys := by
  simp only [hasNode, List.any_eq_true, keys, List.mem_map, decide_eq_true_eq]

theorem edges_addNode (g : Digraph α ν ε) (a : α) (v : ν) (m : ν → ν → ν) :
    (g.addNode a v m).edges = g.edges := by
  unfold addNode
  split <;> rfl

theorem keys_addNode_of_hasNode {g : Digraph α ν ε} {a : α} (v : ν)
    (m : ν → ν → ν) (h : g.hasNode a = true) :
    (g.addNode a v m).keys = g.keys := by
  unfold addNode
  rw [if_pos h]
  show (g.nodes.map _).map Prod.fst = g.nodes.map Prod.fst
  rw [List.map_map]
  apply List.map_congr_left
  intro p _
  by_cases hp : p.1 = a
  · simp [hp]
  · simp [hp]

theorem keys_addNode_of_not_hasNode {g : Digraph α ν ε} {a : α} (v : ν)
    (m : ν → ν → ν) (h : ¬ g.hasNode a = true) :
    (g.addNode a v m).keys = g.keys ++ [a] := by
  unfold addNode
  rw [if_neg h]
  simp [keys]

theorem mem_keys_addNode {g : Digraph α ν ε} {a b : α} (v : ν) (m : ν → ν → ν) :
    b ∈ (g.addNode a v m).keys ↔ b = a ∨ b ∈ g.keys := by
  by_cases h : g.hasNode a = true
  · rw [keys_addNode_of_hasNode v m h]
    constructor
    · exact .inr
    · rintro (rfl | hb)
      · exact hasNode_iff.mp h
      · exact hb
  · rw [keys_addNode_of_not_hasNode v m h]
    simp [List.mem_append, or_comm]

theorem wf_addNode {g : Digraph α ν ε} {a : α} (v : ν) (m : ν → ν → ν)
    (hwf : g.Wf) : (g.addNode a v m).Wf := by
  constructor
  · intro t ht
    rw [edges_addNode] at ht
    have := hwf.1 t ht
    exact ⟨(mem_keys_addNode v m).mpr (.inr this.1),
      (mem_keys_addNode v m).mpr (.inr this.2)⟩
  · by_cases h : g.hasNode a = true
    · rw [keys_addNode_of_hasNode v m h]; exact hwf.2
    · rw [keys_addNode_of_not_hasNode v m h, List.nodup_append]
      refine ⟨hwf.2, List.nodup_singleton a, ?_⟩
      intro b hb hba
      rw [List.mem_singleton] at hba
      subst hba
      exact h (hasNode_iff.mpr hb)

theorem nodes_addEdge (g : Digraph α ν ε) (u v : α) (e : ε) (m : ε → ε → ε) :
    (g.addEdge u v e m).nodes = g.nodes := by
  unfold addEdge
  split <;> rfl

theorem keys_addEdge (g : Digraph α ν ε) (u v : α) (e : ε) (m : ε → ε → ε) :
    (g.addEdge u v e m).keys = g.keys := by
  rw [keys, nodes_addEdge]; rfl

theorem mem_edges_addEdge {g : Digraph α ν ε} {u v : α} {e : ε} {m : ε → ε → ε}
    {t : α × α × ε} (ht : t ∈ (g.addEdge u v e m).edges) :
    (t.1 = u ∧ t.2.1 = v) ∨ t ∈ g.edges := by
  unfold addEdge at ht
  by_cases h : g.hasEdge u v = true
  · rw [if_pos h] at ht
    simp only at ht
    obtain ⟨t0, ht0, heq⟩ := List.mem_map.mp ht
    by_cases hc : t0.1 = u ∧ t0.2.1 = v
    · rw [if_pos hc] at heq
      subst heq
      exact .inl ⟨rfl, rfl⟩
    · rw [if_neg hc] at heq
      subst heq
      exact .inr ht0
  · rw [if_neg h] at ht
    simp only at ht
    rcases List.mem_append.mp ht with ht | ht
    · exact .inr ht
    · rw [List.mem_singleton] at ht
      subst ht
      exact .inl ⟨rfl, rfl⟩

theorem wf_addEdge {g : Digraph α ν ε} {u v : α} (e : ε) (m : ε → ε → ε)
    (hwf : g.Wf) (hu : u ∈ g.keys) (hv : v ∈ g.keys) : (g.addEdge u v e m).Wf := by
  constructor
  · intro t ht
    rw [keys_addEdge]
    rcases mem_edges_addEdge ht with ⟨h1, h2⟩ | ht
    · rw [h1, h2]; exact ⟨hu, hv⟩
    · exact hwf.1 t ht
  · rw [keys_addEdge]; exact hwf.2

end Digraph

theorem wf_empty {α ν ε : Type} [DecidableEq α] : (Digraph.empty : Digraph α ν ε).Wf := by
  constructor
  · intro t ht; cases ht
  · exact List.nodup_nil

theorem wf_addFuncNodes (funcs : List FuncEntry) :
    ∀ (g : CGraph), g.Wf → (addFuncNodes g funcs).Wf := by
  induction funcs with
  | nil => intro g h; exact h
  | cons f rest ih =>
    intro g h
    exact ih _ (Digraph.wf_addNode _ _ h)

theorem wf_addCallEdges (calls : List CallEntry) :
    ∀ (g : CGraph), g.Wf → (addCallEdges g calls).Wf := by
  induction calls with
  | nil => intro g h; exact h
  | cons c rest ih =>
    intro g h
    simp only [addCallEdges, List.foldl_cons]
    by_cases hc : (g.hasNode c.source && g.hasNode c.target) = true
    · rw [if_pos hc]
      rw [Bool.and_eq_true] at hc
      exact ih _ (Digraph.wf_addEdge _ _ h (Digraph.hasNode_iff.mp hc.1)
        (Digraph.hasNode_iff.mp hc.2))
    · rw [if_neg hc]
      exact ih _ h


end GVPA

namespace GVPA

theorem wf_ensureRelNode (g : CGraph) (r : RelEntry) (x : Option String)
    (hwf : g.Wf) : (ensureRelNode g r x).Wf := by
  cases x with
  | none => exact hwf
  | some s =>
    simp only [ensureRelNode]
    split
    · exact Digraph.wf_addNode _ _ hwf
    · exact hwf

theorem keys_mono_ensureRelNode {g : CGraph} {r : RelEntry} {x : Option String}
    {b : String} (hb : b ∈ g.keys) : b ∈ (ensureRelNode g r x).keys := by
  cases x with
  | none => exact hb
  | some s =>
    simp only [ensureRelNode]
    split
    · exact (Digraph.mem_keys_addNode _ _).mpr (.inr hb)
    · exact hb

theorem mem_keys_ensureRelNode_self {g : CGraph} {r : RelEntry} {s : String}
    (hs : s ≠ "") : s ∈ (ensureRelNode g r (some s)).keys := by
  simp only [ensureRelNode]
  by_cases h : g.hasNode s = true
  · rw [if_neg (by simp [hs, h])]
    exact Digraph.hasNode_iff.mp h
  · rw [if_pos ⟨hs, h⟩]
    exact (Digraph.mem_keys_addNode _ _).mpr (.inl rfl)

theorem wf_addRelEntry (r : RelEntry) :
    ∀ (g : CGraph), g.Wf → (addRelEntry g r).Wf := by
  intro g hwf
  unfold addRelEntry addRelEdges
  have hwf2 : (ensureRelNode (ensureRelNode g r r.source) r r.target).Wf :=
    wf_ensureRelNode _ r _ (wf_ensureRelNode g r _ hwf)
  rcases hs : r.source with _ | s
  · rw [hs] at hwf2
    exact hwf2
  · rcases ht : r.target with _ | t
    · rw [hs, ht] at hwf2
      exact hwf2
    · rw [hs, ht] at hwf2
      simp only [addRelEdges]
      by_cases hc : s ≠ "" ∧ t ≠ ""
      · rw [if_pos hc]
        have hsk : s ∈ (ensureRelNode (ensureRelNode g r (some s)) r (some t)).keys :=
          keys_mono_ensureRelNode (mem_keys_ensureRelNode_self hc.1)
        have htk : t ∈ (ensureRelNode (ensureRelNode g r (some s)) r (some t)).keys :=
          mem_keys_ensureRelNode_self hc.2
        split
        · refine Digraph.wf_addEdge _ _ ?_ ?_ ?_
          · exact Digraph.wf_addEdge _ _ hwf2 hsk htk
          · rw [Digraph.keys_addEdge]; exact htk
          · rw [Digraph.keys_addEdge]; exact hsk
        · exact Digraph.wf_addEdge _ _ hwf2 hsk htk
      · rw [if_neg hc]
        exact hwf2

theorem wf_relsFold (rels : List RelEntry) :
    ∀ (g : CGraph), g.Wf → (rels.foldl addRelEntry g).Wf := by
  induction rels with
  | nil => intro g h; exact h
  | cons r rest ih => intro g h; exact ih _ (wf_addRelEntry r g h)

theorem wf_addFileNodes (g : CGraph) (hwf : g.Wf) : (addFileNodes g).Wf := by
  unfold addFileNodes
  generalize collectFiles g = fs
  induction fs generalizing g with
  | nil => exact hwf
  | cons f rest ih =>
    simp only [List.foldl_cons]
    by_cases h : g.hasNode f = true
    · rw [if_pos h]
      exact ih g hwf
    · rw [if_neg h]
      exact ih _ (Digraph.wf_addNode _ _ hwf)

theorem wf_containsStep {g2 : CGraph} (p : String × NodeAttrs) (h : g2.Wf)
    (hp : p.1 ∈ g2.keys) : (containsStep g2 p).Wf := by
  unfold containsStep
  by_cases h1 : (¬ (p.2.type_ = some "File") ∧ ¬ (p.2.type_ = some "Module")) ∧
      truthyS p.2.file
  · rw [if_pos h1]
    by_cases h2 : g2.hasNode (p.2.file.getD "") = true
    · rw [if_pos h2]
      exact Digraph.wf_addEdge _ _ h (Digraph.hasNode_iff.mp h2) hp
    · rw [if_neg h2]
      exact h
  · rw [if_neg h1]
    exact h

theorem nodes_containsStep (g2 : CGraph) (p : String × NodeAttrs) :
    (containsStep g2 p).nodes = g2.nodes := by
  unfold containsStep
  split
  · split
    · exact Digraph.nodes_addEdge _ _ _ _ _
    · rfl
  · rfl

theorem wf_addContainsEdges (g : CGraph) (hwf : g.Wf) :
    (addContainsEdges g).Wf := by
  unfold addContainsEdges
  have hmain : ∀ (l : List (String × NodeAttrs)) (g2 : CGraph), g2.Wf →
      g2.keys = g.keys → (∀ q ∈ l, q ∈ g.nodes) →
      (l.foldl containsStep g2).Wf ∧ (l.foldl containsStep g2).keys = g.keys := by
    intro l
    induction l with
    | nil => intro g2 h hk _; exact ⟨h, hk⟩
    | cons p rest ih =>
      intro g2 h hk hsub
      simp only [List.foldl_cons]
      have hp : p.1 ∈ g2.keys := by
        rw [hk]
        exact List.mem_map.mpr ⟨p, hsub p (List.mem_cons_self _ _), rfl⟩
      refine ih _ (wf_containsStep p h hp) ?_ (fun q hq => hsub q (List.mem_cons_of_mem _ hq))
      rw [Digraph.keys, nodes_containsStep]
      exact hk
  exact (hmain g.nodes g hwf rfl (fun q hq => hq)).1

theorem wf_buildG (rels : List RelEntry) (a : AnalysisResult) :
    (buildG rels a).Wf :=
  wf_addContainsEdges _ (wf_addFileNodes _
    (wf_relsFold rels _ (wf_addCallEdges a.calls _
      (wf_addFuncNodes a.functions _ wf_empty))))

end GVPA

namespace GVPA

/-! ## Claim C5: unresolved external calls -/

def c5Keys : List String := ["m.f"]

def c5Raw : RawCall := ⟨"m.f", "ExtAPI", some "api_call", none⟩

/-- The analysis result that the pipeline hands to the graph builder for the
C5 scenario: one known symbol, one kept external call. -/
def c5Analysis : AnalysisResult :=
  { functions := [⟨"m.f", some "", some "Function", none, none, none⟩]
    calls := resolvedCallsOf c5Keys [c5Raw] }

/-- **C5 counterexample**: the unresolved `api_call` to `ExtAPI` is kept by
the resolver, but the final built graph contains NO edge for it and NO
synthetic `ExtAPI` node — contradicting the claim that it "appears in the
final built graph as an edge to a synthetic external-target node". -/
theorem c5_counterexample :
    resolvedCallsOf c5Keys [c5Raw] =
      [⟨"m.f", "ExtAPI", some "api_call", none, none, none, none⟩] ∧
    (buildGraphCore (mkBuilderConfig none none) [] c5Analysis none).edgeList = [] ∧
    (buildG [] c5Analysis).keys = ["m.f"] := by decide

/-- **C5 amended**: an unresolved call is kept in the resolver output
exactly when its edge type is one of `api_call`/`db_access`/`mq_pub`/`mq_sub`
(other unresolved calls are dropped: every resolver output is either a kept
external call or has a resolved target); but `build_graph` creates no
synthetic node — every edge of the final built graph joins two nodes that
already exist in the working graph, so a kept external call whose target
names no existing node yields no edge. -/
theorem c5_external_kept_but_no_synthetic_node :
    (∀ (symKeys : List String) (calls : List RawCall) (c : RawCall),
      c ∈ calls → resolveTarget symKeys c.target = none → isExtCall c = true →
      keptOf c ∈ resolvedCallsOf symKeys calls) ∧
    (∀ (symKeys : List String) (calls : List RawCall) (e : CallEntry),
      e ∈ resolvedCallsOf symKeys calls →
      (∃ c ∈ calls, resolveTarget symKeys c.target = none ∧ isExtCall c = true ∧
        e = keptOf c) ∨
      (∃ c ∈ calls, resolveTarget symKeys c.target = some e.target)) ∧
    (∀ (rels : List RelEntry) (a : AnalysisResult)
      (trace : Option (List (Option String))) (e : EdgeData),
      e ∈ (buildFull rels a trace).edgeList →
      ∃ u v d, (u, v, d) ∈ (buildG rels a).edges ∧
        u ∈ (buildG rels a).keys ∧ v ∈ (buildG rels a).keys) := by
  refine ⟨?_, ?_, ?_⟩
  · intro symKeys calls c hc hres hext
    rw [resolvedCallsOf_eq]
    refine List.mem_append_left _ ?_
    refine List.mem_map.mpr ⟨c, ?_, rfl⟩
    refine List.mem_filter.mpr ⟨hc, ?_⟩
    simp [resKey, hres, hext]
  · intro symKeys calls e he
    rw [resolvedCallsOf_eq] at he
    rcases List.mem_append.mp he with he | he
    · obtain ⟨c, hc, rfl⟩ := List.mem_map.mp he
      obtain ⟨hc1, hc2⟩ := List.mem_filter.mp hc
      rw [Bool.and_eq_true] at hc2
      left
      refine ⟨c, hc1, ?_, hc2.2, rfl⟩
      have := hc2.1
      rw [Option.isNone_iff_eq_none] at this
      simpa [resKey] using this
    · obtain ⟨⟨⟨s, r⟩, w⟩, hq, rfl⟩ := List.mem_map.mp he
      right
      have hmem : (s, r) ∈ akeys (countFold (resKey symKeys) calls []) :=
        List.mem_map.mpr ⟨_, hq, rfl⟩
      rw [countFold_mem_keys] at hmem
      rcases hmem with h | ⟨c, hc, hck⟩
      · simp [akeys] at h
      · refine ⟨c, hc, ?_⟩
        rw [resKey] at hck
        match hres : resolveTarget symKeys c.target with
        | none =>
          rw [hres] at hck
          simp at hck
        | some r0 =>
          rw [hres] at hck
          simp only [Option.map_some'] at hck
          have h2 := Option.some.inj hck
          rw [Prod.mk.injEq] at h2
          rw [h2.2]
          simp [weightedOf]
  · intro rels a trace e he
    have he2 : e ∈ serializeEdges (buildG rels a) (fullSer rels a trace).2
        (cyclePairsOf (buildG rels a)) := he
    obtain ⟨t, ht, _⟩ := List.mem_filterMap.mp he2
    have := (wf_buildG rels a).1 t ht
    exact ⟨t.1, t.2.1, t.2.2, ht, this.1, this.2⟩

end GVPA

namespace GVPA

/-! ## Coverage of the layered layout -/

theorem mem_layoutColumn {colIdx : Nat} {maxColH : ℚ} {colNodes : List String}
    {n : String} (hn : n ∈ colNodes) :
    ∃ p, (n, p) ∈ layoutColumn colIdx maxColH colNodes := by
  unfold layoutColumn
  have hsorted : n ∈ stableSort strLe colNodes := (mem_stableSort _ _ _).mpr hn
  obtain ⟨i, hi⟩ := List.get_of_mem hsorted
  refine ⟨_, List.mem_map.mpr ⟨(i.1, n), ?_, rfl⟩⟩
  rw [List.mem_iff_get?]
  refine ⟨i.1, ?_⟩
  rw [List.enum_get?]
  simp [List.get?_eq_get i.2, ← hi]

theorem mem_flatten_layout {gens : List (List String)} {maxColH : ℚ}
    {n : String} {l : List String} (hl : l ∈ gens) (hn : n ∈ l) :
    ∃ p, (n, p) ∈ ((gens.enum.map (fun q => layoutColumn q.1 maxColH q.2)).flatten) := by
  obtain ⟨i, hi⟩ := List.get_of_mem hl
  have hmem : (i.1, l) ∈ gens.enum := by
    rw [List.mem_iff_get?]
    refine ⟨i.1, ?_⟩
    rw [List.enum_get?]
    simp [List.get?_eq_get i.2, ← hi]
  obtain ⟨p, hp⟩ := @mem_layoutColumn i.1 maxColH l n hn
  refine ⟨p, List.mem_flatten.mpr ⟨layoutColumn i.1 maxColH l, ?_, hp⟩⟩
  exact List.mem_map.mpr ⟨(i.1, l), hmem, rfl⟩

theorem bucketFold_covers (em : List (String × Nat)) :
    ∀ (l : List String) (b : List (Nat × List String)) (n : String),
      (n ∈ l ∨ ∃ col, n ∈ (alookup col b).getD []) →
      ∃ col, n ∈ (alookup col
        (l.foldl (fun b n =>
          ainsert ((alookup n em).getD 0 / 10)
            ((alookup ((alookup n em).getD 0 / 10) b).getD [] ++ [n]) b) b)).getD [] := by
  intro l
  induction l with
  | nil =>
    intro b n h
    rcases h with h | h
    · simp at h
    · exact h
  | cons n0 rest ih =>
    intro b n h
    simp only [List.foldl_cons]
    set col0 := ((alookup n0 em).getD 0) / 10 with hcol0
    set b1 := ainsert col0 ((alookup col0 b).getD [] ++ [n0]) b with hb1
    refine ih b1 n ?_
    rcases h with h | h
    · rcases List.mem_cons.mp h with rfl | h
      · right
        refine ⟨col0, ?_⟩
        rw [hb1, alookup_ainsert_self]
        simp
      · exact .inl h
    · obtain ⟨col, hcol⟩ := h
      right
      by_cases hc : col = col0
      · subst hc
        refine ⟨col0, ?_⟩
        rw [hb1, alookup_ainsert_self]
        simp only [Option.getD_some]
        exact List.mem_append_left _ hcol
      · refine ⟨col, ?_⟩
        rw [hb1, alookup_ainsert_ne _ _ _ _ hc]
        exact hcol

theorem bucketGenerations_covers {ν ε : Type} (g : Digraph String ν ε)
    (em : List (String × Nat)) {n : String} (hn : n ∈ g.keys) :
    ∃ l ∈ bucketGenerations g em, n ∈ l := by
  unfold bucketGenerations
  obtain ⟨col, hcol⟩ := bucketFold_covers em g.keys [] n (.inl hn)
  set bk := g.keys.foldl (fun b n =>
    ainsert ((alookup n em).getD 0 / 10)
      ((alookup ((alookup n em).getD 0 / 10) b).getD [] ++ [n]) b) [] with hbk
  have hsome : ∃ lst, alookup col bk = some lst := by
    match hl : alookup col bk with
    | some lst => exact ⟨lst, rfl⟩
    | none => rw [hl] at hcol; simp at hcol
  obtain ⟨lst, hlst⟩ := hsome
  refine ⟨(alookup col bk).getD [], ?_, hcol⟩
  refine List.mem_map.mpr ⟨col, ?_, rfl⟩
  rw [mem_stableSort]
  exact alookup_isSome_iff.mp (by rw [hlst]; rfl)

theorem mem_layoutFromGenerations {gens : List (List String)} {n : String}
    {l : List String} (hl : l ∈ gens) (hn : n ∈ l) :
    ∃ p, (n, p) ∈ layoutFromGenerations gens := by
  exact mem_flatten_layout hl hn

theorem keys_layeredDag {ν ε : Type} (g : Digraph String ν ε)
    (em : List (String × Nat)) : (layeredDag g em).keys = g.keys := by
  unfold layeredDag
  rw [Digraph.keys, Digraph.nodes_breakCycles]
  split <;> rfl

theorem computeLayeredLayout_covers {ν ε : Type} (g : Digraph String ν ε)
    (em : List (String × Nat)) {n : String} (hn : n ∈ g.keys) :
    ∃ p, (n, p) ∈ computeLayeredLayout g em := by
  unfold computeLayeredLayout
  match hgen : (layeredDag g em).topoGenerations with
  | some ls =>
    have hcov := Digraph.peelAux_covers hgen n (by rw [keys_layeredDag]; exact hn)
    obtain ⟨l, hl, hnl⟩ := hcov
    exact mem_layoutFromGenerations hl hnl
  | none =>
    obtain ⟨l, hl, hnl⟩ := bucketGenerations_covers g em hn
    exact mem_layoutFromGenerations hl hnl

end GVPA

namespace GVPA

/-! ## Structure of the serialization loops -/

theorem alookup_zip_isSome {α β : Type} [DecidableEq α] :
    ∀ (names : List α) (vals : List β) (a : α), a ∈ names →
      names.length = vals.length → (alookup a (names.zip vals)).isSome = true := by
  intro names
  induction names with
  | nil => intro vals a ha; simp at ha
  | cons n rest ih =>
    intro vals a ha hlen
    match vals with
    | [] => simp at hlen
    | v :: vrest =>
      simp only [List.zip_cons_cons, alookup]
      by_cases hn : n = a
      · rw [if_pos hn]; rfl
      · rw [if_neg hn]
        rcases List.mem_cons.mp ha with rfl | ha
        · exact absurd rfl hn
        · exact ih vrest a ha (by simpa using hlen)

theorem serializeNodesAux_struct (pos : List (String × (ℚ × ℚ)))
    (em : List (String × Nat)) (hits : List (String × Nat)) (tg : Bool)
    (mx my : ℚ) :
    ∀ (l : List (String × NodeAttrs)) (idx : Nat),
      (∀ p ∈ l, (alookup p.1 pos).isSome = true) →
      (serializeNodesAux pos em hits tg mx my l idx).1.map (fun nd => nd.title) =
          l.map Prod.fst ∧
      (serializeNodesAux pos em hits tg mx my l idx).1.map (fun nd => nd.id) =
          List.range' idx l.length ∧
      (serializeNodesAux pos em hits tg mx my l idx).2 =
          (l.map Prod.fst).zip (List.range' idx l.length) := by
  intro l
  induction l with
  | nil => intro idx h; exact ⟨rfl, rfl, rfl⟩
  | cons p rest ih =>
    intro idx h
    obtain ⟨name, a⟩ := p
    have hsome : (alookup name pos).isSome = true := h _ (List.mem_cons_self _ _)
    obtain ⟨q, hq⟩ := Option.isSome_iff_exists.mp hsome
    simp only [serializeNodesAux, hq]
    have hrest := ih (idx + 1) (fun p hp => h p (List.mem_cons_of_mem _ hp))
    refine ⟨?_, ?_, ?_⟩
    · simp only [List.map_cons, hrest.1]
    · simp only [List.map_cons, hrest.2.1, List.length_cons, List.range'_succ]
    · simp only [List.map_cons, List.length_cons, List.range'_succ,
        List.zip_cons_cons, hrest.2.2]

theorem serializeNodesAux_execSeq (pos : List (String × (ℚ × ℚ)))
    (em : List (String × Nat)) (hits : List (String × Nat)) (tg : Bool)
    (mx my : ℚ) :
    ∀ (l : List (String × NodeAttrs)) (idx : Nat) (nd : NodeData),
      nd ∈ (serializeNodesAux pos em hits tg mx my l idx).1 →
      ∃ name, name ∈ l.map Prod.fst ∧ nd.execSeq = (alookup name em).getD 0 := by
  intro l
  induction l with
  | nil => intro idx nd h; simp [serializeNodesAux] at h
  | cons p rest ih =>
    intro idx nd h
    obtain ⟨name, a⟩ := p
    simp only [serializeNodesAux] at h
    match hq : alookup name pos with
    | none =>
      rw [hq] at h
      obtain ⟨name2, hmem, hseq⟩ := ih idx nd h
      exact ⟨name2, List.mem_cons_of_mem _ hmem, hseq⟩
    | some q =>
      rw [hq] at h
      rcases List.mem_cons.mp h with rfl | h
      · exact ⟨name, List.mem_cons_self _ _, rfl⟩
      · obtain ⟨name2, hmem, hseq⟩ := ih (idx + 1) nd h
        exact ⟨name2, List.mem_cons_of_mem _ hmem, hseq⟩

theorem serializeAggNodesAux_struct (pos : List (String × (ℚ × ℚ)))
    (em : List (String × Nat)) :
    ∀ (l : List (String × Nat)) (idx : Nat),
      (serializeAggNodesAux pos em l idx).1.map (fun nd => nd.title) =
          l.map (fun p => if p.1 = "" then "unknown" else basename p.1) ∧
      (serializeAggNodesAux pos em l idx).1.map (fun nd => nd.id) =
          List.range' idx l.length ∧
      (serializeAggNodesAux pos em l idx).2 =
          (l.map Prod.fst).zip (List.range' idx l.length) := by
  intro l
  induction l with
  | nil => intro idx; exact ⟨rfl, rfl, rfl⟩
  | cons p rest ih =>
    intro idx
    obtain ⟨name, cnt⟩ := p
    simp only [serializeAggNodesAux]
    have hrest := ih (idx + 1)
    refine ⟨?_, ?_, ?_⟩
    · simp only [List.map_cons, hrest.1]
    · simp only [List.map_cons, hrest.2.1, List.length_cons, List.range'_succ]
    · simp only [List.map_cons, List.length_cons, List.range'_succ,
        List.zip_cons_cons, hrest.2.2]

theorem serializeAggNodesAux_execSeq (pos : List (String × (ℚ × ℚ)))
    (em : List (String × Nat)) :
    ∀ (l : List (String × Nat)) (idx : Nat) (nd : AggNodeData),
      nd ∈ (serializeAggNodesAux pos em l idx).1 →
      ∃ name, name ∈ l.map Prod.fst ∧ nd.execSeq = (alookup name em).getD 0 := by
  intro l
  induction l with
  | nil => intro idx nd h; simp [serializeAggNodesAux] at h
  | cons p rest ih =>
    intro idx nd h
    obtain ⟨name, cnt⟩ := p
    simp only [serializeAggNodesAux] at h
    rcases List.mem_cons.mp h with rfl | h
    · exact ⟨name, List.mem_cons_self _ _, rfl⟩
    · obtain ⟨name2, hmem, hseq⟩ := ih (idx + 1) nd h
      exact ⟨name2, List.mem_cons_of_mem _ hmem, hseq⟩

end GVPA

namespace GVPA

/-! ## Claim C3: execution sequence numbers -/

def cfgD : BuilderConfig := mkBuilderConfig none none

def triF (n : String) : FuncEntry := ⟨n, some "", some "Function", none, none, none⟩

def triC (s t : String) : CallEntry := ⟨s, t, none, none, none, none, none⟩

/-- The spec's Scenario A input: three symbols in a full cycle a→b→c→a. -/
def triA : AnalysisResult :=
  { functions := [triF "a", triF "b", triF "c"]
    calls := [triC "a" "b", triC "b" "c", triC "c" "a"] }

/-- **C3 counterexample**: in the 3-cycle input every node lies on a cycle
(all three edges close cycles), yet every serialized node carries a
non-zero execution sequence number — the claim that a cyclic node "carries
execution sequence number 0 in the output" is false: after cycle breaking
the topological sort covers all nodes (and the in-degree fallback also
numbers all nodes), so 0 is never emitted. -/
theorem c3_counterexample :
    (buildGraphCore cfgD [] triA none).nodeIdTitleSeq.length = 3 ∧
    (∀ p ∈ (buildGraphCore cfgD [] triA none).nodeIdTitleSeq, p.2.2 ≠ 0) ∧
    (buildG [] triA).cycleEdgePairs = [("a", "b"), ("b", "c"), ("c", "a")] := by
  decide

/-- **C3 amended**: `build_graph` computes execution order by copying the
graph, repeatedly removing the back edge of a found cycle until acyclic,
then topologically sorting with 1-based numbers (ascending in-degree
fallback when the sort fails) — and consequently every node of the output
carries a sequence number ≥ 1; no output node carries 0 (not even cyclic
ones, contrary to the original claim). -/
theorem c3_exec_seq_positive :
    ∀ (cfg : BuilderConfig) (rels : List RelEntry) (a : AnalysisResult)
      (trace : Option (List (Option String))) (o : GraphData),
      build_graph cfg rels (some a) trace = some o →
      ∀ p ∈ o.nodeIdTitleSeq, 1 ≤ p.2.2 := by
  intro cfg rels a trace o hb p hp
  have ho : o = buildGraphCore cfg rels a trace :=
    (Option.some.inj hb).symm
  subst ho
  unfold buildGraphCore at hp
  by_cases hroute : a.functions.length > cfg.graph_node_limit ∨
      a.calls.length > cfg.graph_edge_limit
  · rw [if_pos hroute] at hp
    simp only [buildAggregated, GraphData.nodeIdTitleSeq] at hp
    obtain ⟨nd, hnd, rfl⟩ := List.mem_map.mp hp
    obtain ⟨name, hname, hseq⟩ := serializeAggNodesAux_execSeq _ _ _ _ nd hnd
    obtain ⟨k, hk, hk1⟩ := execMapOf_lookup_pos (aggGraphOf a) name hname
    simp only [hseq, hk]
    simpa using hk1
  · rw [if_neg hroute] at hp
    simp only [buildFull, GraphData.nodeIdTitleSeq] at hp
    obtain ⟨nd, hnd, rfl⟩ := List.mem_map.mp hp
    obtain ⟨name, hname, hseq⟩ := serializeNodesAux_execSeq _ _ _ _ _ _ _ _ nd hnd
    obtain ⟨k, hk, hk1⟩ := execMapOf_lookup_pos (buildG rels a) name hname
    simp only [hseq, hk]
    simpa using hk1

/-- Witness for the amended C3 at the 3-cycle input: the node titled `a`
appears in the output and its sequence number is ≥ 1. -/
theorem c3_witness :
    ((0, "a", 3) : Nat × String × Nat) ∈
      (buildGraphCore cfgD [] triA none).nodeIdTitleSeq ∧
    1 ≤ ((0, "a", 3) : Nat × String × Nat).2.2 :=
  ⟨by decide,
    c3_exec_seq_positive cfgD [] triA none (buildGraphCore cfgD [] triA none) rfl
      (0, "a", 3) (by decide)⟩

end GVPA

namespace GVPA

/-! ## Claim C2: bounded cycle enumeration -/

theorem fullSer_idMap_isSome (rels : List RelEntry) (a : AnalysisResult)
    (trace : Option (List (Option String))) {u : String}
    (hu : u ∈ (buildG rels a).keys) :
    ∃ k, alookup u (fullSer rels a trace).2 = some k := by
  have hcov : ∀ p ∈ (buildG rels a).nodes,
      (alookup p.1 (fullPos rels a)).isSome = true := by
    intro p hp
    obtain ⟨q, hq⟩ := computeLayeredLayout_covers (buildG rels a)
      (execMapOf (buildG rels a)) (List.mem_map.mpr ⟨p, hp, rfl⟩)
    exact alookup_isSome_iff.mpr (List.mem_map.mpr ⟨(p.1, q), hq, rfl⟩)
  have hstruct := serializeNodesAux_struct (fullPos rels a)
    (execMapOf (buildG rels a)) (hitCountsOf trace) trace.isSome
    (qmin ((fullPos rels a).map (fun p => p.2.1)))
    (qmin ((fullPos rels a).map (fun p => p.2.2)))
    (buildG rels a).nodes 0 hcov
  have h2 : (fullSer rels a trace).2 =
      ((buildG rels a).nodes.map Prod.fst).zip
        (List.range' 0 (buildG rels a).nodes.length) := hstruct.2.2
  rw [h2]
  have := alookup_zip_isSome ((buildG rels a).nodes.map Prod.fst)
    (List.range' 0 (buildG rels a).nodes.length) u hu
    (by simp)
  exact Option.isSome_iff_exists.mp this

theorem serializeOneEdge_cycle {g : CGraph} {idMap : List (String × Nat)}
    {cyc : List (String × String)} {t : String × String × EdgeAttrs}
    {su tv : Nat} (hsu : alookup t.1 idMap = some su)
    (htv : alookup t.2.1 idMap = some tv) (hcyc : (t.1, t.2.1) ∈ cyc) :
    serializeOneEdge g idMap cyc t =
      some ⟨su, tv, "cycle", t.2.2.weight.getD 1, "high",
        t.2.2.status.getD "unchanged"⟩ := by
  have htr : edgeTypeRisk g cyc t = ("cycle", "high") := by
    unfold edgeTypeRisk
    rw [if_pos hcyc]
  unfold serializeOneEdge
  rw [hsu, htv, htr]

theorem serializeOneEdge_no_cycle {g : CGraph} {idMap : List (String × Nat)}
    {t : String × String × EdgeAttrs} {e : EdgeData}
    (h : serializeOneEdge g idMap [] t = some e) :
    e.type_ ≠ "cycle" ∧ e.risk = t.2.2.risk.getD "low" := by
  unfold serializeOneEdge at h
  match hsu : alookup t.1 idMap, htv : alookup t.2.1 idMap with
  | some su, some tv =>
    rw [hsu, htv] at h
    have he := Option.some.inj h
    have htr : (edgeTypeRisk g [] t).1 ≠ "cycle" ∧
        (edgeTypeRisk g [] t).2 = t.2.2.risk.getD "low" := by
      unfold edgeTypeRisk
      rw [if_neg (List.not_mem_nil _)]
      split
      · exact ⟨by simp, rfl⟩
      · split
        · exact ⟨by simp, rfl⟩
        · split
          · exact ⟨by simp, rfl⟩
          · split
            · exact ⟨by simp, rfl⟩
            · split
              · exact ⟨by simp, rfl⟩
              · exact ⟨by simp, rfl⟩
    rw [← he]
    exact htr
  | some su, none => rw [hsu, htv] at h; cases h
  | none, _ => rw [hsu] at h; cases h

/-- **C2**: cycles are enumerated only when the edge count is at most the
cycle-check threshold (the fixed 200).  At or below it, every edge that
participates in a simple cycle (its target reaches its source) is emitted
with type `cycle` and risk forced to `high`; above it, the enumerated
cycle set is empty and no edge receives the cycle type or the forced high
risk (each keeps its own risk, defaulted to `low`). -/
theorem c2_cycle_enumeration_threshold (rels : List RelEntry)
    (a : AnalysisResult) (trace : Option (List (Option String))) :
    ((buildG rels a).edges.length ≤ EDGE_CYCLE_CHECK_LIMIT →
      ∀ u v d, (u, v, d) ∈ (buildG rels a).edges →
        Digraph.reachable (buildG rels a) v u = true →
        ∃ su tv, alookup u (fullSer rels a trace).2 = some su ∧
          alookup v (fullSer rels a trace).2 = some tv ∧
          (⟨su, tv, "cycle", d.weight.getD 1, "high",
            d.status.getD "unchanged"⟩ : EdgeData) ∈
            (buildFull rels a trace).edgeList) ∧
    (¬ (buildG rels a).edges.length ≤ EDGE_CYCLE_CHECK_LIMIT →
      cyclePairsOf (buildG rels a) = [] ∧
      ∀ e ∈ (buildFull rels a trace).edgeList,
        e.type_ ≠ "cycle" ∧
        ∃ u v d, (u, v, d) ∈ (buildG rels a).edges ∧
          e.risk = d.risk.getD "low") := by
  constructor
  · intro hle u v d ht hreach
    have hwf := wf_buildG rels a
    obtain ⟨hu, hv⟩ := hwf.1 _ ht
    obtain ⟨su, hsu⟩ := fullSer_idMap_isSome rels a trace hu
    obtain ⟨tv, htv⟩ := fullSer_idMap_isSome rels a trace hv
    refine ⟨su, tv, hsu, htv, ?_⟩
    have hcyc : (u, v) ∈ cyclePairsOf (buildG rels a) := by
      unfold cyclePairsOf
      rw [if_pos hle]
      refine List.mem_map.mpr ⟨(u, v, d), ?_, rfl⟩
      refine List.mem_filter.mpr ⟨ht, ?_⟩
      simpa [Digraph.isClosingEdge] using hreach
    have := @serializeOneEdge_cycle (buildG rels a) ((fullSer rels a trace).2)
      (cyclePairsOf (buildG rels a)) (u, v, d) su tv hsu htv hcyc
    exact List.mem_filterMap.mpr ⟨(u, v, d), ht, this⟩
  · intro hgt
    have hempty : cyclePairsOf (buildG rels a) = [] := by
      unfold cyclePairsOf
      rw [if_neg hgt]
    refine ⟨hempty, ?_⟩
    intro e he
    have he2 : e ∈ (buildG rels a).edges.filterMap
        (serializeOneEdge (buildG rels a) (fullSer rels a trace).2
          (cyclePairsOf (buildG rels a))) := he
    rw [hempty] at he2
    obtain ⟨t, ht, hft⟩ := List.mem_filterMap.mp he2
    have := serializeOneEdge_no_cycle hft
    exact ⟨this.1, t.1, t.2.1, t.2.2, ht, this.2⟩

end GVPA

namespace GVPA

def nmL : List String :=
  ["a", "b", "c", "d", "e", "f", "g", "h", "i", "j", "k", "l", "m", "n", "o"]

/-- A 15-function analysis whose working graph has 210 call edges — above
the cycle-check threshold of 200. -/
def bigA : AnalysisResult :=
  { functions := nmL.map (fun s => ⟨s, some "", some "Function", none, none, none⟩)
    calls := nmL.flatMap (fun s => nmL.filterMap
      (fun t => if s = t then none else some ⟨s, t, none, none, none, none, none⟩)) }

/-- Witness for C2: at the 3-cycle input (3 edges ≤ 200) the edge a→b is
emitted as `cycle`/`high`; at the 210-edge input no cycle is enumerated
and no edge is typed `cycle`. -/
theorem c2_witness :
    ((buildG [] triA).edges.length ≤ EDGE_CYCLE_CHECK_LIMIT ∧
      (∃ su tv, alookup "a" (fullSer [] triA none).2 = some su ∧
        alookup "b" (fullSer [] triA none).2 = some tv ∧
        (⟨su, tv, "cycle", 1, "high", "unchanged"⟩ : EdgeData) ∈
          (buildFull [] triA none).edgeList)) ∧
    (¬ (buildG [] bigA).edges.length ≤ EDGE_CYCLE_CHECK_LIMIT ∧
      cyclePairsOf (buildG [] bigA) = [] ∧
      ∀ e ∈ (buildFull [] bigA none).edgeList,
        e.type_ ≠ "cycle" ∧
        ∃ u v d, (u, v, d) ∈ (buildG [] bigA).edges ∧
          e.risk = d.risk.getD "low") := by
  refine ⟨⟨by decide, ?_⟩, ⟨by decide, ?_⟩⟩
  · exact (c2_cycle_enumeration_threshold [] triA none).1 (by decide) "a" "b"
      ⟨none, none, none, none, none, none⟩ (by decide) (by decide)
  · exact (c2_cycle_enumeration_threshold [] bigA none).2 (by decide)

end GVPA

namespace GVPA

def c5bA : AnalysisResult :=
  { functions := [⟨"m.f", some "", some "Function", none, none, none⟩,
      ⟨"m.g", some "", some "Function", none, none, none⟩]
    calls := [⟨"m.f", "m.g", none, none, none, none, none⟩] }

/-- Witness for the amended C5: the unresolved external call is kept by the
resolver, and a concretely emitted edge of a built graph joins two existing
nodes. -/
theorem c5_witness :
    keptOf c5Raw ∈ resolvedCallsOf c5Keys [c5Raw] ∧
    (∃ u v d, (u, v, d) ∈ (buildG [] c5bA).edges ∧
      u ∈ (buildG [] c5bA).keys ∧ v ∈ (buildG [] c5bA).keys) :=
  ⟨c5_external_kept_but_no_synthetic_node.1 c5Keys [c5Raw] c5Raw
      (by decide) (by decide) (by decide),
    c5_external_kept_but_no_synthetic_node.2.2 [] c5bA none
      ⟨0, 1, "default", 1, "low", "unchanged"⟩ (by decide)⟩

end GVPA

namespace GVPA

/-! ## Claim C1: helper lemmas about aggregated mode -/

/-- `aggEdgeKey` yields a pair exactly when both endpoint files are known,
truthy and distinct. -/
theorem aggEdgeKey_eq_some (a : AnalysisResult) (c : CallEntry) (s t : String) :
    aggEdgeKey a c = some (s, t) ↔
      alookup c.source (funcToFileOf a) = some s ∧
      alookup c.target (funcToFileOf a) = some t ∧
      ¬ s = "" ∧ ¬ t = "" ∧ ¬ s = t := by
  unfold aggEdgeKey
  cases hsrc : alookup c.source (funcToFileOf a) with
  | none => simp [hsrc]
  | some s' =>
    cases htgt : alookup c.target (funcToFileOf a) with
    | none => simp [htgt]
    | some t' =>
      show (if s' = "" ∨ t' = "" then none
          else if s' = t' then none else some (s', t')) = some (s, t) ↔ _
      by_cases hor : s' = "" ∨ t' = ""
      · rw [if_pos hor]
        constructor
        · intro h; cases h
        · rintro ⟨hs, ht, hs0, ht0, _⟩
          cases hs; cases ht
          rcases hor with h | h
          · exact absurd h hs0
          · exact absurd h ht0
      · rw [if_neg hor]
        by_cases heq : s' = t'
        · rw [if_pos heq]
          constructor
          · intro h; cases h
          · rintro ⟨hs, ht, _, _, hst⟩
            cases hs; cases ht
            exact absurd heq hst
        · rw [if_neg heq]
          push_neg at hor
          constructor
          · intro h
            simp only [Option.some_inj, Prod.mk.injEq] at h
            obtain ⟨rfl, rfl⟩ := h
            exact ⟨rfl, rfl, hor.1, hor.2, heq⟩
          · rintro ⟨hs, ht, _, _, _⟩
            cases hs; cases ht
            rfl

/-- Every file recorded in `func_to_file` comes from some function entry. -/
theorem funcToFileOf_some_orig (a : AnalysisResult) (p v : String)
    (h : alookup p (funcToFileOf a) = some v) :
    ∃ f ∈ a.functions, f.name = p ∧ fileOf f = v := by
  rcases foldl_ainsert_lookup_orig (fun f : FuncEntry => f.name)
      (fun f => fileOf f) a.functions [] p v h with ⟨x, hx, hk, hv⟩ | h2
  · exact ⟨x, hx, hk, hv⟩
  · simp [alookup] at h2

/-- With no duplicate function names, `func_to_file` is exactly the graph of
`fileOf` over the function list. -/
theorem funcToFileOf_lookup_iff (a : AnalysisResult)
    (hnd : (a.functions.map (fun f => f.name)).Nodup) (p v : String) :
    alookup p (funcToFileOf a) = some v ↔
      ∃ f ∈ a.functions, f.name = p ∧ fileOf f = v := by
  constructor
  · exact funcToFileOf_some_orig a p v
  · rintro ⟨f, hf, rfl, rfl⟩
    exact foldl_ainsert_lookup_nodup (fun f : FuncEntry => f.name)
      (fun f => fileOf f) a.functions [] f hnd hf

/-- Aggregated node keys: the distinct files, in first-appearance order. -/
theorem fileFuncCountOf_keys (a : AnalysisResult) :
    akeys (fileFuncCountOf a) = firstDedup (a.functions.map fileOf) := by
  unfold fileFuncCountOf
  rw [countFold_keys]
  have hfm : ∀ l : List FuncEntry,
      List.filterMap (fun f => some (fileOf f)) l = l.map fileOf := by
    intro l
    induction l with
    | nil => rfl
    | cons x l ih => simp [List.filterMap_cons, ih]
  simp [akeys, hfm]

end GVPA

namespace GVPA

/-- Aggregated-mode node count: one serialized node per distinct file. -/
theorem buildAggregated_node_count (a : AnalysisResult) :
    (buildAggregated a).nodeIdTitleSeq.length =
      (firstDedup (a.functions.map fileOf)).length := by
  simp only [buildAggregated, GraphData.nodeIdTitleSeq, List.length_map]
  have h := (serializeAggNodesAux_struct
    (computeLayeredLayout (aggGraphOf a) (execMapOf (aggGraphOf a)))
    (execMapOf (aggGraphOf a)) (aggGraphOf a).nodes 0).2.1
  have hlen : (aggSer a).1.length = (aggGraphOf a).nodes.length := by
    have h2 := congrArg List.length h
    simpa [aggSer] using h2
  rw [hlen, ← fileFuncCountOf_keys]
  simp [aggGraphOf, akeys]

/-- No aggregated edge joins a file to itself. -/
theorem aggGraphOf_no_self_edges (a : AnalysisResult) :
    ∀ t ∈ (aggGraphOf a).edges, ¬ t.1 = t.2.1 := by
  intro t ht
  simp only [aggGraphOf, List.mem_map] at ht
  obtain ⟨⟨⟨s, t'⟩, w⟩, hp, rfl⟩ := ht
  have hk : (s, t') ∈ akeys (fileEdgesOf a) :=
    List.mem_map_of_mem Prod.fst hp
  rw [fileEdgesOf, countFold_mem_keys] at hk
  rcases hk with h | ⟨c, _, hc⟩
  · simp [akeys] at h
  · exact ((aggEdgeKey_eq_some a c s t').mp hc).2.2.2.2

/-- Each ordered file pair occurs at most once among the aggregated edges. -/
theorem aggGraphOf_pairs_nodup (a : AnalysisResult) :
    ((aggGraphOf a).edges.map (fun t => (t.1, t.2.1))).Nodup := by
  have h : (aggGraphOf a).edges.map (fun t => (t.1, t.2.1)) =
      akeys (fileEdgesOf a) := by
    simp only [aggGraphOf, List.map_map, akeys]
    apply List.map_congr_left
    intro p _
    rfl
  rw [h]
  exact countFold_keys_nodup _ _ _ (by simp [akeys])

/-- The stored weight of a file pair counts the calls aggregated onto it. -/
theorem fileEdgesOf_weight (a : AnalysisResult) (s t : String) :
    (alookup (s, t) (fileEdgesOf a)).getD 0 =
      (a.calls.filter (fun c => decide (aggEdgeKey a c = some (s, t)))).length := by
  unfold fileEdgesOf
  rw [countFold_lookup]
  simp [alookup]

end GVPA

namespace GVPA

/-- Every aggregated-graph edge is serialized, keeping its weight, with the
constant type `file_flow` and risk `low`. -/
theorem buildAggregated_edge_out (a : AnalysisResult) :
    ∀ t ∈ (aggGraphOf a).edges, ∃ e ∈ (buildAggregated a).edgeList,
      e.weight = t.2.2 ∧ e.type_ = "file_flow" ∧ e.risk = "low" := by
  intro t ht
  have htt := ht
  simp only [aggGraphOf, List.mem_map] at htt
  obtain ⟨⟨⟨s, t'⟩, w⟩, hp, rfl⟩ := htt
  have hk : (s, t') ∈ akeys (fileEdgesOf a) :=
    List.mem_map_of_mem Prod.fst hp
  rw [fileEdgesOf, countFold_mem_keys] at hk
  rcases hk with h | ⟨c, _, hc⟩
  · simp [akeys] at h
  obtain ⟨hs, ht2, _, _, _⟩ := (aggEdgeKey_eq_some a c s t').mp hc
  obtain ⟨f, hf, _, hfile⟩ := funcToFileOf_some_orig a c.source s hs
  obtain ⟨g, hg, _, hgfile⟩ := funcToFileOf_some_orig a c.target t' ht2
  have hsmem : s ∈ akeys (fileFuncCountOf a) := by
    rw [fileFuncCountOf_keys, mem_firstDedup]
    exact hfile ▸ List.mem_map_of_mem fileOf hf
  have htmem : t' ∈ akeys (fileFuncCountOf a) := by
    rw [fileFuncCountOf_keys, mem_firstDedup]
    exact hgfile ▸ List.mem_map_of_mem fileOf hg
  have hid := (serializeAggNodesAux_struct
    (computeLayeredLayout (aggGraphOf a) (execMapOf (aggGraphOf a)))
    (execMapOf (aggGraphOf a)) (aggGraphOf a).nodes 0).2.2
  have hidmap : (aggSer a).2 =
      ((aggGraphOf a).nodes.map Prod.fst).zip
        (List.range' 0 (aggGraphOf a).nodes.length) := hid
  have hsu : (alookup s (aggSer a).2).isSome = true := by
    rw [hidmap]
    exact alookup_zip_isSome _ _ _ hsmem (by simp)
  have htv : (alookup t' (aggSer a).2).isSome = true := by
    rw [hidmap]
    exact alookup_zip_isSome _ _ _ htmem (by simp)
  obtain ⟨su, hsu'⟩ := Option.isSome_iff_exists.mp hsu
  obtain ⟨tv, htv'⟩ := Option.isSome_iff_exists.mp htv
  refine ⟨⟨su, tv, "file_flow", w, "low", "unchanged"⟩, ?_, rfl, rfl, rfl⟩
  simp only [buildAggregated, GraphData.edgeList, serializeAggEdges]
  rw [List.mem_filterMap]
  exact ⟨(s, t', w), ht, by simp [hsu', htv']⟩

end GVPA

namespace GVPA

/-- **C1**: `build_graph` routes to aggregated mode exactly when the function
count exceeds the configured node limit (default 600, user value capped at
2000) or the call count exceeds the configured edge limit (default 1000); the
aggregated output has one node per distinct source file; each ordered pair of
distinct files carries at most one edge, whose stored weight counts exactly
the calls aggregated onto that pair — and when every function's file is
truthy, a call aggregates onto `(s, t)` with `s ≠ t` precisely when its
source function's file is `s` and its target function's file is `t` (with no
duplicate function names, `func_to_file` maps a name to a file exactly when
some function entry has that name and file); same-file calls are discarded
(no self edge exists); and every aggregated edge is serialized with its
weight, type `file_flow`, risk `low`. -/
theorem c1_scale_guard_aggregation (userNode userEdge : Option Nat)
    (rels : List RelEntry) (a : AnalysisResult)
    (trace : Option (List (Option String))) :
    ((mkBuilderConfig userNode userEdge).graph_node_limit =
        min (userNode.getD 600) 2000 ∧
      (mkBuilderConfig userNode userEdge).graph_edge_limit =
        userEdge.getD 1000) ∧
    ((buildGraphCore (mkBuilderConfig userNode userEdge) rels a
        trace).isAggregated = true ↔
      (a.functions.length > (mkBuilderConfig userNode userEdge).graph_node_limit ∨
        a.calls.length > (mkBuilderConfig userNode userEdge).graph_edge_limit)) ∧
    ((buildAggregated a).nodeIdTitleSeq.length =
      (firstDedup (a.functions.map fileOf)).length) ∧
    (∀ t ∈ (aggGraphOf a).edges, ¬ t.1 = t.2.1) ∧
    (((aggGraphOf a).edges.map (fun t => (t.1, t.2.1))).Nodup) ∧
    (∀ s t, (alookup (s, t) (fileEdgesOf a)).getD 0 =
      (a.calls.filter
        (fun c => decide (aggEdgeKey a c = some (s, t)))).length) ∧
    ((∀ f ∈ a.functions, ¬ fileOf f = "") →
      ∀ (c : CallEntry) (s t : String), ¬ s = t →
        (aggEdgeKey a c = some (s, t) ↔
          alookup c.source (funcToFileOf a) = some s ∧
          alookup c.target (funcToFileOf a) = some t)) ∧
    ((a.functions.map (fun f => f.name)).Nodup →
      ∀ p v, (alookup p (funcToFileOf a) = some v ↔
        ∃ f ∈ a.functions, f.name = p ∧ fileOf f = v)) ∧
    (∀ t ∈ (aggGraphOf a).edges, ∃ e ∈ (buildAggregated a).edgeList,
      e.weight = t.2.2 ∧ e.type_ = "file_flow" ∧ e.risk = "low") := by
  refine ⟨⟨rfl, rfl⟩, ?_, buildAggregated_node_count a,
    aggGraphOf_no_self_edges a, aggGraphOf_pairs_nodup a,
    fileEdgesOf_weight a, ?_, funcToFileOf_lookup_iff a,
    buildAggregated_edge_out a⟩
  · by_cases hcond : a.functions.length >
        (mkBuilderConfig userNode userEdge).graph_node_limit ∨
      a.calls.length > (mkBuilderConfig userNode userEdge).graph_edge_limit
    · rw [buildGraphCore, if_pos hcond]
      simp [GraphData.isAggregated, buildAggregated, hcond]
    · rw [buildGraphCore, if_neg hcond]
      simp [GraphData.isAggregated, buildFull, hcond]
  · intro hfile c s t hst
    constructor
    · intro h
      exact ⟨((aggEdgeKey_eq_some a c s t).mp h).1,
        ((aggEdgeKey_eq_some a c s t).mp h).2.1⟩
    · rintro ⟨hs, ht⟩
      obtain ⟨f, hf, _, hfile_s⟩ := funcToFileOf_some_orig a c.source s hs
      obtain ⟨g, hg, _, hfile_t⟩ := funcToFileOf_some_orig a c.target t ht
      exact (aggEdgeKey_eq_some a c s t).mpr
        ⟨hs, ht, hfile_s ▸ hfile f hf, hfile_t ▸ hfile g hg, hst⟩

end GVPA

namespace GVPA

def c1A : AnalysisResult :=
  { functions := [⟨"m.f", some "a.py", some "Function", none, none, none⟩,
      ⟨"m.g", some "b.py", some "Function", none, none, none⟩,
      ⟨"m.h", some "a.py", some "Function", none, none, none⟩]
    calls := [⟨"m.f", "m.g", none, none, none, none, none⟩,
      ⟨"m.f", "m.h", none, none, none, none, none⟩] }

def c1c : CallEntry := ⟨"m.f", "m.g", none, none, none, none, none⟩

/-- Witness for C1: with a user node limit of 2, three functions over two
files route to aggregated mode, the output has two nodes (one per file), and
the aggregation key of the cross-file call is characterized by the two
`func_to_file` lookups. -/
theorem c1_witness :
    (buildGraphCore (mkBuilderConfig (some 2) none) [] c1A
        none).isAggregated = true ∧
    (buildAggregated c1A).nodeIdTitleSeq.length =
      (firstDedup (c1A.functions.map fileOf)).length ∧
    (aggEdgeKey c1A c1c = some ("a.py", "b.py") ↔
      alookup c1c.source (funcToFileOf c1A) = some "a.py" ∧
      alookup c1c.target (funcToFileOf c1A) = some "b.py") ∧
    (alookup "m.f" (funcToFileOf c1A) = some "a.py" ↔
      ∃ f ∈ c1A.functions, f.name = "m.f" ∧ fileOf f = "a.py") := by
  have h := c1_scale_guard_aggregation (some 2) none [] c1A none
  exact ⟨h.2.1.mpr (by decide), h.2.2.1,
    h.2.2.2.2.2.2.1 (by decide) c1c "a.py" "b.py" (by decide),
    h.2.2.2.2.2.2.2.1 (by decide) "m.f" "a.py"⟩

end GVPA

namespace GVPA

/-! ## Claim C7: helper lemmas — node keys through the build stages -/

theorem keys_mono_addFuncNodes :
    ∀ (funcs : List FuncEntry) (g : CGraph) {b : String},
      b ∈ g.keys → b ∈ (addFuncNodes g funcs).keys := by
  intro funcs
  induction funcs with
  | nil => intro g b hb; exact hb
  | cons f rest ih =>
    intro g b hb
    exact ih _ ((Digraph.mem_keys_addNode _ _).mpr (.inr hb))

theorem mem_keys_addFuncNodes :
    ∀ (funcs : List FuncEntry) (g : CGraph) (f : FuncEntry),
      f ∈ funcs → f.name ∈ (addFuncNodes g funcs).keys := by
  intro funcs
  induction funcs with
  | nil => intro g f hf; cases hf
  | cons f0 rest ih =>
    intro g f hf
    rcases List.mem_cons.mp hf with rfl | hf
    · exact keys_mono_addFuncNodes rest _
        ((Digraph.mem_keys_addNode _ _).mpr (.inl rfl))
    · exact ih _ f hf

theorem keys_addCallEdges :
    ∀ (calls : List CallEntry) (g : CGraph),
      (addCallEdges g calls).keys = g.keys := by
  intro calls
  induction calls with
  | nil => intro g; rfl
  | cons c rest ih =>
    intro g
    show (addCallEdges _ rest).keys = _
    rw [ih]
    dsimp only
    split
    · exact Digraph.keys_addEdge _ _ _ _ _
    · rfl

theorem keys_addRelEdges (g : CGraph) (r : RelEntry) :
    ∀ (x y : Option String), (addRelEdges g r x y).keys = g.keys := by
  intro x y
  match x, y with
  | none, _ => rfl
  | some s, none => rfl
  | some s, some t =>
    simp only [addRelEdges]
    split
    · split
      · rw [Digraph.keys_addEdge, Digraph.keys_addEdge]
      · exact Digraph.keys_addEdge _ _ _ _ _
    · rfl

theorem keys_mono_addRelEntry {g : CGraph} {r : RelEntry} {b : String}
    (hb : b ∈ g.keys) : b ∈ (addRelEntry g r).keys := by
  unfold addRelEntry
  rw [keys_addRelEdges]
  exact keys_mono_ensureRelNode (keys_mono_ensureRelNode hb)

theorem keys_mono_relsFold :
    ∀ (rels : List RelEntry) (g : CGraph) {b : String},
      b ∈ g.keys → b ∈ (rels.foldl addRelEntry g).keys := by
  intro rels
  induction rels with
  | nil => intro g b hb; exact hb
  | cons r rest ih =>
    intro g b hb
    exact ih _ (keys_mono_addRelEntry hb)

theorem keys_mono_addFileNodes {g : CGraph} {b : String} (hb : b ∈ g.keys) :
    b ∈ (addFileNodes g).keys := by
  unfold addFileNodes
  have hmain : ∀ (l : List String) (g2 : CGraph), b ∈ g2.keys →
      b ∈ (l.foldl
        (fun g f =>
          if g.hasNode f then g
          else g.addNode f
            { type_ := some "File", file := some f, layer := none,
              module := some "file_root", lineno := none, doc := none,
              status := none }
            NodeAttrs.update) g2).keys := by
    intro l
    induction l with
    | nil => intro g2 h; exact h
    | cons f rest ih =>
      intro g2 h
      simp only [List.foldl_cons]
      apply ih
      split
      · exact h
      · exact (Digraph.mem_keys_addNode _ _).mpr (.inr h)
  exact hmain _ g hb

theorem nodes_foldl_containsStep :
    ∀ (l : List (String × NodeAttrs)) (g2 : CGraph),
      (l.foldl containsStep g2).nodes = g2.nodes := by
  intro l
  induction l with
  | nil => intro g2; rfl
  | cons p rest ih =>
    intro g2
    simp only [List.foldl_cons]
    rw [ih, nodes_containsStep]

theorem keys_addContainsEdges (g : CGraph) :
    (addContainsEdges g).keys = g.keys := by
  unfold addContainsEdges Digraph.keys
  rw [nodes_foldl_containsStep]

/-- No input symbol is lost: every function entry's name is a node key of
the working graph. -/
theorem buildG_mem_keys_func (rels : List RelEntry) (a : AnalysisResult)
    (f : FuncEntry) (hf : f ∈ a.functions) :
    f.name ∈ (buildG rels a).keys := by
  unfold buildG
  rw [keys_addContainsEdges]
  apply keys_mono_addFileNodes
  apply keys_mono_relsFold
  rw [keys_addCallEdges]
  exact mem_keys_addFuncNodes a.functions _ f hf

end GVPA

namespace GVPA

def c7B : AnalysisResult :=
  { functions := [⟨"m.f", some "a.py", some "Function", none, none, none⟩]
    calls := [] }

/-- **C7 counterexample**: with one input symbol whose file is truthy, full
mode serializes TWO nodes (the function and its `File` node), so the output
node ids are not in bijection with the input symbols. -/
theorem c7_counterexample :
    c7B.functions.length = 1 ∧
    (buildFull [] c7B none).nodeIdTitleSeq.length = 2 := by decide

/-- **C7** (amended): in both modes the serialized ids are the dense
integers `0..n-1` in output order; the full-mode output titles are exactly
the working graph's node keys in order (function names plus synthesized
relation endpoints plus `File` nodes — a superset of the input symbols),
those keys are pairwise distinct and no function entry's name is lost; the
aggregated-mode output has one node per distinct input file, in
first-appearance order, titled by basename. -/
theorem c7_dense_ids_and_node_bijection (rels : List RelEntry)
    (a : AnalysisResult) (trace : Option (List (Option String))) :
    ((buildFull rels a trace).nodeIdTitleSeq.map (fun p => p.1) =
      List.range' 0 (buildG rels a).nodes.length) ∧
    ((buildFull rels a trace).nodeIdTitleSeq.map (fun p => p.2.1) =
      (buildG rels a).keys) ∧
    ((buildG rels a).keys.Nodup) ∧
    (∀ f ∈ a.functions, f.name ∈ (buildG rels a).keys) ∧
    ((buildAggregated a).nodeIdTitleSeq.map (fun p => p.1) =
      List.range' 0 (firstDedup (a.functions.map fileOf)).length) ∧
    ((buildAggregated a).nodeIdTitleSeq.map (fun p => p.2.1) =
      (firstDedup (a.functions.map fileOf)).map
        (fun n => if n = "" then "unknown" else basename n)) := by
  have hcov : ∀ p ∈ (buildG rels a).nodes,
      (alookup p.1 (fullPos rels a)).isSome = true := by
    intro p hp
    obtain ⟨q, hq⟩ := computeLayeredLayout_covers (buildG rels a)
      (execMapOf (buildG rels a)) (List.mem_map.mpr ⟨p, hp, rfl⟩)
    exact alookup_isSome_iff.mpr (List.mem_map.mpr ⟨(p.1, q), hq, rfl⟩)
  have hstruct := serializeNodesAux_struct (fullPos rels a)
    (execMapOf (buildG rels a)) (hitCountsOf trace) trace.isSome
    (qmin ((fullPos rels a).map (fun p => p.2.1)))
    (qmin ((fullPos rels a).map (fun p => p.2.2)))
    (buildG rels a).nodes 0 hcov
  have haggstruct := serializeAggNodesAux_struct
    (computeLayeredLayout (aggGraphOf a) (execMapOf (aggGraphOf a)))
    (execMapOf (aggGraphOf a)) (aggGraphOf a).nodes 0
  have hlen : (aggGraphOf a).nodes.length =
      (firstDedup (a.functions.map fileOf)).length := by
    rw [← fileFuncCountOf_keys]
    simp [aggGraphOf, akeys]
  refine ⟨?_, ?_, (wf_buildG rels a).2,
    fun f hf => buildG_mem_keys_func rels a f hf, ?_, ?_⟩
  · show ((fullSer rels a trace).1.map
        (fun n => (n.id, n.title, n.execSeq))).map (fun p => p.1) = _
    rw [List.map_map]
    exact hstruct.2.1
  · show ((fullSer rels a trace).1.map
        (fun n => (n.id, n.title, n.execSeq))).map (fun p => p.2.1) = _
    rw [List.map_map]
    exact hstruct.1
  · show ((aggSer a).1.map
        (fun n => (n.id, n.title, n.execSeq))).map (fun p => p.1) = _
    rw [List.map_map, ← hlen]
    exact haggstruct.2.1
  · show ((aggSer a).1.map
        (fun n => (n.id, n.title, n.execSeq))).map (fun p => p.2.1) = _
    rw [List.map_map]
    have h2 : (firstDedup (a.functions.map fileOf)).map
        (fun n => if n = "" then "unknown" else basename n) =
        (aggGraphOf a).nodes.map
          (fun p => if p.1 = "" then "unknown" else basename p.1) := by
      rw [← fileFuncCountOf_keys, akeys, List.map_map]
      rfl
    rw [h2]
    exact haggstruct.1

def c7F : FuncEntry := ⟨"m.f", some "a.py", some "Function", none, none, none⟩

/-- Witness for the amended C7 at a one-function input: the function's name
is a key of the working graph and the full-mode ids are `0..n-1`. -/
theorem c7_witness :
    c7F ∈ c7B.functions ∧
    c7F.name ∈ (buildG [] c7B).keys ∧
    (buildFull [] c7B none).nodeIdTitleSeq.map (fun p => p.1) =
      List.range' 0 (buildG [] c7B).nodes.length := by
  have h := c7_dense_ids_and_node_bijection [] c7B none
  exact ⟨by decide, h.2.2.2.1 c7F (by decide), h.1⟩

end GVPA

namespace GVPA

/-! ## Claim C6: helper lemmas for the strict layered layout -/

section C6Aux

variable {α : Type} [DecidableEq α]

/-- The `current_x` value of `_layout_layered_strict` when it reaches a given
column: each column advances it by the column's maximum node width plus the
fixed horizontal gap `MIN_DIST_X = 100`. -/
def colXFrom (g : Digraph α OptAttrs Unit) : List (List α) → ℚ → Nat → ℚ
  | [], x0, _ => x0
  | l :: ls, x0, k =>
    match k with
    | 0 => x0
    | k + 1 => colXFrom g ls (x0 + (strictColumn g x0 l 0 0).2 + 100) k

theorem strictColumn_maxw_ge (g : Digraph α OptAttrs Unit) (x : ℚ) :
    ∀ (l : List α) (mw cy : ℚ), mw ≤ (strictColumn g x l mw cy).2 := by
  intro l
  induction l with
  | nil => intro mw cy; exact le_refl _
  | cons nid rest ih =>
    intro mw cy
    show mw ≤ (strictColumn g x rest (max mw ((g.attrs nid).getD default).width)
      (cy + ((g.attrs nid).getD default).height + 80)).2
    exact le_trans (le_max_left _ _) (ih _ _)

theorem strictColumn_alookup_mem (g : Digraph α OptAttrs Unit) (x : ℚ) :
    ∀ (l : List α) (mw cy : ℚ) (a : α), a ∈ l →
      ∃ y, alookup a (strictColumn g x l mw cy).1 = some (x, y) := by
  intro l
  induction l with
  | nil => intro mw cy a ha; cases ha
  | cons nid rest ih =>
    intro mw cy a ha
    by_cases h : nid = a
    · subst h
      exact ⟨cy, by
        show alookup nid ((nid, (x, cy)) :: _) = _
        simp [alookup]⟩
    · have hmem : a ∈ rest := by
        rcases List.mem_cons.mp ha with rfl | hm
        · exact absurd rfl h
        · exact hm
      obtain ⟨y, hy⟩ := ih (max mw ((g.attrs nid).getD default).width)
        (cy + ((g.attrs nid).getD default).height + 80) a hmem
      exact ⟨y, by
        show alookup a ((nid, (x, cy)) :: _) = _
        simp only [alookup, if_neg h]
        exact hy⟩

theorem strictColumn_alookup_not_mem (g : Digraph α OptAttrs Unit) (x : ℚ) :
    ∀ (l : List α) (mw cy : ℚ) (a : α), a ∉ l →
      alookup a (strictColumn g x l mw cy).1 = none := by
  intro l
  induction l with
  | nil => intro mw cy a _; rfl
  | cons nid rest ih =>
    intro mw cy a ha
    have h1 : ¬ nid = a := fun h => ha (h ▸ List.mem_cons_self _ _)
    have h2 : a ∉ rest := fun h => ha (List.mem_cons_of_mem _ h)
    show alookup a ((nid, (x, cy)) :: _) = none
    simp only [alookup, if_neg h1]
    exact ih _ _ a h2

theorem strictLayers_alookup (g : Digraph α OptAttrs Unit) :
    ∀ (ls : List (List α)) (x0 : ℚ) (a : α) (i : Nat),
      Digraph.genOf ls a = some i →
      ∃ y, alookup a (strictLayers g ls x0) = some (colXFrom g ls x0 i, y) := by
  intro ls
  induction ls with
  | nil => intro x0 a i h; cases h
  | cons l rest ih =>
    intro x0 a i h
    simp only [Digraph.genOf] at h
    by_cases hmem : a ∈ l
    · rw [if_pos hmem] at h
      obtain rfl : i = 0 := (Option.some_inj.mp h).symm
      obtain ⟨y, hy⟩ := strictColumn_alookup_mem g x0 l 0 0 a hmem
      exact ⟨y, by
        show alookup a ((strictColumn g x0 l 0 0).1 ++ _) = _
        rw [alookup_append_left hy]
        rfl⟩
    · rw [if_neg hmem] at h
      obtain ⟨i', hg, rfl⟩ := Option.map_eq_some'.mp h
      obtain ⟨y, hy⟩ := ih (x0 + (strictColumn g x0 l 0 0).2 + 100) a i' hg
      refine ⟨y, ?_⟩
      show alookup a ((strictColumn g x0 l 0 0).1 ++ _) = _
      rw [alookup_append_right (strictColumn_alookup_not_mem g x0 l 0 0 a hmem)]
      exact hy

theorem colXFrom_ge (g : Digraph α OptAttrs Unit) :
    ∀ (ls : List (List α)) (x0 : ℚ) (k : Nat), x0 ≤ colXFrom g ls x0 k := by
  intro ls
  induction ls with
  | nil => intro x0 k; exact le_refl _
  | cons l rest ih =>
    intro x0 k
    match k with
    | 0 => exact le_refl _
    | k + 1 =>
      have h0 : (0 : ℚ) ≤ (strictColumn g x0 l 0 0).2 :=
        strictColumn_maxw_ge g x0 l 0 0
      have hge := ih (x0 + (strictColumn g x0 l 0 0).2 + 100) k
      show x0 ≤ colXFrom g rest (x0 + (strictColumn g x0 l 0 0).2 + 100) k
      linarith

theorem colXFrom_lt (g : Digraph α OptAttrs Unit) :
    ∀ (ls : List (List α)) (x0 : ℚ) (i j : Nat), i < j → j < ls.length →
      colXFrom g ls x0 i < colXFrom g ls x0 j := by
  intro ls
  induction ls with
  | nil => intro x0 i j _ hj; simp at hj
  | cons l rest ih =>
    intro x0 i j hij hj
    match i, j with
    | 0, j' + 1 =>
      have h0 : (0 : ℚ) ≤ (strictColumn g x0 l 0 0).2 :=
        strictColumn_maxw_ge g x0 l 0 0
      have hge := colXFrom_ge g rest (x0 + (strictColumn g x0 l 0 0).2 + 100) j'
      show x0 < colXFrom g rest (x0 + (strictColumn g x0 l 0 0).2 + 100) j'
      linarith
    | i' + 1, j' + 1 =>
      exact ih _ i' j' (by omega) (by simpa using hj)

theorem genOf_lt_length :
    ∀ (ls : List (List α)) (a : α) (i : Nat),
      Digraph.genOf ls a = some i → i < ls.length := by
  intro ls
  induction ls with
  | nil => intro a i h; cases h
  | cons l rest ih =>
    intro a i h
    simp only [Digraph.genOf] at h
    by_cases hmem : a ∈ l
    · rw [if_pos hmem] at h
      obtain rfl : i = 0 := (Option.some_inj.mp h).symm
      simp
    · rw [if_neg hmem] at h
      obtain ⟨i', hg, rfl⟩ := Option.map_eq_some'.mp h
      have := ih a i' hg
      simp only [List.length_cons]
      omega

theorem wf_buildOptG (ns : List (OptNodeIn α)) (es : List (α × α)) :
    (buildOptG ns es).Wf := by
  have h1 : ∀ (f : OptNodeIn α → OptAttrs) (m : OptAttrs → OptAttrs → OptAttrs)
      (l : List (OptNodeIn α)) (g : Digraph α OptAttrs Unit), g.Wf →
      (l.foldl (fun g n => g.addNode n.id (f n) m) g).Wf := by
    intro f m l
    induction l with
    | nil => intro g h; exact h
    | cons n rest ih =>
      intro g h
      exact ih _ (Digraph.wf_addNode _ _ h)
  have h2 : ∀ (l : List (α × α)) (g : Digraph α OptAttrs Unit), g.Wf →
      (l.foldl
        (fun g e =>
          if g.hasNode e.1 && g.hasNode e.2 then
            g.addEdge e.1 e.2 () (fun _ _ => ())
          else g) g).Wf := by
    intro l
    induction l with
    | nil => intro g h; exact h
    | cons e rest ih =>
      intro g h
      simp only [List.foldl_cons]
      by_cases hc : (g.hasNode e.1 && g.hasNode e.2) = true
      · rw [if_pos hc]
        rw [Bool.and_eq_true] at hc
        exact ih _ (Digraph.wf_addEdge _ _ h (Digraph.hasNode_iff.mp hc.1)
          (Digraph.hasNode_iff.mp hc.2))
      · rw [if_neg hc]
        exact ih _ h
  exact h2 es _ (h1 _ _ ns _ wf_empty)

end C6Aux

end GVPA

namespace GVPA

/-- **C6**: on every acyclic optimizer input graph the strict layered layout
assigns each node the `current_x` of its topological generation, `current_x`
is strictly increasing across generations (each column advances by its
maximum node width plus the fixed 100px gap, per `colXFrom`), and hence
every directed edge runs strictly left to right: `source.x < target.x`. -/
theorem c6_strict_layered_left_to_right {α : Type} [DecidableEq α]
    (ns : List (OptNodeIn α)) (es : List (α × α))
    (hacyc : (buildOptG ns es).hasCycleB = false) :
    ∃ ls, (buildOptG ns es).topoGenerations = some ls ∧
      (∀ (a : α) (i : Nat), Digraph.genOf ls a = some i →
        ∃ y, alookup a (layoutLayeredStrict (buildOptG ns es)) =
          some (colXFrom (buildOptG ns es) ls 0 i, y)) ∧
      (∀ i j : Nat, i < j → j < ls.length →
        colXFrom (buildOptG ns es) ls 0 i <
          colXFrom (buildOptG ns es) ls 0 j) ∧
      (∀ t ∈ (buildOptG ns es).edges, ∃ xu yu xv yv,
        alookup t.1 (layoutLayeredStrict (buildOptG ns es)) = some (xu, yu) ∧
        alookup t.2.1 (layoutLayeredStrict (buildOptG ns es)) = some (xv, yv) ∧
        xu < xv) := by
  have hwf := wf_buildOptG ns es
  have hsome : ((buildOptG ns es).topoGenerations).isSome = true :=
    Digraph.peelAux_isSome_of_acyclic ((buildOptG ns es).nodes.length + 1)
      (buildOptG ns es) (by omega) hwf hacyc
  obtain ⟨ls, hls⟩ := Option.isSome_iff_exists.mp hsome
  have hlay : layoutLayeredStrict (buildOptG ns es) =
      strictLayers (buildOptG ns es) ls 0 := by
    unfold layoutLayeredStrict
    simp only [hacyc, Bool.false_eq_true, if_false, hls]
  refine ⟨ls, hls, ?_, ?_, ?_⟩
  · intro a i h
    rw [hlay]
    exact strictLayers_alookup _ ls 0 a i h
  · intro i j hij hj
    exact colXFrom_lt _ ls 0 i j hij hj
  · intro t ht
    obtain ⟨i, j, hgi, hgj, hij⟩ :=
      Digraph.peelAux_genOf_lt ((buildOptG ns es).nodes.length + 1)
        (buildOptG ns es) ls hls hwf.1 t ht
    obtain ⟨yu, hyu⟩ := strictLayers_alookup (buildOptG ns es) ls 0 t.1 i hgi
    obtain ⟨yv, hyv⟩ := strictLayers_alookup (buildOptG ns es) ls 0 t.2.1 j hgj
    exact ⟨_, yu, _, yv, by rw [hlay]; exact hyu, by rw [hlay]; exact hyv,
      colXFrom_lt _ ls 0 i j hij (genOf_lt_length ls t.2.1 j hgj)⟩

def c6N : List (OptNodeIn String) :=
  [⟨"a", none, none, none, none, none⟩, ⟨"b", none, none, none, none, none⟩]

def c6E : List (String × String) := [("a", "b")]

/-- Witness for C6 on a two-node acyclic graph with one edge. -/
theorem c6_witness :
    (buildOptG c6N c6E).hasCycleB = false ∧
    (∃ ls, (buildOptG c6N c6E).topoGenerations = some ls) ∧
    (∀ t ∈ (buildOptG c6N c6E).edges, ∃ xu yu xv yv,
      alookup t.1 (layoutLayeredStrict (buildOptG c6N c6E)) = some (xu, yu) ∧
      alookup t.2.1 (layoutLayeredStrict (buildOptG c6N c6E)) = some (xv, yv) ∧
      xu < xv) := by
  have h := c6_strict_layered_left_to_right c6N c6E (by decide)
  obtain ⟨ls, hls, _, _, h4⟩ := h
  exact ⟨by decide, ⟨ls, hls⟩, h4⟩

end GVPA

namespace GVPA

/-! ## Claim C9: helper lemmas — the hybrid relaxation never moves a locked
node's y, and the collision sweep enforces the exact minimum gap -/

section C9Aux

variable {α : Type} [DecidableEq α]

theorem barycenterPass_locked (g : Digraph α OptAttrs Unit) (locked : List α)
    (y : α → ℚ) {n : α} (hn : n ∈ locked) :
    barycenterPass g locked y n = y n := by
  unfold barycenterPass
  rw [if_pos hn]

theorem resolvePairStep_locked (heights : α → ℚ) (locked : List α)
    (u v : α) (y : α → ℚ) {n : α} (hn : n ∈ locked) :
    resolvePairStep heights locked u v y n = y n := by
  unfold resolvePairStep
  by_cases h1 : y v - y u < (heights u + heights v) / 2 + 80
  · rw [if_pos h1]
    by_cases h2 : u ∈ locked ∧ v ∈ locked
    · rw [if_pos h2]
    · rw [if_neg h2]
      by_cases h3 : u ∈ locked
      · rw [if_pos h3]
        have hnv : ¬ n = v := fun h => h2 ⟨h3, h ▸ hn⟩
        simp only [if_neg hnv]
      · rw [if_neg h3]
        by_cases h4 : v ∈ locked
        · rw [if_pos h4]
          have hnu : ¬ n = u := fun h => h3 (h ▸ hn)
          simp only [if_neg hnu]
        · have hnv : ¬ n = v := fun h => h4 (h ▸ hn)
          have hnu : ¬ n = u := fun h => h3 (h ▸ hn)
          rw [if_neg h4]
          simp only [if_neg hnv, if_neg hnu]
  · rw [if_neg h1]

theorem sweepPairs_locked (heights : α → ℚ) (locked : List α) {n : α}
    (hn : n ∈ locked) :
    ∀ (l : List α) (y : α → ℚ), sweepPairs heights locked l y n = y n := by
  intro l
  induction l with
  | nil => intro y; rfl
  | cons u rest ih =>
    intro y
    cases rest with
    | nil => rfl
    | cons v rest' =>
      show sweepPairs heights locked (v :: rest')
        (resolvePairStep heights locked u v y) n = y n
      rw [ih (resolvePairStep heights locked u v y)]
      exact resolvePairStep_locked heights locked u v y hn

theorem hybridIter_locked (g : Digraph α OptAttrs Unit) (locked : List α)
    (heights : α → ℚ) (st : List (List α) × (α → ℚ)) {n : α}
    (hn : n ∈ locked) :
    (hybridIter g locked heights st).2 n = st.2 n := by
  have hfold : ∀ (ls : List (List α)) (acc : List (List α) × (α → ℚ)),
      (ls.foldl
        (fun (acc : List (List α) × (α → ℚ)) layer =>
          (acc.1 ++ [stableSort (fun a b => decide (acc.2 a ≤ acc.2 b)) layer],
            sweepPairs heights locked
              (stableSort (fun a b => decide (acc.2 a ≤ acc.2 b)) layer)
              acc.2))
        acc).2 n = acc.2 n := by
    intro ls
    induction ls with
    | nil => intro acc; rfl
    | cons layer rest ih =>
      intro acc
      simp only [List.foldl_cons]
      rw [ih]
      exact sweepPairs_locked heights locked hn _ _
  show (st.1.foldl _ ([], barycenterPass g locked st.2)).2 n = st.2 n
  rw [hfold]
  exact barycenterPass_locked g locked st.2 hn

theorem hybridLoop_locked (g : Digraph α OptAttrs Unit) (locked : List α)
    (heights : α → ℚ) {n : α} (hn : n ∈ locked) :
    ∀ (k : Nat) (st : List (List α) × (α → ℚ)),
      (hybridLoop g locked heights k st).2 n = st.2 n := by
  intro k
  induction k with
  | zero => intro st; rfl
  | succ k ih =>
    intro st
    show (hybridLoop g locked heights k (hybridIter g locked heights st)).2 n =
      st.2 n
    rw [ih]
    exact hybridIter_locked g locked heights st hn

theorem alookup_map_graph {β : Type} (f : α → β) :
    ∀ (keys : List α) (n : α), n ∈ keys →
      alookup n (keys.map (fun k => (k, f k))) = some (f n) := by
  intro keys
  induction keys with
  | nil => intro n hn; cases hn
  | cons k rest ih =>
    intro n hn
    by_cases hk : k = n
    · subst hk
      simp [alookup]
    · simp only [List.map_cons, alookup, if_neg hk]
      rcases List.mem_cons.mp hn with rfl | hm
      · exact absurd rfl hk
      · exact ih n hm

/-- A locked node's serialized y is its input y, for every iteration count. -/
theorem layoutHybrid_locked_y (g : Digraph α OptAttrs Unit) (locked : List α)
    (iterations : Nat) {n : α} (hn : n ∈ locked) (hk : n ∈ g.keys) :
    ∃ x, alookup n (layoutHybrid g locked iterations) =
      some (x, ((g.attrs n).getD default).y) := by
  unfold layoutHybrid
  rw [alookup_map_graph _ g.keys n hk]
  refine ⟨(alookup n (hybridXAux g (hybridLayers g) 0)).getD 0, ?_⟩
  rw [hybridLoop_locked g locked _ hn iterations]

end C9Aux

end GVPA

namespace GVPA

section C9Gap

variable {α : Type} [DecidableEq α]
variable (heights : α → ℚ) (locked : List α) (u v : α) (y : α → ℚ)

theorem resolvePairStep_both_locked
    (hcol : y v - y u < (heights u + heights v) / 2 + 80)
    (hu : u ∈ locked) (hv : v ∈ locked) :
    resolvePairStep heights locked u v y = y := by
  unfold resolvePairStep
  rw [if_pos hcol, if_pos ⟨hu, hv⟩]

theorem resolvePairStep_u_locked (huv : ¬ u = v)
    (hcol : y v - y u < (heights u + heights v) / 2 + 80)
    (hu : u ∈ locked) (hv : v ∉ locked) :
    resolvePairStep heights locked u v y u = y u ∧
    resolvePairStep heights locked u v y v -
      resolvePairStep heights locked u v y u =
      (heights u + heights v) / 2 + 80 := by
  have hres : resolvePairStep heights locked u v y = fun x =>
      if x = v then y v + ((heights u + heights v) / 2 + 80 - (y v - y u))
      else y x := by
    unfold resolvePairStep
    rw [if_pos hcol, if_neg (fun h => hv h.2), if_pos hu]
  rw [hres]
  constructor
  · simp only [if_neg huv]
  · simp only [if_neg huv, eq_self_iff_true, if_true]
    ring

theorem resolvePairStep_v_locked (huv : ¬ u = v)
    (hcol : y v - y u < (heights u + heights v) / 2 + 80)
    (hu : u ∉ locked) (hv : v ∈ locked) :
    resolvePairStep heights locked u v y v = y v ∧
    resolvePairStep heights locked u v y v -
      resolvePairStep heights locked u v y u =
      (heights u + heights v) / 2 + 80 := by
  have hvu : ¬ v = u := fun h => huv h.symm
  have hres : resolvePairStep heights locked u v y = fun x =>
      if x = u then y u - ((heights u + heights v) / 2 + 80 - (y v - y u))
      else y x := by
    unfold resolvePairStep
    rw [if_pos hcol, if_neg (fun h => hu h.1), if_neg hu, if_pos hv]
  rw [hres]
  constructor
  · simp only [if_neg hvu]
  · simp only [if_neg hvu, eq_self_iff_true, if_true]
    ring

theorem resolvePairStep_neither_locked (huv : ¬ u = v)
    (hcol : y v - y u < (heights u + heights v) / 2 + 80)
    (hu : u ∉ locked) (hv : v ∉ locked) :
    resolvePairStep heights locked u v y v -
      resolvePairStep heights locked u v y u =
      (heights u + heights v) / 2 + 80 := by
  have hvu : ¬ v = u := fun h => huv h.symm
  have hres : resolvePairStep heights locked u v y = fun x =>
      if x = v then y v + ((heights u + heights v) / 2 + 80 - (y v - y u)) / 2
      else if x = u then
        y u - ((heights u + heights v) / 2 + 80 - (y v - y u)) / 2
      else y x := by
    unfold resolvePairStep
    rw [if_pos hcol, if_neg (fun h => hu h.1), if_neg hu, if_neg hv]
  rw [hres]
  simp only [if_neg huv, if_neg hvu, eq_self_iff_true, if_true]
  ring

theorem resolvePairStep_no_collision
    (h : ¬ (y v - y u < (heights u + heights v) / 2 + 80)) :
    resolvePairStep heights locked u v y = y := by
  unfold resolvePairStep
  rw [if_neg h]

end C9Gap

end GVPA

namespace GVPA

def c9N : List (OptNodeIn String) :=
  [⟨"n", some 999, some 5, none, none, some true⟩]

/-- **C9 counterexample**: a locked node at input position `(999, 5)` comes
out of the hybrid layout at `(0, 5)` — its x is unconditionally reassigned
to its topological column, so a locked node's output position does NOT equal
its input position (only its y survives). -/
theorem c9_counterexample :
    lockedOf c9N = ["n"] ∧
    layoutHybrid (buildOptG c9N []) (lockedOf c9N) 50 =
      [("n", (0, 5))] := by decide

/-- **C9** (amended): in the hybrid layout, for every graph, locked set and
iteration count, a locked node's output **y** equals its input y (its x is
still reassigned to its column, see the counterexample); and one step of the
pairwise collision sweep on a colliding pair (gap below half the height sum
plus 80) leaves a doubly-locked pair untouched, pushes only the later node
down to the exact minimum gap when the earlier is locked, pushes only the
earlier node up when the later is locked, splits the correction when neither
is locked — always restoring exactly `(h_u + h_v)/2 + 80` — and a
non-colliding pair is never moved. -/
theorem c9_hybrid_locked_and_gap {α : Type} [DecidableEq α]
    (g : Digraph α OptAttrs Unit) (locked : List α) (iterations : Nat)
    (heights y : α → ℚ) (u v : α) :
    (∀ n ∈ locked, n ∈ g.keys →
      ∃ x, alookup n (layoutHybrid g locked iterations) =
        some (x, ((g.attrs n).getD default).y)) ∧
    (¬ u = v → y v - y u < (heights u + heights v) / 2 + 80 →
      ((u ∈ locked → v ∈ locked →
          resolvePairStep heights locked u v y = y) ∧
       (u ∈ locked → v ∉ locked →
          resolvePairStep heights locked u v y u = y u ∧
          resolvePairStep heights locked u v y v -
            resolvePairStep heights locked u v y u =
            (heights u + heights v) / 2 + 80) ∧
       (u ∉ locked → v ∈ locked →
          resolvePairStep heights locked u v y v = y v ∧
          resolvePairStep heights locked u v y v -
            resolvePairStep heights locked u v y u =
            (heights u + heights v) / 2 + 80) ∧
       (u ∉ locked → v ∉ locked →
          resolvePairStep heights locked u v y v -
            resolvePairStep heights locked u v y u =
            (heights u + heights v) / 2 + 80))) ∧
    (¬ (y v - y u < (heights u + heights v) / 2 + 80) →
      resolvePairStep heights locked u v y = y) := by
  refine ⟨?_, ?_, resolvePairStep_no_collision heights locked u v y⟩
  · intro n hn hk
    exact layoutHybrid_locked_y g locked iterations hn hk
  · intro huv hcol
    exact ⟨fun hu hv => resolvePairStep_both_locked heights locked u v y hcol hu hv,
      fun hu hv => resolvePairStep_u_locked heights locked u v y huv hcol hu hv,
      fun hu hv => resolvePairStep_v_locked heights locked u v y huv hcol hu hv,
      fun hu hv =>
        resolvePairStep_neither_locked heights locked u v y huv hcol hu hv⟩

def c9W : List (OptNodeIn String) :=
  [⟨"a", some 0, some 0, none, none, some true⟩,
    ⟨"b", some 0, some 10, none, none, none⟩]

def c9H : String → ℚ := fun _ => 100

def c9Y : String → ℚ := fun x => if x = "b" then 10 else 0

/-- Witness for the amended C9: the locked node keeps its input y through 50
hybrid iterations, and one collision-sweep step on the colliding pair with
the earlier node locked pushes only the later one, to the exact gap 180. -/
theorem c9_witness :
    ("a" : String) ∈ lockedOf c9W ∧
    (∃ x, alookup "a" (layoutHybrid (buildOptG c9W []) (lockedOf c9W) 50) =
      some (x, (((buildOptG c9W []).attrs "a").getD default).y)) ∧
    (resolvePairStep c9H (lockedOf c9W) "a" "b" c9Y "a" = c9Y "a" ∧
      resolvePairStep c9H (lockedOf c9W) "a" "b" c9Y "b" -
        resolvePairStep c9H (lockedOf c9W) "a" "b" c9Y "a" =
        (c9H "a" + c9H "b") / 2 + 80) := by
  have h := c9_hybrid_locked_and_gap (buildOptG c9W []) (lockedOf c9W) 50
    c9H c9Y "a" "b"
  exact ⟨by decide, h.1 "a" (by decide) (by decide),
    (h.2.1 (by decide)
        (by
          simp only [c9Y, c9H, if_pos rfl,
            if_neg (by decide : ¬ ("a" : String) = "b")]
          norm_num)).2.1
      (by decide) (by decide)⟩

end GVPA
